import Mathlib

/-!
Verification development for the INLOpen/skiplist Go repository.

We give a shallow embedding of the skiplist core (skiplist.go, the version
with per-level spans and the pluggable allocator), the iterator family
(iterator.go), and the growable memory arena (arena.go).

Modelling conventions:
- Keys and values are specialised to `Int` (the Go code is generic with a
  comparator; the default comparator `cmp.Compare` on integers is embedded
  as `cmpInt`).
- The heap of nodes is a functional store `Nat → node`; node ids play the
  role of pointers, the header sentinel is a distinguished id. Go's `nil`
  node pointer is `Option.none`.  Allocation hands out a fresh id:
  the pool allocator fully reinitialises reused nodes (the `reset` method
  zero-fills key, value, backward, forward and span), and every field of a
  freshly obtained node is assigned before the node is linked, so a reused
  node is indistinguishable from a fresh one.
- Go slice indexing `xs[i]` is modelled by `List.get?` with a default;
  in every state reachable by the public API the indices are in range
  (this is part of the invariant proved below), so the default is never hit.
- The reader/writer mutex serialises every public operation, so each public
  operation is embedded as a pure state transformer.
- Go `int` is `Int`; lengths and spans are `Int` (spans of chain-final
  nodes can genuinely drift below their true value, see the theorems about
  the span invariant).  The list level is modelled as `Nat`: the Go code
  never makes it negative (it starts at 0, is only assigned `newLevel-1`
  with `newLevel ≥ 1`, and is only decremented under a `> 0` guard).
-/

namespace Skiplist

/-- `cmp.Compare` for integers: -1, 0 or 1. -/
def cmpInt (a b : Int) : Int :=
  if a < b then -1 else if a = b then 0 else 1

/-- MaxLevel from skiplist.go. -/
def MaxLevel : Nat := 32

/-- A skiplist node (struct `node[K,V]` in node.go): key, value, the
base-level backward pointer, per-level forward pointers and spans. -/
structure node where
  key : Int
  value : Int
  backward : Option Nat
  forward : List (Option Nat)
  span : List Int
  deriving Repr, DecidableEq

/-- Forward pointer of a node record at level `i` (slice read `n.forward[i]`). -/
def node.fwdN (n : node) (i : Nat) : Option Nat :=
  (n.forward.get? i).getD none

/-- Span of a node record at level `i` (slice read `n.span[i]`). -/
def node.spnN (n : node) (i : Nat) : Int :=
  (n.span.get? i).getD 0

/-- The skiplist state (struct `SkipList[K,V]`): a functional node store with
a fresh-id counter, the header id, the current level, the length, and the
allocator kind selected at construction. -/
structure SkipList where
  store : Nat → node
  nextId : Nat
  header : Nat
  level : Nat
  length : Int
  isArena : Bool

/-- Store update (a write through a node pointer). -/
def setStore (st : Nat → node) (i : Nat) (n : node) : Nat → node :=
  fun j => if j = i then n else st j

/-- `x.forward[i]` in state `s`. -/
def fwd (s : SkipList) (x i : Nat) : Option Nat :=
  (s.store x).fwdN i

/-- `x.span[i]` in state `s`. -/
def spn (s : SkipList) (x i : Nat) : Int :=
  (s.store x).spnN i

/-- Height of a node: the length of its forward slice. -/
def height (s : SkipList) (x : Nat) : Nat :=
  (s.store x).forward.length

/-- `x.key` in state `s`. -/
def key (s : SkipList) (x : Nat) : Int :=
  (s.store x).key

/-- `x.value` in state `s`. -/
def value (s : SkipList) (x : Nat) : Int :=
  (s.store x).value

/-- The empty node (Go zero value). -/
def node.empty : node :=
  { key := 0, value := 0, backward := none, forward := [], span := [] }

/-- Initial state built by `NewWithComparator`: a header node with
`MaxLevel`-sized forward and span slices, level 0, length 0. -/
def headerNode : node :=
  { key := 0, value := 0, backward := none,
    forward := List.replicate MaxLevel none, span := List.replicate MaxLevel 0 }

def initState (isArena : Bool) : SkipList :=
  { store := setStore (fun _ => node.empty) 0 headerNode,
    nextId := 1, header := 0, level := 0, length := 0, isArena := isArena }

/-- `randomLevel` from skiplist.go: examine successive 2-bit pairs of a
64-bit random word; the level grows while the low pair is 00 and the level
is below `MaxLevel`.  The fuel argument bounds the loop; `MaxLevel` steps
always suffice because the level strictly grows each step. -/
def randomLevelAux : Nat → Nat → Nat → Nat
  | 0, _, lvl => lvl
  | fuel+1, x, lvl =>
      if x % 4 = 0 ∧ lvl < MaxLevel then randomLevelAux fuel (x / 4) (lvl + 1)
      else lvl

/-- `randomLevel` applied to a concrete 64-bit word (any `Nat` here). -/
def randomLevel (x : Nat) : Nat :=
  randomLevelAux MaxLevel x 1

/-- The inner loop of every descending walk
(`for current.forward[i] != nil && compare(current.forward[i].key, key) < 0`),
accumulating the rank as in `Insert` and `Rank` (callers that do not need
the rank ignore the second component).  Fuel-bounded; the fuel `s.nextId`
exceeds every chain length in well-formed states. -/
def advance (s : SkipList) (k : Int) (i : Nat) : Nat → Nat → Int → Nat × Int
  | 0, cur, rank => (cur, rank)
  | fuel+1, cur, rank =>
      match fwd s cur i with
      | none => (cur, rank)
      | some nxt =>
          if cmpInt (key s nxt) k < 0 then
            advance s k i fuel nxt (rank + spn s cur i)
          else (cur, rank)

/-- The descending walk of `Insert`/`Delete`/`Rank`/`Search`:
`walkAt s k d` is the pair `(current, rank)` after the level
`s.level - d` iteration of the outer loop. -/
def walkAt (s : SkipList) (k : Int) : Nat → Nat × Int
  | 0 => advance s k s.level s.nextId s.header 0
  | d+1 =>
      let p := walkAt s k d
      advance s k (s.level - (d+1)) s.nextId p.1 p.2

/-- `update[i]` recorded by the walk (the header, with rank 0, for levels
above the current level, exactly as `Insert` fills them on level growth). -/
def updateI (s : SkipList) (k : Int) (i : Nat) : Nat :=
  if i ≤ s.level then (walkAt s k (s.level - i)).1 else s.header

/-- `ranks[i]` recorded by the walk. -/
def ranksI (s : SkipList) (k : Int) (i : Nat) : Int :=
  if i ≤ s.level then (walkAt s k (s.level - i)).2 else 0

/-- `Search`: walk down, then one step forward at level 0 and compare. -/
def Search (s : SkipList) (k : Int) : Option Nat :=
  match fwd s (updateI s k 0) 0 with
  | none => none
  | some c => if cmpInt (key s c) k = 0 then some c else none

/-- `Rank`: the rank accumulated by the walk at level 0. -/
def Rank (s : SkipList) (k : Int) : Int :=
  ranksI s k 0

/-- `findGreaterOrEqual`: the node after `update[0]`, i.e. the first node
with key ≥ the query. -/
def findGreaterOrEqual (s : SkipList) (k : Int) : Option Nat :=
  fwd s (updateI s k 0) 0

/-- `Len`. -/
def Len (s : SkipList) : Int :=
  s.length

/-- Level-extension step of `Insert`: when the sampled level exceeds the
current one, set `header.span[i] = length` for each newly occupied level
(`for i := sl.level + 1; i < newLevel; i++`) and raise the level. -/
def extendLevels (s : SkipList) (nl : Nat) : SkipList :=
  let hd := s.store s.header
  let sp := hd.span.mapIdx fun i a =>
    if s.level + 1 ≤ i ∧ i < nl then s.length else a
  { s with level := nl - 1, store := setStore s.store s.header { hd with span := sp } }

/-- One iteration of the splice loop of `Insert` at level `i`:
    newNode.forward[i] = cupdate.forward[i]
    cupdate.forward[i] = newNode
    newSpan := (ranks[0] - ranks[i]) + 1
    newNode.span[i] = cupdate.span[i] - (newSpan - 1)
    cupdate.span[i] = newSpan -/
def linkStep (upd : Nat → Nat) (rk : Nat → Int) (newId : Nat)
    (st : SkipList) (i : Nat) : SkipList :=
  let u := upd i
  let un := st.store u
  let nn := st.store newId
  let newSpan : Int := rk 0 - rk i + 1
  let nn2 := { nn with
    forward := nn.forward.set i (un.fwdN i),
    span := nn.span.set i (un.spnN i - (newSpan - 1)) }
  let un2 := { un with
    forward := un.forward.set i (some newId),
    span := un.span.set i newSpan }
  { st with store := setStore (setStore st.store newId nn2) u un2 }

/-- One iteration of the span-bump loop of `Insert`
(`update[i].span[i]++` for levels above the new node). -/
def bumpStep (upd : Nat → Nat) (st : SkipList) (i : Nat) : SkipList :=
  let u := upd i
  let un := st.store u
  let un2 : node := { un with span := un.span.set i (un.spnN i + 1) }
  { st with store := setStore st.store u un2 }

/-- Set the backward pointer of node `x`. -/
def setBackward (s : SkipList) (x : Nat) (b : Option Nat) : SkipList :=
  let n2 : node := { s.store x with backward := b }
  { s with store := setStore s.store x n2 }

/-- The new-key path of `Insert` (after the equal-key check failed), stage
by stage: sample the level, extend the list level if needed (`insertS1`),
allocate and initialise the node (`insertS2`), splice it at levels
`0..newLevel-1` (`insertS3`), bump spans above (`insertS4`), wire the
base-level backward pointers (`insertS5`, `insertS6`), and increment the
length (`insertNew`). -/
def insertS1 (s : SkipList) (w : Nat) : SkipList :=
  if s.level + 1 < randomLevel w then extendLevels s (randomLevel w) else s

def insertFresh (k v : Int) (w : Nat) : node :=
  { key := k, value := v, backward := none,
    forward := List.replicate (randomLevel w) none,
    span := List.replicate (randomLevel w) 0 }

def insertS2 (s : SkipList) (k v : Int) (w : Nat) : SkipList :=
  let s1 := insertS1 s w
  { s1 with
    nextId := s.nextId + 1
    store := setStore s1.store s.nextId (insertFresh k v w) }

def insertS3 (s : SkipList) (k v : Int) (w : Nat) : SkipList :=
  (List.range (randomLevel w)).foldl
    (linkStep (updateI s k) (ranksI s k) s.nextId) (insertS2 s k v w)

def insertS4 (s : SkipList) (k v : Int) (w : Nat) : SkipList :=
  (List.range' (randomLevel w)
      ((insertS3 s k v w).level + 1 - randomLevel w)).foldl
    (bumpStep (updateI s k)) (insertS3 s k v w)

def insertS5 (s : SkipList) (k v : Int) (w : Nat) : SkipList :=
  setBackward (insertS4 s k v w) s.nextId (some (updateI s k 0))

def insertS6 (s : SkipList) (k v : Int) (w : Nat) : SkipList :=
  match fwd (insertS5 s k v w) s.nextId 0 with
  | some nxt => setBackward (insertS5 s k v w) nxt (some s.nextId)
  | none => insertS5 s k v w

def insertNew (s : SkipList) (k v : Int) (w : Nat) : SkipList × Option Nat :=
  let s6 := insertS6 s k v w
  ({ s6 with length := s6.length + 1 }, none)

/-- `Insert`: walk, check for an equal key (overwrite the value in place and
return the node), otherwise run the new-key path.  The extra `w` argument is
the 64-bit random word consumed by `randomLevel`. -/
def Insert (s : SkipList) (k v : Int) (w : Nat) : SkipList × Option Nat :=
  match fwd s (updateI s k 0) 0 with
  | some c =>
      if cmpInt (key s c) k = 0 then
        ({ s with store := setStore s.store c { s.store c with value := v } },
         some c)
      else insertNew s k v w
  | none => insertNew s k v w

/-- One iteration of the unlink loop of `deleteNode` at level `i`. -/
def deleteStep (x : Nat) (upd : Nat → Nat) (st : SkipList) (i : Nat) :
    SkipList :=
  let u := upd i
  let un := st.store u
  if un.fwdN i = some x then
    let un2 : node := { un with
      span := un.span.set i (un.spnN i + ((st.store x).spnN i - 1)),
      forward := un.forward.set i ((st.store x).fwdN i) }
    { st with store := setStore st.store u un2 }
  else if un.fwdN i ≠ none then
    let un2 : node := { un with span := un.span.set i (un.spnN i - 1) }
    { st with store := setStore st.store u un2 }
  else st

/-- The level-shrink loop of `deleteNode`
(`for sl.level > 0 && sl.header.forward[sl.level] == nil { sl.level-- }`). -/
def shrinkLevel (st : SkipList) : Nat → Nat
  | 0 => 0
  | l+1 => if fwd st st.header (l+1) = none then shrinkLevel st l else l + 1

/-- `node.reset` performed by the pool allocator's `Put`: zero the key,
value and backward pointer and zero-fill the slices in place. -/
def resetNode (s : SkipList) (x : Nat) : SkipList :=
  let n := s.store x
  let n2 : node :=
    { key := 0, value := 0, backward := none,
      forward := n.forward.map (fun _ => none), span := n.span.map (fun _ => 0) }
  { s with store := setStore s.store x n2 }

/-- `deleteNode`, stage by stage: unlink `x` along the update path
(`deleteS1`), shrink the level (`deleteS2`), fix the backward pointer of
the base-level successor (`deleteS3`), release the node to the allocator
(the pool variant resets it, the arena variant does nothing, `deleteS4`),
and decrement the length (`deleteNode`). -/
def deleteS1 (s : SkipList) (x : Nat) (upd : Nat → Nat) : SkipList :=
  (List.range (s.level + 1)).foldl (deleteStep x upd) s

def deleteS2 (s : SkipList) (x : Nat) (upd : Nat → Nat) : SkipList :=
  let s1 := deleteS1 s x upd
  { s1 with level := shrinkLevel s1 s1.level }

def deleteS3 (s : SkipList) (x : Nat) (upd : Nat → Nat) : SkipList :=
  match fwd (deleteS2 s x upd) x 0 with
  | some nxt => setBackward (deleteS2 s x upd) nxt
      (((deleteS2 s x upd).store x).backward)
  | none => deleteS2 s x upd

def deleteS4 (s : SkipList) (x : Nat) (upd : Nat → Nat) : SkipList :=
  if (deleteS3 s x upd).isArena then deleteS3 s x upd
  else resetNode (deleteS3 s x upd) x

def deleteNode (s : SkipList) (x : Nat) (upd : Nat → Nat) : SkipList :=
  let s4 := deleteS4 s x upd
  { s4 with length := s4.length - 1 }

/-- `Delete`: walk, check the candidate, unlink on a key match. -/
def Delete (s : SkipList) (k : Int) : SkipList × Bool :=
  match fwd s (updateI s k 0) 0 with
  | some c =>
      if cmpInt (key s c) k = 0 then
        (deleteNode s c (fun i => updateI s k i), true)
      else (s, false)
  | none => (s, false)

/-- `PopMin`: the target is `header.forward[0]`; the update path is the
header at every level. -/
def PopMin (s : SkipList) : SkipList × Option (Int × Int) :=
  if s.length = 0 then (s, none) else
  match fwd s s.header 0 with
  | none => (s, none)
  | some x =>
      (deleteNode s x (fun _ => s.header), some (key s x, value s x))

/-- The always-forward inner loop of `Max`/`PopMax`/`lastInternal`
(`for current.forward[i] != nil { current = current.forward[i] }`). -/
def advanceMax (s : SkipList) (i : Nat) : Nat → Nat → Nat
  | 0, cur => cur
  | fuel+1, cur =>
      match fwd s cur i with
      | none => cur
      | some nxt => advanceMax s i fuel nxt

/-- The descending always-forward walk reaching the rightmost node
(the header on an empty list). -/
def descendMax (s : SkipList) : Nat → Nat → Nat
  | 0, cur => advanceMax s 0 s.nextId cur
  | i+1, cur => descendMax s i (advanceMax s (i+1) s.nextId cur)

/-- The rightmost node reached from the header (pass 1 of `PopMax`). -/
def lastNode (s : SkipList) : Nat :=
  descendMax s s.level s.header

/-- `PopMax`: locate the tail, re-walk for its key to build the update path,
then unlink (the two-pass scheme of the source). -/
def PopMax (s : SkipList) : SkipList × Option (Int × Int) :=
  if s.length = 0 then (s, none) else
  let last := lastNode s
  let kR := key s last
  let u := fun i => updateI s kR i
  match fwd s (u 0) 0 with
  | none => (s, none)
  | some x => (deleteNode s x u, some (key s x, value s x))

/-- `Clear`: reset level and length and null out all header forward
pointers.  The header span entries are left untouched (the source only
iterates over `sl.header.forward`).  The allocator is reset (arena) or
replaced (pool); neither affects the node store as observed through the
list, since cleared nodes are unreachable. -/
def Clear (s : SkipList) : SkipList :=
  let hd := s.store s.header
  let hd2 : node := { hd with forward := hd.forward.map (fun _ => none) }
  { s with level := 0, length := 0, store := setStore s.store s.header hd2 }

/-- `Min`: the first node at the base level. -/
def Min (s : SkipList) : Option Nat :=
  if s.length = 0 then none else fwd s s.header 0

/-- `Max`: the rightmost node. -/
def Max (s : SkipList) : Option Nat :=
  if s.length = 0 then none else some (lastNode s)

/-! ## Observable abstraction and reachability -/

/-- The ids on the level-`i` chain after `x` (following `x.forward[i]`),
fuel-bounded. -/
def chainFrom (s : SkipList) (i : Nat) : Nat → Nat → List Nat
  | 0, _ => []
  | fuel+1, x =>
      match fwd s x i with
      | none => []
      | some y => y :: chainFrom s i fuel y

/-- The base-level chain of node ids. -/
def chain0 (s : SkipList) : List Nat :=
  chainFrom s 0 s.nextId s.header

/-- The stored key/value pairs in key order (the abstraction of the list). -/
def absList (s : SkipList) : List (Int × Int) :=
  (chain0 s).map (fun x => (key s x, value s x))

/-- The stored keys in order. -/
def absKeys (s : SkipList) : List Int :=
  (chain0 s).map (key s)

/-- The sum of `span[i]` along the level-`i` chain from the header to null
(header and final node included): the quantity of spec invariant 5 / P2. -/
def spanSumLevel (s : SkipList) (i : Nat) : Int :=
  ((s.header :: chainFrom s i s.nextId s.header).map (fun x => spn s x i)).sum

/-- The number of base-level nodes from the header up to and including the
last node of height `> i` (`0` when no node reaches level `i`). -/
def coveredLen (s : SkipList) (i : Nat) : List Nat → Nat
  | [] => 0
  | x :: rest =>
      let r := coveredLen s i rest
      if r = 0 then (if i < height s x then 1 else 0) else r + 1

/-- A public operation (`Insert` carries the random word that the level
sampler consumes). -/
inductive Op where
  | insert (k v : Int) (w : Nat)
  | delete (k : Int)
  | popMin
  | popMax
  | clear
  | search (k : Int)
  | rank (k : Int)
  | len
  deriving DecidableEq, Repr

/-- The observable outcome of one public operation.  A returned node handle
is observed through its key and value (pointer identity is not observable). -/
inductive Obs where
  | unit
  | flag (b : Bool)
  | handle (r : Option (Int × Int))
  | num (n : Int)
  deriving DecidableEq, Repr

/-- One public operation: next state and observation. -/
def step (s : SkipList) : Op → SkipList × Obs
  | .insert k v w =>
      let p := Insert s k v w
      (p.1, .handle (p.2.map (fun x => (key p.1 x, value p.1 x))))
  | .delete k => let p := Delete s k; (p.1, .flag p.2)
  | .popMin => let p := PopMin s; (p.1, .handle p.2)
  | .popMax => let p := PopMax s; (p.1, .handle p.2)
  | .clear => (Clear s, .unit)
  | .search k => (s, .handle ((Search s k).map (fun x => (key s x, value s x))))
  | .rank k => (s, .num (Rank s k))
  | .len => (s, .num (Len s))

/-- Run a program for its final state. -/
def exec (s : SkipList) : List Op → SkipList
  | [] => s
  | op :: ops => exec (step s op).1 ops

/-- Run a program for its observation trace. -/
def run (s : SkipList) : List Op → List Obs
  | [] => []
  | op :: ops => (step s op).2 :: run (step s op).1 ops

/-- A state is reachable when some program run from a freshly constructed
list (with the given allocator kind) produces it. -/
def Reachable (b : Bool) (s : SkipList) : Prop :=
  ∃ ops : List Op, s = exec (initState b) ops

example :
    absKeys (exec (initState false)
      [.insert 10 100 4, .insert 20 200 1, .insert 15 150 1]) = [10, 15, 20] := by
  decide

example :
    Rank (exec (initState false)
      [.insert 10 100 4, .insert 20 200 1, .insert 15 150 1]) 16 = 2 := by
  decide

-- sanity: the C1 counterexample trace
example :
    (fun s => (s.level, s.length, spanSumLevel s 1, spanSumLevel s 0))
      (exec (initState false) [.insert 10 0 4, .insert 20 0 1, .delete 20]) =
      (1, 1, 2, 1) := by
  decide

-- sanity: C3, the returned handle of an overwriting insert sees the new value
example :
    run (initState false) [.insert 1 10 1, .insert 1 20 1] =
      [.handle none, .handle (some (1, 20))] := by
  decide

-- sanity: C4, Clear leaves a stale header span
example :
    (fun s => (s.length, s.level, fwd s s.header 0, spn s s.header 0))
      (exec (initState false) [.insert 10 0 1, .clear]) = (0, 0, none, 1) := by
  decide

/-! ## The iterator family (iterator.go)

The `Iterator` struct holds a reference to the skiplist, the current cursor
(`nil` is `none`), the reverse and unsafe flags, the optional inclusive end
bound and the atomic lock-held flag.  The list reference is modelled by
passing the `SkipList` state to each operation explicitly; every safe
operation takes and releases the shared lock for its own duration, so under
the lock discipline the state it sees is exactly the current list state. -/

structure Iter where
  current : Option Nat
  reverse : Bool
  noLock : Bool
  endB : Int
  hasEnd : Bool
  lockHeld : Nat
  deriving DecidableEq, Repr

/-- `IteratorOption`. -/
def IteratorOption := Iter → Iter

/-- The source's internal option making an iterator skip locking
(its field is spelled differently here; `noLock` is the source's flag). -/
def withNoLock : IteratorOption := fun it => { it with noLock := true }

/-- `WithEnd`: inclusive upper bound for iteration. -/
def WithEnd (e : Int) : IteratorOption := fun it =>
  { it with endB := e, hasEnd := true }

/-- `WithReverse`. -/
def WithReverse : IteratorOption := fun it => { it with reverse := true }

/-- `NewIterator`: positioned at the header; options applied in order; a
reverse iterator starts at `nil` (before the last element). -/
def NewIterator (s : SkipList) (opts : List IteratorOption) : Iter :=
  let it0 : Iter :=
    { current := some s.header, reverse := false, noLock := false,
      endB := 0, hasEnd := false, lockHeld := 0 }
  let it := opts.foldl (fun a o => o a) it0
  if it.reverse then { it with current := none } else it

/-- `lastInternal`: the rightmost node, or `none` on an empty list. -/
def lastInternal (s : SkipList) : Option Nat :=
  let c := lastNode s
  if c = s.header then none else some c

/-- The skip-backward loop of reverse `Next` under an end bound: starting
from a cursor, walk `backward` until the key is ≤ the bound, turning into
an exhausted iterator when the header (or a nil cursor) is reached. -/
def skipLoop (s : SkipList) (e : Int) : Nat → Option Nat → Bool × Option Nat
  | 0, _ => (false, none)
  | fuel+1, c =>
      match c with
      | none => (false, none)
      | some cu =>
          if cu = s.header then (false, none)
          else if cmpInt (key s cu) e ≤ 0 then (true, some cu)
          else
            let b := (s.store cu).backward
            if b = some s.header then (false, none)
            else skipLoop s e fuel b

/-- `Iterator.Next` (iterator.go): in reverse mode, a nil cursor starts at
the last element (then skips past the end bound); otherwise one `backward`
step (then the skip loop).  In forward mode, one `forward[0]` step, stopping
before any key above the end bound. -/
def Iter.Next (s : SkipList) (it : Iter) : Bool × Iter :=
  if it.reverse then
    match it.current with
    | none =>
        match lastInternal s with
        | none => (false, { it with current := none })
        | some lN =>
            if it.hasEnd then
              let r := skipLoop s it.endB s.nextId (some lN)
              (r.1, { it with current := r.2 })
            else (true, { it with current := some lN })
    | some cu =>
        if cu = s.header then (false, { it with current := none })
        else
          let b := (s.store cu).backward
          if b = some s.header then (false, { it with current := none })
          else if it.hasEnd then
            let r := skipLoop s it.endB s.nextId b
            (r.1, { it with current := r.2 })
          else (true, { it with current := b })
  else
    match it.current with
    | none => (false, { it with current := none })
    | some cu =>
        match fwd s cu 0 with
        | none => (false, { it with current := none })
        | some nxt =>
            if it.hasEnd ∧ 0 < cmpInt (key s nxt) it.endB then
              (false, { it with current := none })
            else (true, { it with current := some nxt })

/-- `Iterator.Prev` (iterator.go): in reverse mode this is a forward move
along `forward[0]` and — unlike `Next` — applies no end-bound check; in
forward mode it is a `backward` step. -/
def Iter.Prev (s : SkipList) (it : Iter) : Bool × Iter :=
  if it.reverse then
    match it.current with
    | none => (false, { it with current := none })
    | some cu =>
        match fwd s cu 0 with
        | none => (false, { it with current := none })
        | some nxt => (true, { it with current := some nxt })
  else
    match it.current with
    | none => (false, { it with current := none })
    | some cu =>
        if cu = s.header then (false, { it with current := none })
        else
          let b := (s.store cu).backward
          if b = some s.header then (false, { it with current := none })
          else (true, { it with current := b })

/-- `Iterator.Key`: defined on a real node; calling it at the header or on
an exhausted iterator panics in the source, modelled as `none`. -/
def Iter.keyAt (s : SkipList) (it : Iter) : Option Int :=
  match it.current with
  | none => none
  | some cu => if cu = s.header then none else some (key s cu)

/-- `Iterator.Value` under the same contract. -/
def Iter.valueAt (s : SkipList) (it : Iter) : Option Int :=
  match it.current with
  | none => none
  | some cu => if cu = s.header then none else some (value s cu)

/-- `Iterator.Reset`. -/
def Iter.Reset (s : SkipList) (it : Iter) : Iter :=
  if it.reverse then { it with current := none }
  else { it with current := some s.header }

/-- `Iterator.First`. -/
def Iter.First (s : SkipList) (it : Iter) : Bool × Iter :=
  let firstN := fwd s s.header 0
  (firstN ≠ none, { it with current := firstN })

/-- `Iterator.Last`. -/
def Iter.Last (s : SkipList) (it : Iter) : Bool × Iter :=
  match lastInternal s with
  | none => (false, { it with current := none })
  | some c => (true, { it with current := some c })

/-- `Iterator.Seek`: position at the ceiling node of the key, respecting the
end bound. -/
def Iter.SeekIt (s : SkipList) (it : Iter) (k : Int) : Bool × Iter :=
  match findGreaterOrEqual s k with
  | none => (false, { it with current := none })
  | some f =>
      if it.hasEnd ∧ 0 < cmpInt (key s f) it.endB then
        (false, { it with current := none })
      else (true, { it with current := some f })

/-- `Iterator.Clone` (iterator.go): the struct literal copies the list
reference, the cursor and the two flags — and nothing else, so the end
bound and lock flag of the copy are zero values. -/
def Iter.Clone (it : Iter) : Iter :=
  { current := it.current, reverse := it.reverse, noLock := it.noLock,
    endB := 0, hasEnd := false, lockHeld := 0 }

/-- The keys visited by repeatedly calling `Next` until it fails
(0 stands in for the unreachable key of an invalid cursor). -/
def visitSeq (s : SkipList) : Iter → Nat → List Int
  | _, 0 => []
  | it, fuel+1 =>
      let r := Iter.Next s it
      if r.1 then ((Iter.keyAt s r.2).getD 0) :: visitSeq s r.2 fuel
      else []

-- sanity: S6 from the spec, reverse iteration with inclusive end bounds
example :
    visitSeq (exec (initState false)
      [.insert 10 0 1, .insert 20 0 1, .insert 30 0 1, .insert 40 0 1,
       .insert 50 0 1])
      (NewIterator (exec (initState false)
        [.insert 10 0 1, .insert 20 0 1, .insert 30 0 1, .insert 40 0 1,
         .insert 50 0 1]) [WithReverse, WithEnd 35]) 10 = [30, 20, 10] := by
  decide

/-! ## The reader/writer lock discipline of iterators

The list's `sync.RWMutex` is modelled by a reader count; iterator
operations additionally report the lock events they perform
(a safe operation brackets itself in RLock/RUnlock, an unsafe one
performs none). -/

inductive LockEv where
  | rlock
  | runlock
  deriving DecidableEq, Repr

structure RWLock where
  readers : Int
  deriving DecidableEq, Repr

def rwAcquireShared (l : RWLock) : RWLock := { readers := l.readers + 1 }

def rwReleaseShared (l : RWLock) : RWLock := { readers := l.readers - 1 }

/-- A mutating operation can take the exclusive lock only when no reader
holds the lock. -/
def rwAcquireExclusive (l : RWLock) : Option RWLock :=
  if l.readers = 0 then some l else none

def applyEvents (l : RWLock) : List LockEv → RWLock
  | [] => l
  | .rlock :: r => applyEvents (rwAcquireShared l) r
  | .runlock :: r => applyEvents (rwReleaseShared l) r

/-- The lock events performed by one safe iterator operation
(`if !it.unsafe { RLock(); defer RUnlock() }`). -/
def iterOpEvents (it : Iter) : List LockEv :=
  if it.noLock then [] else [.rlock, .runlock]

/-- `Next` together with its lock events. -/
def Iter.NextEv (s : SkipList) (it : Iter) : (Bool × Iter) × List LockEv :=
  (Iter.Next s it, iterOpEvents it)

/-- `Key` together with its lock events. -/
def Iter.keyAtEv (s : SkipList) (it : Iter) : Option Int × List LockEv :=
  (Iter.keyAt s it, iterOpEvents it)

/-- `Value` together with its lock events. -/
def Iter.valueAtEv (s : SkipList) (it : Iter) : Option Int × List LockEv :=
  (Iter.valueAt s it, iterOpEvents it)

/-- `Iterator.Close` (iterator.go): atomically swap the held flag to 0; only
the caller that observed a 1 releases the read lock, so repeated calls
release at most once. -/
def Iter.Close (it : Iter) : Iter × List LockEv :=
  ({ it with lockHeld := 0 }, if it.lockHeld = 1 then [.runlock] else [])

/-- Modelled from the spec: the constructor `SkipList.RangeIterator(start, end)`
is not present under src/ (only its concurrency test and `Iterator.Close`
are); per the spec it "acquires the shared lock on construction and holds it
until Close; Key/Value/Next do not re-lock".  It takes the shared lock,
marks the iterator as holding it, disables per-operation locking, applies
the inclusive end bound and positions the cursor before the first key
≥ start. -/
def RangeIterator (s : SkipList) (start e : Int) (l : RWLock) :
    Iter × RWLock :=
  ({ current := some (updateI s start 0), reverse := false, noLock := true,
     endB := e, hasEnd := true, lockHeld := 1 }, rwAcquireShared l)

/-! ## The growable memory arena (arena.go)

`float64` configuration values are modelled as rationals; the arena only
compares them against integer literals and multiplies a chunk size by the
factor, truncating (`int(float64(n) * f)` is `⌊n·f⌋` for the non-negative
sizes the arena handles). -/

structure ArenaChunk where
  size : Int
  offset : Int
  deriving DecidableEq, Repr

structure Arena where
  chunks : List ArenaChunk
  growthFactor : ℚ
  growthBytes : Int
  growthThreshold : ℚ
  deriving DecidableEq, Repr

def ArenaOption := Arena → Arena

/-- `WithGrowthFactor` (arena.go). -/
def WithGrowthFactor (factor : ℚ) : ArenaOption := fun a =>
  if 1 < factor then { a with growthFactor := factor } else a

/-- `WithGrowthBytes` (arena.go). -/
def WithGrowthBytes (bytes : Int) : ArenaOption := fun a =>
  if 0 < bytes then { a with growthBytes := bytes } else a

/-- `WithGrowthThreshold` (arena.go). -/
def WithGrowthThreshold (threshold : ℚ) : ArenaOption := fun a =>
  if 0 < threshold ∧ threshold < 1 then { a with growthThreshold := threshold }
  else a

/-- `NewArena`: one root chunk of the initial size, then the options. -/
def NewArena (initialSize : Int) (opts : List ArenaOption) : Arena :=
  let a : Arena :=
    { chunks := [{ size := initialSize, offset := 0 }],
      growthFactor := 0, growthBytes := 0, growthThreshold := 0 }
  opts.foldl (fun x o => o x) a

/-- The size of the current (last) chunk. -/
def Arena.lastChunkSize (a : Arena) : Int :=
  ((a.chunks.getLast?).map ArenaChunk.size).getD 0

/-- `Arena.grow` (arena.go): fixed growth bytes win over the growth factor,
the default is doubling, and the new chunk is enlarged to the required size
when the computed size is too small. -/
def Arena.grow (a : Arena) (requiredSize : Int) : Arena :=
  let lastSize := a.lastChunkSize
  let newSize : Int :=
    if 0 < a.growthBytes then a.growthBytes
    else if 1 < a.growthFactor then Rat.floor ((lastSize : ℚ) * a.growthFactor)
    else lastSize * 2
  let newSize2 := if newSize < requiredSize then requiredSize else newSize
  { a with chunks := a.chunks ++ [{ size := newSize2, offset := 0 }] }

/-! ## The construction options of the list (skiplist.go) -/

structure SLConfig where
  arenaInitialSize : Int
  arenaGrowthFactor : ℚ
  arenaGrowthBytes : Int
  arenaGrowthThreshold : ℚ
  deriving DecidableEq, Repr

def SLOption := SLConfig → SLConfig

/-- `WithArena` (skiplist.go): only a positive size is recorded. -/
def WithArena (sizeInBytes : Int) : SLOption := fun c =>
  if 0 < sizeInBytes then { c with arenaInitialSize := sizeInBytes } else c

/-- `WithArenaGrowthFactor` (skiplist.go): only a factor above 1 is recorded. -/
def WithArenaGrowthFactor (factor : ℚ) : SLOption := fun c =>
  if 1 < factor then { c with arenaGrowthFactor := factor } else c

/-- `WithArenaGrowthBytes` (skiplist.go): only positive bytes are recorded. -/
def WithArenaGrowthBytes (bytes : Int) : SLOption := fun c =>
  if 0 < bytes then { c with arenaGrowthBytes := bytes } else c

/-- `WithArenaGrowthThreshold` (skiplist.go): only a threshold strictly
between 0 and 1 is recorded. -/
def WithArenaGrowthThreshold (threshold : ℚ) : SLOption := fun c =>
  if 0 < threshold ∧ threshold < 1 then
    { c with arenaGrowthThreshold := threshold }
  else c

/-- The allocator a constructed list ends up with. -/
inductive AllocatorChoice where
  | pool
  | arena (a : Arena)
  deriving DecidableEq, Repr

/-- The zero-value configuration of `NewWithComparator`. -/
def defaultConfig : SLConfig :=
  { arenaInitialSize := 0, arenaGrowthFactor := 0, arenaGrowthBytes := 0,
    arenaGrowthThreshold := 0 }

/-- The arena options forwarded by `NewWithComparator` after processing the
list options. -/
def arenaOptsOf (c : SLConfig) : List ArenaOption :=
  (if 0 < c.arenaGrowthBytes then [WithGrowthBytes c.arenaGrowthBytes] else [])
    ++ (if 1 < c.arenaGrowthFactor then [WithGrowthFactor c.arenaGrowthFactor]
        else [])
    ++ (if 0 < c.arenaGrowthThreshold then
          [WithGrowthThreshold c.arenaGrowthThreshold]
        else [])

/-- The allocator selection at the end of `NewWithComparator`: the pool is
the default; an arena is created only when a positive initial size was
recorded. -/
def chooseAllocator (c : SLConfig) : AllocatorChoice :=
  if 0 < c.arenaInitialSize then
    .arena (NewArena c.arenaInitialSize (arenaOptsOf c))
  else .pool

/-- `NewWithComparator` restricted to its configuration behaviour: apply the
options to the zero configuration, then select the allocator. -/
def NewWithComparator (opts : List SLOption) : SLConfig × AllocatorChoice :=
  let c := opts.foldl (fun a o => o a) defaultConfig
  (c, chooseAllocator c)

/-! ## Claim C8 -/

/-- C8: for an arena-backed list configured with both growth bytes `b > 0`
and a growth factor `f > 1`, whenever the arena grows the capacity of the
new chunk is determined by `b` (enlarged to the required size only when `b`
is too small for the request) — the growth bytes take precedence over the
factor, whose value the result does not depend on. -/
theorem C8_growth_bytes_precedence (sz b req : Int) (f : ℚ)
    (hsz : 0 < sz) (hb : 0 < b) (hf : 1 < f) :
    ∃ a : Arena,
      (NewWithComparator
        [WithArena sz, WithArenaGrowthBytes b, WithArenaGrowthFactor f]).2 =
          .arena a ∧
      a.growthBytes = b ∧ a.growthFactor = f ∧
      (a.grow req).lastChunkSize = if b < req then req else b := by
  refine ⟨NewArena sz (arenaOptsOf
    { arenaInitialSize := sz, arenaGrowthFactor := f, arenaGrowthBytes := b,
      arenaGrowthThreshold := 0 }), ?_, ?_, ?_, ?_⟩ <;>
    simp [NewWithComparator, WithArena, WithArenaGrowthBytes,
      WithArenaGrowthFactor, defaultConfig, chooseAllocator, arenaOptsOf,
      NewArena, WithGrowthBytes, WithGrowthFactor, Arena.grow,
      Arena.lastChunkSize, hsz, hb, hf]

/-- Witness for C8 at concrete inputs. -/
theorem C8_growth_bytes_precedence_witness :
    (0 : Int) < 64 ∧ (0 : Int) < 100 ∧ (1 : ℚ) < 3 ∧
    ∃ a : Arena,
      (NewWithComparator
        [WithArena 64, WithArenaGrowthBytes 100, WithArenaGrowthFactor 3]).2 =
          .arena a ∧
      a.growthBytes = 100 ∧ a.growthFactor = 3 ∧
      (a.grow 16).lastChunkSize = if (100 : Int) < 16 then 16 else 100 :=
  ⟨by norm_num, by norm_num, by norm_num,
   C8_growth_bytes_precedence 64 100 16 3 (by norm_num) (by norm_num)
     (by norm_num)⟩

/-! ## Claim C10 -/

/-- C10: out-of-range arena configuration arguments are silently ignored at
construction: a non-positive `WithArena` size leaves the list on the pool
allocator, and `WithArenaGrowthFactor ≤ 1`, `WithArenaGrowthBytes ≤ 0` and
a `WithArenaGrowthThreshold` outside (0,1) each leave the corresponding
setting unchanged (no option aborts; each is a total function on the
configuration). -/
theorem C10_options_validated (c : SLConfig) (sz b : Int) (f t : ℚ)
    (hsz : sz ≤ 0) (hf : f ≤ 1) (hb : b ≤ 0) (ht : ¬(0 < t ∧ t < 1)) :
    WithArena sz c = c ∧ WithArenaGrowthFactor f c = c ∧
    WithArenaGrowthBytes b c = c ∧ WithArenaGrowthThreshold t c = c ∧
    (NewWithComparator [WithArena sz]).2 = .pool := by
  refine ⟨?_, ?_, ?_, ?_, ?_⟩ <;>
    simp [WithArena, WithArenaGrowthFactor, WithArenaGrowthBytes,
      WithArenaGrowthThreshold, NewWithComparator, chooseAllocator,
      defaultConfig, not_lt.mpr hsz, not_lt.mpr hf, not_lt.mpr hb, ht]

/-- Witness for C10 at concrete inputs. -/
theorem C10_options_validated_witness :
    (-1 : Int) ≤ 0 ∧ (1 : ℚ) ≤ 1 ∧ (0 : Int) ≤ 0 ∧ ¬((0:ℚ) < 2 ∧ (2:ℚ) < 1) ∧
    (WithArena (-1) defaultConfig = defaultConfig ∧
     WithArenaGrowthFactor 1 defaultConfig = defaultConfig ∧
     WithArenaGrowthBytes 0 defaultConfig = defaultConfig ∧
     WithArenaGrowthThreshold 2 defaultConfig = defaultConfig ∧
     (NewWithComparator [WithArena (-1)]).2 = .pool) :=
  ⟨by norm_num, le_refl 1, le_refl 0, by norm_num,
   C10_options_validated defaultConfig (-1) 0 1 2 (by norm_num) (le_refl 1)
     (le_refl 0) (by norm_num)⟩

/-! ## Claim C5 -/

/-- C5 (the constructor is modelled from the spec, `Close` from the source):
a range iterator takes the shared lock on construction and records holding
it; while it is held no writer can take the exclusive lock; its Key, Value
and Next perform no lock operations; the first Close releases the shared
lock exactly once, restoring the lock state, and further Closes perform no
lock operation. -/
theorem C5_range_iterator_lock (s : SkipList) (start e : Int) (l : RWLock)
    (hl : 0 ≤ l.readers) :
    (RangeIterator s start e l).2.readers = l.readers + 1 ∧
    (RangeIterator s start e l).1.lockHeld = 1 ∧
    rwAcquireExclusive (RangeIterator s start e l).2 = none ∧
    (Iter.NextEv s (RangeIterator s start e l).1).2 = [] ∧
    (Iter.keyAtEv s (RangeIterator s start e l).1).2 = [] ∧
    (Iter.valueAtEv s (RangeIterator s start e l).1).2 = [] ∧
    (Iter.Close (RangeIterator s start e l).1).2 = [.runlock] ∧
    applyEvents (RangeIterator s start e l).2
      (Iter.Close (RangeIterator s start e l).1).2 = l ∧
    (Iter.Close (Iter.Close (RangeIterator s start e l).1).1).2 = [] := by
  refine ⟨rfl, rfl, ?_, rfl, rfl, rfl, rfl, ?_, rfl⟩
  · simp only [rwAcquireExclusive, RangeIterator, rwAcquireShared]
    have : l.readers + 1 ≠ 0 := by omega
    simp [this]
  · simp [RangeIterator, Iter.Close, applyEvents, rwAcquireShared,
      rwReleaseShared]

/-- Witness for C5 at concrete inputs. -/
theorem C5_range_iterator_lock_witness :
    (0 : Int) ≤ 0 ∧
    ((RangeIterator (initState false) 0 10 { readers := 0 }).2.readers
        = 0 + 1 ∧
     (RangeIterator (initState false) 0 10 { readers := 0 }).1.lockHeld = 1 ∧
     rwAcquireExclusive
       (RangeIterator (initState false) 0 10 { readers := 0 }).2 = none ∧
     (Iter.NextEv (initState false)
       (RangeIterator (initState false) 0 10 { readers := 0 }).1).2 = [] ∧
     (Iter.keyAtEv (initState false)
       (RangeIterator (initState false) 0 10 { readers := 0 }).1).2 = [] ∧
     (Iter.valueAtEv (initState false)
       (RangeIterator (initState false) 0 10 { readers := 0 }).1).2 = [] ∧
     (Iter.Close
       (RangeIterator (initState false) 0 10 { readers := 0 }).1).2 =
         [.runlock] ∧
     applyEvents (RangeIterator (initState false) 0 10 { readers := 0 }).2
       (Iter.Close
         (RangeIterator (initState false) 0 10 { readers := 0 }).1).2 =
         { readers := 0 } ∧
     (Iter.Close
       (Iter.Close
         (RangeIterator (initState false) 0 10 { readers := 0 }).1).1).2 =
         []) :=
  ⟨le_refl 0,
   C5_range_iterator_lock (initState false) 0 10 { readers := 0 } (le_refl 0)⟩

/-! ## Claim C9 -/

/-- C9: on a reverse iterator with an inclusive end bound, `Prev` (which
moves toward larger keys) does not apply the bound: over the keys
{10, 20, 30} with bound 20, `Next` lands on 20 (≤ 20), then `Prev` returns
true and lands on 30, and `Key` then yields 30, outside the bound. -/
theorem C9_reverse_prev_ignores_end :
    (Iter.Next (exec (initState false)
        [.insert 10 0 1, .insert 20 0 1, .insert 30 0 1])
      (NewIterator (exec (initState false)
        [.insert 10 0 1, .insert 20 0 1, .insert 30 0 1])
        [WithReverse, WithEnd 20])).1 = true ∧
    Iter.keyAt (exec (initState false)
        [.insert 10 0 1, .insert 20 0 1, .insert 30 0 1])
      (Iter.Next (exec (initState false)
          [.insert 10 0 1, .insert 20 0 1, .insert 30 0 1])
        (NewIterator (exec (initState false)
          [.insert 10 0 1, .insert 20 0 1, .insert 30 0 1])
          [WithReverse, WithEnd 20])).2 = some 20 ∧
    (Iter.Prev (exec (initState false)
        [.insert 10 0 1, .insert 20 0 1, .insert 30 0 1])
      (Iter.Next (exec (initState false)
          [.insert 10 0 1, .insert 20 0 1, .insert 30 0 1])
        (NewIterator (exec (initState false)
          [.insert 10 0 1, .insert 20 0 1, .insert 30 0 1])
          [WithReverse, WithEnd 20])).2).1 = true ∧
    Iter.keyAt (exec (initState false)
        [.insert 10 0 1, .insert 20 0 1, .insert 30 0 1])
      (Iter.Prev (exec (initState false)
          [.insert 10 0 1, .insert 20 0 1, .insert 30 0 1])
        (Iter.Next (exec (initState false)
            [.insert 10 0 1, .insert 20 0 1, .insert 30 0 1])
          (NewIterator (exec (initState false)
            [.insert 10 0 1, .insert 20 0 1, .insert 30 0 1])
            [WithReverse, WithEnd 20])).2).2 = some 30 ∧
    (20 : Int) < 30 := by
  decide

/-! ## Claim C7 -/

/-- C7 counterexample: `Clone` does not copy the end bound — an iterator
with end bound 35 clones to one with no end bound at all, so the clause
"with the same end bound" of the claim is false. -/
theorem C7_clone_drops_end_bound :
    (NewIterator (exec (initState false) [.insert 10 0 1])
      [WithReverse, WithEnd 35]).hasEnd = true ∧
    (Iter.Clone (NewIterator (exec (initState false) [.insert 10 0 1])
      [WithReverse, WithEnd 35])).hasEnd = false ∧
    (Iter.Clone (NewIterator (exec (initState false) [.insert 10 0 1])
      [WithReverse, WithEnd 35])).endB ≠
      (NewIterator (exec (initState false) [.insert 10 0 1])
        [WithReverse, WithEnd 35]).endB := by
  decide

/-- C7 amended: `Clone` returns an independent cursor (a fresh value; the
original is a distinct value that later moves of either cannot affect) with
the same position, direction and safe flag — but the end bound is not
copied (the clone has no end bound) and neither is the lock-held flag. -/
theorem C7_clone_fields (it : Iter) :
    (Iter.Clone it).current = it.current ∧
    (Iter.Clone it).reverse = it.reverse ∧
    (Iter.Clone it).noLock = it.noLock ∧
    (Iter.Clone it).hasEnd = false ∧
    (Iter.Clone it).endB = 0 ∧
    (Iter.Clone it).lockHeld = 0 := by
  simp [Iter.Clone]

/-! ## Concrete counterexamples for C1, C3 and C4 -/

/-- C1 counterexample: after Insert 10 at height 2, Insert 20 at height 1
and Delete 20 (a reachable state), the list level is 1 and the sum of the
spans along the level-1 chain is 2 while the length is 1 — `deleteNode`
does not decrement the span of a chain-final node (one whose forward
pointer at that level is nil), so the claimed invariant fails. -/
theorem C1_span_sum_counterexample :
    Reachable false
      (exec (initState false) [.insert 10 0 4, .insert 20 0 1, .delete 20]) ∧
    (exec (initState false)
      [.insert 10 0 4, .insert 20 0 1, .delete 20]).level = 1 ∧
    spanSumLevel
      (exec (initState false) [.insert 10 0 4, .insert 20 0 1, .delete 20]) 1
      ≠ (exec (initState false)
          [.insert 10 0 4, .insert 20 0 1, .delete 20]).length := by
  refine ⟨⟨[.insert 10 0 4, .insert 20 0 1, .delete 20], rfl⟩, ?_, ?_⟩ <;>
    decide

/-- C3 counterexample: with key 1 stored under value 10, `Insert 1 20`
returns a handle to the very node whose value was just overwritten, so the
value read through the handle is the new value 20, not the previously
stored 10. -/
theorem C3_handle_counterexample :
    Search (exec (initState false) [.insert 1 10 1]) 1 ≠ none ∧
    ((Insert (exec (initState false) [.insert 1 10 1]) 1 20 1).2.map
      (value (Insert (exec (initState false) [.insert 1 10 1]) 1 20 1).1))
      = some 20 ∧
    ((Insert (exec (initState false) [.insert 1 10 1]) 1 20 1).2.map
      (value (Insert (exec (initState false) [.insert 1 10 1]) 1 20 1).1))
      ≠ some 10 := by
  decide

/-- C4 counterexample: `Clear` nulls the header forward pointers but never
touches `header.span`, so after inserting one key and clearing, the header
span entry at level 0 is still 1, not 0. -/
theorem C4_clear_spans_counterexample :
    spn (Clear (exec (initState false) [.insert 10 0 1]))
      (Clear (exec (initState false) [.insert 10 0 1])).header 0 = 1 ∧
    spn (Clear (exec (initState false) [.insert 10 0 1]))
      (Clear (exec (initState false) [.insert 10 0 1])).header 0 ≠ 0 := by
  decide

/-! ## The structural invariant of reachable states

`chainInv s i prev gap C` expresses that, scanning the base list `C`, the
level-`i` forward pointer of each chain cell (node of height > i) points to
the next cell and its span equals the base distance between them, with the
final cell's forward pointer nil and its span unconstrained (`deleteNode`
does not maintain the spans of chain-final nodes).  `gap` counts the base
nodes consumed since the cell `prev`. -/

lemma cmpInt_lt_iff (a b : Int) : cmpInt a b < 0 ↔ a < b := by
  unfold cmpInt; split <;> rename_i h
  · simp [h]
  · split <;> rename_i h2 <;> omega

lemma cmpInt_eq_iff (a b : Int) : cmpInt a b = 0 ↔ a = b := by
  unfold cmpInt; split <;> rename_i h
  · constructor <;> intro hh <;> omega
  · split <;> rename_i h2
    · simp [h2]
    · constructor <;> intro hh <;> omega

lemma cmpInt_pos_iff (a b : Int) : 0 < cmpInt a b ↔ b < a := by
  unfold cmpInt; split <;> rename_i h
  · constructor <;> intro hh <;> omega
  · split <;> rename_i h2 <;> constructor <;> intro hh <;> omega

lemma cmpInt_le_iff (a b : Int) : cmpInt a b ≤ 0 ↔ a ≤ b := by
  unfold cmpInt; split <;> rename_i h
  · constructor <;> intro hh <;> omega
  · split <;> rename_i h2 <;> constructor <;> intro hh <;> omega

def chainInv (s : SkipList) (i : Nat) : Nat → Int → List Nat → Prop
  | prev, _, [] => fwd s prev i = none
  | prev, gap, x :: rest =>
      if i < height s x then
        fwd s prev i = some x ∧ spn s prev i = gap + 1 ∧ chainInv s i x 0 rest
      else chainInv s i prev (gap + 1) rest

/-- Segment version of `chainInv`: scanning `A` from cell `prev` with `gap`
consumed base nodes ends at cell `q` with `h` consumed base nodes since
`q`; the outgoing slot of `q` itself is not constrained. -/
def chainSeg (s : SkipList) (i : Nat) : Nat → Int → List Nat → Nat → Int → Prop
  | prev, gap, [], q, h => q = prev ∧ h = gap
  | prev, gap, x :: rest, q, h =>
      if i < height s x then
        fwd s prev i = some x ∧ spn s prev i = gap + 1 ∧ chainSeg s i x 0 rest q h
      else chainSeg s i prev (gap + 1) rest q h

/-- Base-level backward pointers: each node of `C` points back to its
predecessor (the header for the first). -/
def backInv (s : SkipList) : Nat → List Nat → Prop
  | _, [] => True
  | prev, x :: rest => (s.store x).backward = some prev ∧ backInv s x rest

/-- The representation invariant: `C` is the base-level list of node ids. -/
structure Inv (s : SkipList) (C : List Nat) : Prop where
  hdrLt : s.header < s.nextId
  nodupC : (s.header :: C).Nodup
  memLt : ∀ x ∈ C, x < s.nextId
  hdrH : height s s.header = MaxLevel
  hdrSpanLen : (s.store s.header).span.length = MaxLevel
  nodeH : ∀ x ∈ C,
    1 ≤ height s x ∧ height s x ≤ s.level + 1 ∧
      (s.store x).span.length = height s x
  sorted : C.Pairwise (fun a b => key s a < key s b)
  lenEq : s.length = (C.length : Int)
  levelLt : s.level < MaxLevel
  levelOk : s.level = 0 ∨ ∃ x ∈ C, s.level < height s x
  chains : ∀ i, i < MaxLevel → chainInv s i s.header 0 C
  backs : backInv s s.header C

/-- The invariant of a freshly constructed list. -/
lemma inv_init (b : Bool) : Inv (initState b) [] := by
  have hfwd : ∀ i, fwd (initState b) 0 i = none := by
    intro i
    show ((List.replicate MaxLevel (none : Option Nat)).get? i).getD none = none
    rw [List.get?_eq_getElem?, List.getElem?_replicate]
    split <;> rfl
  refine ⟨?_, ?_, ?_, ?_, ?_, ?_, ?_, ?_, ?_, ?_, ?_, ?_⟩ <;>
    try simp [initState, headerNode, setStore, height, MaxLevel, backInv]
  · intro i _
    exact hfwd i

/-! ## Characterising the descending walk -/

/-- The effect of the inner walk loop on a base-list segment, relative to
the starting cell: the final cell reached (`none` when no hop happens) and
the base distance travelled.  `g` is the number of base nodes already
consumed since the starting cell. -/
def walkRel (s : SkipList) (i : Nat) (k : Int) : Int → List Nat → Option Nat × Int
  | _, [] => (none, 0)
  | g, x :: rest =>
      if i < height s x then
        if key s x < k then
          let p := walkRel s i k 0 rest
          (some (p.1.getD x), g + 1 + p.2)
        else (none, 0)
      else walkRel s i k (g + 1) rest

/-- The prefix of a base-list segment consumed by the walk at level `i`:
everything up to and including the last cell with key < k that precedes the
first cell with key ≥ k. -/
def wpre (s : SkipList) (i : Nat) (k : Int) : List Nat → List Nat
  | [] => []
  | x :: rest =>
      if i < height s x then
        if key s x < k then x :: wpre s i k rest else []
      else
        if wpre s i k rest = [] then [] else x :: wpre s i k rest

lemma getLast?_cons_of_ne {α : Type} (x : α) (l : List α) (h : l ≠ []) :
    (x :: l).getLast? = l.getLast? := by
  cases l with
  | nil => exact absurd rfl h
  | cons y ys => simp

lemma length_lt_nextId {s : SkipList} {C : List Nat} (hInv : Inv s C) :
    C.length < s.nextId := by
  have h1 : (s.header :: C).Nodup := hInv.nodupC
  have h2 : ∀ x ∈ s.header :: C, x < s.nextId := by
    intro x hx
    rcases List.mem_cons.1 hx with rfl | hx
    · exact hInv.hdrLt
    · exact hInv.memLt x hx
  have h3 : (s.header :: C).toFinset ⊆ Finset.range s.nextId := by
    intro x hx
    simp only [List.mem_toFinset] at hx
    exact Finset.mem_range.2 (h2 x hx)
  have h4 := Finset.card_le_card h3
  rw [Finset.card_range, List.toFinset_card_of_nodup h1] at h4
  simpa using h4

/-- The inner loop computes `walkRel`, given the chain structure and enough
fuel. -/
lemma advance_spec (s : SkipList) (i : Nat) (k : Int) :
    ∀ (C : List Nat) (prev : Nat) (g r : Int) (fuel : Nat),
      chainInv s i prev g C → C.length < fuel →
      advance s k i fuel prev r =
        ((walkRel s i k g C).1.getD prev, r + (walkRel s i k g C).2) := by
  intro C
  induction C with
  | nil =>
      intro prev g r fuel hc hf
      obtain ⟨f, rfl⟩ : ∃ f, fuel = f + 1 := ⟨fuel - 1, by omega⟩
      simp only [chainInv] at hc
      simp [advance, walkRel, hc]
  | cons x rest ih =>
      intro prev g r fuel hc hf
      obtain ⟨f, rfl⟩ : ∃ f, fuel = f + 1 := ⟨fuel - 1, by omega⟩
      simp only [chainInv] at hc
      by_cases hcell : i < height s x
      · rw [if_pos hcell] at hc
        obtain ⟨hfw, hsp, hrest⟩ := hc
        by_cases hk : key s x < k
        · have hkc : cmpInt (key s x) k < 0 := (cmpInt_lt_iff _ _).2 hk
          simp only [advance, hfw, hkc, if_pos hk, walkRel, if_pos hcell]
          have hlen : rest.length < f := by simp at hf; omega
          rw [ih x 0 (r + spn s prev i) f hrest hlen, hsp]
          simp only [if_true, Prod.mk.injEq, Option.getD_some]
          exact ⟨trivial, by ring⟩
        · have hkc : ¬ cmpInt (key s x) k < 0 := by
            rw [cmpInt_lt_iff]; exact hk
          simp [advance, hfw, hkc, walkRel, if_pos hcell, hk]
      · rw [if_neg hcell] at hc
        have hlen : rest.length < f + 1 := by simp at hf; omega
        rw [show advance s k i (f+1) prev r =
              ((walkRel s i k (g+1) rest).1.getD prev,
               r + (walkRel s i k (g+1) rest).2) from
            ih prev (g+1) r (f+1) hc hlen]
        simp [walkRel, if_neg hcell]

/-- `walkRel` in terms of the consumed prefix `wpre`. -/
lemma walkRel_eq_wpre (s : SkipList) (i : Nat) (k : Int) :
    ∀ (L : List Nat) (g : Int),
      walkRel s i k g L =
        ((wpre s i k L).getLast?,
         if wpre s i k L = [] then 0 else g + ((wpre s i k L).length : Int)) := by
  intro L
  induction L with
  | nil => intro g; simp [walkRel, wpre]
  | cons x rest ih =>
      intro g
      by_cases hcell : i < height s x
      · by_cases hk : key s x < k
        · simp only [walkRel, if_pos hcell, if_pos hk, wpre]
          rw [ih 0]
          by_cases hnil : wpre s i k rest = []
          · simp [hnil]
          · obtain ⟨u, hu⟩ : ∃ u, (wpre s i k rest).getLast? = some u := by
              cases hh : (wpre s i k rest).getLast? with
              | none => rw [List.getLast?_eq_none_iff] at hh
                        exact absurd hh hnil
              | some u => exact ⟨u, rfl⟩
            rw [getLast?_cons_of_ne x _ hnil, hu]
            simp only [if_neg hnil, Option.getD_some, Prod.mk.injEq,
              if_neg (List.cons_ne_nil x (wpre s i k rest)), List.length_cons]
            exact ⟨by simp, by push_cast; ring⟩
        · simp [walkRel, if_pos hcell, hk, wpre]
      · simp only [walkRel, if_neg hcell, wpre]
        rw [ih (g+1)]
        by_cases hnil : wpre s i k rest = []
        · simp [hnil]
        · simp only [if_neg hnil,
            if_neg (List.cons_ne_nil x (wpre s i k rest))]
          rw [getLast?_cons_of_ne x _ hnil]
          simp only [Prod.mk.injEq, List.length_cons]
          exact ⟨by simp, by push_cast; ring⟩

/-- The consumed prefix is a prefix. -/
lemma wpre_leading (s : SkipList) (i : Nat) (k : Int) :
    ∀ L : List Nat, wpre s i k L <+: L := by
  intro L
  induction L with
  | nil => simp [wpre]
  | cons x rest ih =>
      obtain ⟨t, ht⟩ := ih
      by_cases hcell : i < height s x
      · by_cases hk : key s x < k
        · refine ⟨t, ?_⟩
          simp only [wpre, if_pos hcell, if_pos hk, List.cons_append,
            List.cons.injEq]
          exact ⟨trivial, ht⟩
        · simp [wpre, hcell, hk]
      · by_cases hnil : wpre s i k rest = []
        · simp [wpre, hcell, hnil]
        · refine ⟨t, ?_⟩
          simp only [wpre, if_neg hcell, if_neg hnil, List.cons_append,
            List.cons.injEq]
          exact ⟨trivial, ht⟩

/-- The last element of a nonempty consumed prefix is a cell with key < k. -/
lemma wpre_getLast_qual (s : SkipList) (i : Nat) (k : Int) :
    ∀ (L : List Nat) (u : Nat), (wpre s i k L).getLast? = some u →
      i < height s u ∧ key s u < k := by
  intro L
  induction L with
  | nil => intro u h; simp [wpre] at h
  | cons x rest ih =>
      intro u h
      by_cases hcell : i < height s x
      · by_cases hk : key s x < k
        · simp only [wpre, if_pos hcell, if_pos hk] at h
          by_cases hnil : wpre s i k rest = []
          · rw [hnil] at h
            simp at h
            subst h
            exact ⟨hcell, hk⟩
          · rw [getLast?_cons_of_ne x _ hnil] at h
            exact ih u h
        · simp only [wpre, if_pos hcell, if_neg hk] at h
          simp at h
      · simp only [wpre, if_neg hcell] at h
        by_cases hnil : wpre s i k rest = []
        · rw [if_pos hnil] at h
          simp at h
        · rw [if_neg hnil, getLast?_cons_of_ne x _ hnil] at h
          exact ih u h

/-- Under sortedness, every element of the consumed prefix has key < k. -/
lemma wpre_forall_lt (s : SkipList) (i : Nat) (k : Int) :
    ∀ L : List Nat, L.Pairwise (fun a b => key s a < key s b) →
      ∀ x ∈ wpre s i k L, key s x < k := by
  intro L
  induction L with
  | nil => intro _ x hx; simp [wpre] at hx
  | cons a rest ih =>
      intro hsort x hx
      have hsort2 := (List.pairwise_cons.1 hsort).2
      have hha := (List.pairwise_cons.1 hsort).1
      by_cases hcell : i < height s a
      · by_cases hk : key s a < k
        · rw [wpre, if_pos hcell, if_pos hk] at hx
          rcases List.mem_cons.1 hx with rfl | hx
          · exact hk
          · exact ih hsort2 x hx
        · rw [wpre, if_pos hcell, if_neg hk] at hx
          simp at hx
      · rw [wpre, if_neg hcell] at hx
        by_cases hnil : wpre s i k rest = []
        · rw [if_pos hnil] at hx; simp at hx
        · rw [if_neg hnil] at hx
          rcases List.mem_cons.1 hx with rfl | hx
          · obtain ⟨u, hu⟩ : ∃ u, (wpre s i k rest).getLast? = some u := by
              cases hh : (wpre s i k rest).getLast? with
              | none => rw [List.getLast?_eq_none_iff] at hh; exact absurd hh hnil
              | some u => exact ⟨u, rfl⟩
            have hum : u ∈ wpre s i k rest := List.mem_of_getLast?_eq_some hu
            have humem : u ∈ rest := (wpre_leading s i k rest).mem hum
            have := wpre_getLast_qual s i k rest u hu
            exact lt_trans (hha u humem) this.2
          · exact ih hsort2 x hx

/-- Under sortedness, the remainder past the consumed prefix holds no cell
with key < k. -/
lemma wpre_rest_no_qual (s : SkipList) (i : Nat) (k : Int) :
    ∀ (L R : List Nat), L.Pairwise (fun a b => key s a < key s b) →
      L = wpre s i k L ++ R →
      ∀ x ∈ R, ¬(i < height s x ∧ key s x < k) := by
  intro L
  induction L with
  | nil =>
      intro R _ hR x hx
      simp [wpre] at hR
      subst hR
      simp at hx
  | cons a rest ih =>
      intro R hsort hR x hx
      have hsort2 := (List.pairwise_cons.1 hsort).2
      have hha := (List.pairwise_cons.1 hsort).1
      by_cases hcell : i < height s a
      · by_cases hk : key s a < k
        · rw [wpre, if_pos hcell, if_pos hk, List.cons_append,
            List.cons.injEq] at hR
          exact ih R hsort2 hR.2 x hx
        · rw [wpre, if_pos hcell, if_neg hk, List.nil_append] at hR
          subst hR
          rcases List.mem_cons.1 hx with rfl | hx
          · rintro ⟨_, h2⟩; exact hk h2
          · rintro ⟨_, h2⟩
            exact absurd (lt_trans (hha x hx) h2) hk
      · rw [wpre, if_neg hcell] at hR
        by_cases hnil : wpre s i k rest = []
        · rw [if_pos hnil, List.nil_append] at hR
          subst hR
          rcases List.mem_cons.1 hx with rfl | hx
          · rintro ⟨h1, _⟩; exact hcell h1
          · exact ih rest hsort2 (by rw [hnil]; rfl) x hx
        · rw [if_neg hnil, List.cons_append, List.cons.injEq] at hR
          exact ih R hsort2 hR.2 x hx

/-- The chain structure restricted to the part after a cell. -/
lemma chainInv_suffix (s : SkipList) (i : Nat) :
    ∀ (A B : List Nat) (p : Nat) (g : Int) (u : Nat),
      chainInv s i p g (A ++ u :: B) → i < height s u →
      chainInv s i u 0 B := by
  intro A
  induction A with
  | nil =>
      intro B p g u hc hcell
      simp only [List.nil_append, chainInv, if_pos hcell] at hc
      exact hc.2.2
  | cons a A ih =>
      intro B p g u hc hcell
      simp only [List.cons_append, chainInv] at hc
      by_cases ha : i < height s a
      · rw [if_pos ha] at hc
        exact ih B a 0 u hc.2.2 hcell
      · rw [if_neg ha] at hc
        exact ih B p (g + 1) u hc hcell

/-- Position information maintained by the descending walk before level `i`
is processed: the consumed prefix `A`, all keys below `k`, the cursor at its
end (or the header), the rank its base position, the cursor a level-`i`
cell (or the header). -/
def posOk (s : SkipList) (k : Int) (C : List Nat) (i : Nat) (cur : Nat)
    (rank : Int) : Prop :=
  ∃ A S, C = A ++ S ∧ rank = (A.length : Int) ∧
    (∀ x ∈ A, key s x < k) ∧
    ((cur = s.header ∧ A = []) ∨ A.getLast? = some cur) ∧
    (cur = s.header ∨ i < height s cur)

/-- Position information after the level-`i` iteration: additionally no
level-`i` cell with key < k remains in the suffix. -/
def walkOk (s : SkipList) (k : Int) (C : List Nat) (i : Nat) (cur : Nat)
    (rank : Int) : Prop :=
  ∃ A S, C = A ++ S ∧ rank = (A.length : Int) ∧
    (∀ x ∈ A, key s x < k) ∧
    ((cur = s.header ∧ A = []) ∨ A.getLast? = some cur) ∧
    (cur = s.header ∨ i < height s cur) ∧
    (∀ x ∈ S, ¬(i < height s x ∧ key s x < k))

lemma walkOk_posOk {s k C i cur rank} (h : walkOk s k C i cur rank) (j : Nat)
    (hj : j ≤ i) : posOk s k C j cur rank := by
  obtain ⟨A, S, h1, h2, h3, h4, h5, _⟩ := h
  exact ⟨A, S, h1, h2, h3, h4, h5.imp id (fun hh => lt_of_le_of_lt hj hh)⟩

/-- The chain structure at the cursor, derived from the invariant. -/
lemma chainInv_at_pos {s : SkipList} {C : List Nat} (hInv : Inv s C)
    {k : Int} {i cur : Nat} {rank : Int} (hi : i < MaxLevel)
    (h : posOk s k C i cur rank) :
    ∃ A S, C = A ++ S ∧ rank = (A.length : Int) ∧
      (∀ x ∈ A, key s x < k) ∧
      ((cur = s.header ∧ A = []) ∨ A.getLast? = some cur) ∧
      chainInv s i cur 0 S := by
  obtain ⟨A, S, h1, h2, h3, h4, h5⟩ := h
  refine ⟨A, S, h1, h2, h3, h4, ?_⟩
  rcases h4 with ⟨rfl, rfl⟩ | h4
  · have hc := hInv.chains i hi
    rw [h1] at hc
    simpa using hc
  · obtain ⟨ys, rfl⟩ := List.getLast?_eq_some_iff.1 h4
    have hcell : i < height s cur := by
      rcases h5 with rfl | h5
      · rw [hInv.hdrH]; exact hi
      · exact h5
    have hc := hInv.chains i hi
    rw [h1, List.append_assoc, List.singleton_append] at hc
    exact chainInv_suffix s i ys S s.header 0 cur hc hcell

/-- One iteration of the outer walk loop preserves the walk invariant. -/
lemma walk_step {s : SkipList} {C : List Nat} (hInv : Inv s C) {k : Int}
    {i cur : Nat} {rank : Int} (hi : i < MaxLevel)
    (h : posOk s k C i cur rank) :
    walkOk s k C i (advance s k i s.nextId cur rank).1
      (advance s k i s.nextId cur rank).2 := by
  obtain ⟨A, S, h1, h2, h3, h4, hchain⟩ := chainInv_at_pos hInv hi h
  have hsortC := hInv.sorted
  have hsortS : S.Pairwise (fun a b => key s a < key s b) := by
    rw [h1] at hsortC
    exact hsortC.sublist (List.sublist_append_right A S)
  have hlenS : S.length < s.nextId := by
    have := length_lt_nextId hInv
    rw [h1, List.length_append] at this
    omega
  rw [advance_spec s i k S cur 0 rank s.nextId hchain hlenS,
    walkRel_eq_wpre s i k S 0]
  obtain ⟨R, hR⟩ := wpre_leading s i k S
  by_cases hnil : wpre s i k S = []
  · rw [hnil]
    refine ⟨A, S, h1, by simpa using h2, h3, h4, ?_, ?_⟩
    · obtain ⟨A2, S2, _, _, _, _, h5⟩ := h
      exact h5
    · intro x hx
      refine wpre_rest_no_qual s i k S S hsortS ?_ x hx
      rw [hnil, List.nil_append]
  · obtain ⟨u, hu⟩ : ∃ u, (wpre s i k S).getLast? = some u := by
      cases hh : (wpre s i k S).getLast? with
      | none => rw [List.getLast?_eq_none_iff] at hh; exact absurd hh hnil
      | some u => exact ⟨u, rfl⟩
    rw [hu]
    have hqual := wpre_getLast_qual s i k S u hu
    refine ⟨A ++ wpre s i k S, R, ?_, ?_, ?_, ?_, ?_, ?_⟩
    · rw [h1, List.append_assoc, hR]
    · rw [if_neg hnil, List.length_append, h2]
      push_cast
      ring
    · intro x hx
      rcases List.mem_append.1 hx with hx | hx
      · exact h3 x hx
      · exact wpre_forall_lt s i k S hsortS x hx
    · right
      rw [List.getLast?_append]
      simp [hu]
    · right
      exact hqual.1
    · intro x hx
      exact wpre_rest_no_qual s i k S R hsortS hR.symm x hx

/-- The outer walk loop: after processing down to level `s.level - d`, the
walk invariant holds there. -/
lemma walkAt_spec {s : SkipList} {C : List Nat} (hInv : Inv s C) (k : Int) :
    ∀ d, d ≤ s.level →
      walkOk s k C (s.level - d) (walkAt s k d).1 (walkAt s k d).2 := by
  intro d
  induction d with
  | zero =>
      intro _
      have hpos : posOk s k C s.level s.header 0 := by
        exact ⟨[], C, rfl, rfl, by simp, Or.inl ⟨rfl, rfl⟩, Or.inl rfl⟩
      simpa using walk_step hInv hInv.levelLt hpos
  | succ d ih =>
      intro hd
      have hok := ih (by omega)
      have hpos : posOk s k C (s.level - (d + 1)) (walkAt s k d).1
          (walkAt s k d).2 := walkOk_posOk hok _ (by omega)
      have hi : s.level - (d + 1) < MaxLevel :=
        lt_of_le_of_lt (Nat.sub_le _ _) hInv.levelLt
      simpa [walkAt] using walk_step hInv hi hpos

/-- The recorded update entries and ranks satisfy the walk invariant. -/
lemma walk_spec {s : SkipList} {C : List Nat} (hInv : Inv s C) (k : Int)
    (i : Nat) (hi : i ≤ s.level) :
    walkOk s k C i (updateI s k i) (ranksI s k i) := by
  have := walkAt_spec hInv k (s.level - i) (by omega)
  rw [show s.level - (s.level - i) = i by omega] at this
  simpa [updateI, ranksI, hi] using this

/-- A split with an all-true prefix and all-false suffix is the
takeWhile/dropWhile split. -/
lemma split_takeWhile {α : Type} (p : α → Bool) :
    ∀ (A S : List α), (∀ x ∈ A, p x = true) → (∀ x ∈ S, ¬ p x = true) →
      (A ++ S).takeWhile p = A ∧ (A ++ S).dropWhile p = S := by
  intro A
  induction A with
  | nil =>
      intro S _ hS
      cases S with
      | nil => simp
      | cons y ys =>
          have hy : p y = false := by
            have := hS y (by simp)
            cases hpy : p y
            · rfl
            · exact absurd hpy this
          simp [List.takeWhile_cons, List.dropWhile_cons, hy]
  | cons a A ih =>
      intro S hA hS
      have hpa : p a = true := hA a (by simp)
      have := ih S (fun x hx => hA x (by simp [hx])) hS
      simp [List.takeWhile_cons, List.dropWhile_cons, hpa, this.1, this.2]

/-- The rank and the successor of the base-level update node. -/
lemma update0_spec {s : SkipList} {C : List Nat} (hInv : Inv s C) (k : Int) :
    ranksI s k 0 =
      ((C.takeWhile (fun x => decide (key s x < k))).length : Int) ∧
    fwd s (updateI s k 0) 0 =
      (C.dropWhile (fun x => decide (key s x < k))).head? := by
  obtain ⟨A, S, h1, h2, h3, h4, h5, h6⟩ := walk_spec hInv k 0 (Nat.zero_le _)
  have hcells : ∀ x ∈ C, 0 < height s x := fun x hx => (hInv.nodeH x hx).1
  have hSnk : ∀ x ∈ S, ¬ (key s x < k) := by
    intro x hx hk
    exact h6 x hx ⟨hcells x (by rw [h1]; exact List.mem_append_right A hx), hk⟩
  have hsplit := split_takeWhile (fun x => decide (key s x < k)) A S
    (fun x hx => by simpa using h3 x hx) (fun x hx => by simpa using hSnk x hx)
  have hchain : chainInv s 0 (updateI s k 0) 0 S := by
    obtain ⟨A2, S2, g1, g2, g3, g4, g5⟩ :=
      chainInv_at_pos hInv (by decide : 0 < MaxLevel)
        (walkOk_posOk ⟨A, S, h1, h2, h3, h4, h5, h6⟩ 0 le_rfl)
    -- the two splits agree because their prefix lengths agree
    have hlen : A2.length = A.length := by
      have := g2.symm.trans h2
      exact_mod_cast this
    have : A2 = A ∧ S2 = S := by
      have happ : A2 ++ S2 = A ++ S := by rw [← g1, ← h1]
      constructor
      · have := congrArg (List.take A.length) happ
        rwa [← hlen, List.take_left, hlen, List.take_left] at this
      · have := congrArg (List.drop A.length) happ
        rwa [← hlen, List.drop_left, hlen, List.drop_left] at this
    rw [← this.2]
    exact g5
  constructor
  · rw [h1, hsplit.1, h2]
  · rw [h1, hsplit.2]
    cases S with
    | nil => simpa [chainInv] using hchain
    | cons y ys =>
        have hcy : 0 < height s y := by
          refine hcells y ?_
          rw [h1]
          exact List.mem_append_right A (by simp)
        simp only [chainInv, if_pos hcy] at hchain
        simp [hchain.1]

/-- Membership of `k` in a sorted key list is decided by the head of the
dropWhile remainder. -/
lemma sorted_key_mem {s : SkipList} :
    ∀ (C : List Nat), C.Pairwise (fun a b => key s a < key s b) → ∀ k : Int,
      (k ∈ C.map (key s) ↔
        ∃ c, (C.dropWhile (fun x => decide (key s x < k))).head? = some c ∧
          key s c = k) := by
  intro C
  induction C with
  | nil => intro _ k; simp
  | cons x rest ih =>
      intro hsort k
      have hsort2 := (List.pairwise_cons.1 hsort).2
      have hha := (List.pairwise_cons.1 hsort).1
      by_cases h : key s x < k
      · rw [List.dropWhile_cons]
        simp only [decide_eq_true_eq, if_pos h]
        rw [← ih hsort2 k]
        simp only [List.map_cons, List.mem_cons]
        constructor
        · rintro (rfl | hk)
          · omega
          · exact hk
        · intro hk; exact Or.inr hk
      · rw [List.dropWhile_cons]
        simp only [decide_eq_true_eq, if_neg h]
        simp only [List.head?_cons, List.map_cons, List.mem_cons]
        constructor
        · rintro (rfl | hk)
          · exact ⟨x, rfl, rfl⟩
          · obtain ⟨y, hy, rfl⟩ := List.mem_map.1 hk
            have := hha y hy
            omega
        · rintro ⟨c, hc, hck⟩
          left
          have : c = x := by injection hc; omega
          subst this
          exact hck.symm

/-- `Search` in terms of the abstraction. -/
lemma Search_eq {s : SkipList} {C : List Nat} (hInv : Inv s C) (k : Int) :
    Search s k =
      match (C.dropWhile (fun x => decide (key s x < k))).head? with
      | none => none
      | some c => if key s c = k then some c else none := by
  unfold Search
  rw [(update0_spec hInv k).2]
  cases (C.dropWhile (fun x => decide (key s x < k))).head? with
  | none => rfl
  | some c =>
      by_cases hk : key s c = k
      · simp [cmpInt_eq_iff, hk]
      · simp [cmpInt_eq_iff, hk]

/-- When `k` is not stored, `Search` returns none. -/
lemma Search_not_mem {s : SkipList} {C : List Nat} (hInv : Inv s C) (k : Int)
    (h : k ∉ C.map (key s)) : Search s k = none := by
  rw [Search_eq hInv k]
  cases hh : (C.dropWhile (fun x => decide (key s x < k))).head? with
  | none => rfl
  | some c =>
      by_cases hk : key s c = k
      · exact absurd ((sorted_key_mem C hInv.sorted k).2 ⟨c, hh, hk⟩) h
      · simp [hk]

/-- When `k` is stored, `Search` returns a node of the list carrying it. -/
lemma Search_mem {s : SkipList} {C : List Nat} (hInv : Inv s C) (k : Int)
    (h : k ∈ C.map (key s)) :
    ∃ c, Search s k = some c ∧ key s c = k ∧ c ∈ C := by
  obtain ⟨c, hc, hck⟩ := (sorted_key_mem C hInv.sorted k).1 h
  refine ⟨c, ?_, hck, ?_⟩
  · rw [Search_eq hInv k, hc]
    simp [hck]
  · have hmem : c ∈ C.dropWhile (fun x => decide (key s x < k)) :=
      List.mem_of_mem_head? hc
    exact (List.dropWhile_sublist _).mem hmem

/-- Under sortedness, the strict-lower prefix is the strict-lower filter. -/
lemma takeWhile_eq_filter_keys {s : SkipList} {k : Int} :
    ∀ C : List Nat, C.Pairwise (fun a b => key s a < key s b) →
      C.takeWhile (fun x => decide (key s x < k)) =
        C.filter (fun x => decide (key s x < k)) := by
  intro C
  induction C with
  | nil => intro _; simp
  | cons x rest ih =>
      intro hsort
      have hsort2 := (List.pairwise_cons.1 hsort).2
      have hha := (List.pairwise_cons.1 hsort).1
      by_cases h : key s x < k
      · simp only [List.takeWhile_cons, List.filter_cons, decide_eq_true_eq,
          h, if_true]
        rw [ih hsort2]
      · have hrest : rest.filter (fun x => decide (key s x < k)) = [] := by
          rw [List.filter_eq_nil_iff]
          intro y hy
          have := hha y hy
          simp only [decide_eq_true_eq]
          omega
        simp only [List.takeWhile_cons, List.filter_cons, decide_eq_true_eq,
          h, if_false, hrest]

/-- `Rank` counts the stored keys strictly below the query. -/
lemma Rank_spec {s : SkipList} {C : List Nat} (hInv : Inv s C) (k : Int) :
    Rank s k = (((C.map (key s)).filter (fun a => decide (a < k))).length : Int)
    := by
  unfold Rank
  rw [(update0_spec hInv k).1, takeWhile_eq_filter_keys C hInv.sorted]
  have : (C.map (key s)).filter (fun a => decide (a < k)) =
      (C.filter (fun x => decide (key s x < k))).map (key s) := by
    rw [List.filter_map]
    rfl
  rw [this, List.length_map]

/-- The executable base chain recovers the witness list. -/
lemma chainFrom_eq {s : SkipList} :
    ∀ (C : List Nat) (p : Nat) (g : Int) (fuel : Nat),
      chainInv s 0 p g C → (∀ x ∈ C, 0 < height s x) → C.length < fuel →
      chainFrom s 0 fuel p = C := by
  intro C
  induction C with
  | nil =>
      intro p g fuel hc _ hf
      obtain ⟨f, rfl⟩ : ∃ f, fuel = f + 1 := ⟨fuel - 1, by omega⟩
      simp only [chainInv] at hc
      simp [chainFrom, hc]
  | cons x rest ih =>
      intro p g fuel hc hcells hf
      obtain ⟨f, rfl⟩ : ∃ f, fuel = f + 1 := ⟨fuel - 1, by omega⟩
      have hx : 0 < height s x := hcells x (by simp)
      simp only [chainInv, if_pos hx] at hc
      simp only [chainFrom, hc.1]
      rw [ih x 0 f hc.2.2 (fun y hy => hcells y (by simp [hy])) (by simp at hf; omega)]

lemma chain0_eq {s : SkipList} {C : List Nat} (hInv : Inv s C) :
    chain0 s = C :=
  chainFrom_eq C s.header 0 s.nextId
    (hInv.chains 0 (by decide))
    (fun x hx => (hInv.nodeH x hx).1)
    (length_lt_nextId hInv)

lemma absKeys_eq {s : SkipList} {C : List Nat} (hInv : Inv s C) :
    absKeys s = C.map (key s) := by
  unfold absKeys
  rw [chain0_eq hInv]

lemma absList_eq {s : SkipList} {C : List Nat} (hInv : Inv s C) :
    absList s = C.map (fun x => (key s x, value s x)) := by
  unfold absList
  rw [chain0_eq hInv]

/-! ## Preservation of the invariant by the operations -/

lemma setStore_same (st : Nat → node) (x : Nat) (n : node) :
    setStore st x n x = n := by
  simp [setStore]

lemma setStore_other (st : Nat → node) (x y : Nat) (n : node) (h : y ≠ x) :
    setStore st x n y = st y := by
  simp [setStore, h]

lemma chainInv_congr {s s' : SkipList} {i : Nat}
    (hh : ∀ x, height s' x = height s x)
    (hfw : ∀ x, fwd s' x i = fwd s x i)
    (hsp : ∀ x, spn s' x i = spn s x i) :
    ∀ (L : List Nat) (p : Nat) (g : Int),
      chainInv s i p g L → chainInv s' i p g L := by
  intro L
  induction L with
  | nil => intro p g hc; simp only [chainInv] at *; rw [hfw]; exact hc
  | cons x rest ih =>
      intro p g hc
      simp only [chainInv] at *
      rw [hh x]
      by_cases hx : i < height s x
      · rw [if_pos hx] at hc ⊢
        exact ⟨by rw [hfw]; exact hc.1, by rw [hsp]; exact hc.2.1,
          ih x 0 hc.2.2⟩
      · rw [if_neg hx] at hc ⊢
        exact ih p (g + 1) hc

lemma backInv_congr {s s' : SkipList}
    (hb : ∀ x, (s'.store x).backward = (s.store x).backward) :
    ∀ (L : List Nat) (p : Nat), backInv s p L → backInv s' p L := by
  intro L
  induction L with
  | nil => intro p _; trivial
  | cons x rest ih =>
      intro p hc
      exact ⟨by rw [hb]; exact hc.1, ih x hc.2⟩

lemma chainSeg_q_mem {s : SkipList} {i : Nat} :
    ∀ {L : List Nat} {p : Nat} {g : Int} {q : Nat} {h : Int},
      chainSeg s i p g L q h → q = p ∨ q ∈ L := by
  intro L
  induction L with
  | nil => intro p g q h hc; exact Or.inl hc.1
  | cons x rest ih =>
      intro p g q h hc
      simp only [chainSeg] at hc
      by_cases hx : i < height s x
      · rw [if_pos hx] at hc
        rcases ih hc.2.2 with rfl | hm
        · exact Or.inr (by simp)
        · exact Or.inr (by simp [hm])
      · rw [if_neg hx] at hc
        rcases ih hc with rfl | hm
        · exact Or.inl rfl
        · exact Or.inr (by simp [hm])

/-- Transferring a chain segment to another state that agrees on the
heights of its members and on the slots of everything except the final
cell (whose outgoing slot a segment does not constrain). -/
lemma chainSeg_congr {s s' : SkipList} {i : Nat} :
    ∀ {L : List Nat} {p : Nat} {g : Int} {q : Nat} {h : Int},
      chainSeg s i p g L q h →
      p ∉ L → L.Nodup →
      (∀ x ∈ L, height s' x = height s x) →
      (∀ x, (x = p ∨ x ∈ L) → x ≠ q →
        fwd s' x i = fwd s x i ∧ spn s' x i = spn s x i) →
      chainSeg s' i p g L q h := by
  intro L
  induction L with
  | nil => intro p g q h hc _ _ _ _; exact hc
  | cons x rest ih =>
      intro p g q h hc hp hnd hh hsl
      simp only [chainSeg] at hc ⊢
      have hxr : x ∉ rest := (List.nodup_cons.1 hnd).1
      have hndr : rest.Nodup := (List.nodup_cons.1 hnd).2
      by_cases hx : i < height s x
      · rw [if_pos hx] at hc
        rw [hh x (by simp), if_pos hx]
        have hpq : p ≠ q := by
          rcases chainSeg_q_mem hc.2.2 with rfl | hm
          · intro hpe; exact hp (by simp [hpe])
          · intro hpe; exact hp (by simp [hpe ▸ hm])
        have hps := hsl p (Or.inl rfl) hpq
        refine ⟨by rw [hps.1]; exact hc.1, by rw [hps.2]; exact hc.2.1, ?_⟩
        refine ih hc.2.2 hxr hndr (fun y hy => hh y (by simp [hy])) ?_
        intro y hy hyq
        refine hsl y ?_ hyq
        rcases hy with rfl | hy2
        · simp
        · simp [hy2]
      · rw [if_neg hx] at hc
        rw [hh x (by simp), if_neg hx]
        refine ih hc (fun hm => hp (by simp [hm])) hndr
          (fun y hy => hh y (by simp [hy])) ?_
        intro y hy hyq
        refine hsl y ?_ hyq
        rcases hy with rfl | hy2
        · simp
        · simp [hy2]

/-- A segment with no cells just accumulates gap. -/
lemma chainSeg_no_cells {s : SkipList} {i : Nat} :
    ∀ (L : List Nat) (p : Nat) (g : Int),
      (∀ x ∈ L, ¬ i < height s x) →
      chainSeg s i p g L p (g + (L.length : Int)) := by
  intro L
  induction L with
  | nil => intro p g _; exact ⟨rfl, by simp⟩
  | cons x rest ih =>
      intro p g hL
      simp only [chainSeg, if_neg (hL x (by simp))]
      have h2 := ih p (g + 1) (fun y hy => hL y (by simp [hy]))
      have he : g + ((x :: rest).length : Int) = g + 1 + (rest.length : Int)
        := by simp only [List.length_cons]; push_cast; ring
      rw [he]
      exact h2

/-- And conversely, the output of a cell-free segment is forced. -/
lemma chainSeg_no_cells_inv {s : SkipList} {i : Nat} :
    ∀ {L : List Nat} {p : Nat} {g : Int} {q : Nat} {h : Int},
      chainSeg s i p g L q h → (∀ x ∈ L, ¬ i < height s x) →
      q = p ∧ h = g + (L.length : Int) := by
  intro L
  induction L with
  | nil => intro p g q h hc _; simpa using hc
  | cons x rest ih =>
      intro p g q h hc hL
      simp only [chainSeg, if_neg (hL x (by simp))] at hc
      have h2 := ih hc (fun y hy => hL y (by simp [hy]))
      refine ⟨h2.1, ?_⟩
      rw [h2.2]
      simp only [List.length_cons]
      push_cast
      ring

lemma chainSeg_append {s : SkipList} {i : Nat} :
    ∀ {A B : List Nat} {p : Nat} {g : Int} {q : Nat} {h : Int} {q2 : Nat}
      {h2 : Int},
      chainSeg s i p g A q h → chainSeg s i q h B q2 h2 →
      chainSeg s i p g (A ++ B) q2 h2 := by
  intro A
  induction A with
  | nil =>
      intro B p g q h q2 h2 h1 h2'
      obtain ⟨rfl, rfl⟩ := h1
      simpa using h2'
  | cons x rest ih =>
      intro B p g q h q2 h2 h1 h2'
      simp only [chainSeg, List.cons_append] at h1 ⊢
      by_cases hx : i < height s x
      · rw [if_pos hx] at h1 ⊢
        exact ⟨h1.1, h1.2.1, ih h1.2.2 h2'⟩
      · rw [if_neg hx] at h1 ⊢
        exact ih h1 h2'

lemma chainInv_append_destruct {s : SkipList} {i : Nat} :
    ∀ {A B : List Nat} {p : Nat} {g : Int},
      chainInv s i p g (A ++ B) →
      ∃ q h, chainSeg s i p g A q h ∧ chainInv s i q h B := by
  intro A
  induction A with
  | nil => intro B p g hc; exact ⟨p, g, ⟨rfl, rfl⟩, by simpa using hc⟩
  | cons x rest ih =>
      intro B p g hc
      simp only [List.cons_append, chainInv] at hc
      by_cases hx : i < height s x
      · rw [if_pos hx] at hc
        obtain ⟨q, h, hs, hi2⟩ := ih hc.2.2
        refine ⟨q, h, ?_, hi2⟩
        simp only [chainSeg, if_pos hx]
        exact ⟨hc.1, hc.2.1, hs⟩
      · rw [if_neg hx] at hc
        obtain ⟨q, h, hs, hi2⟩ := ih hc
        refine ⟨q, h, ?_, hi2⟩
        simp only [chainSeg, if_neg hx]
        exact hs

lemma chainInv_append_build {s : SkipList} {i : Nat} :
    ∀ {A B : List Nat} {p : Nat} {g : Int} {q : Nat} {h : Int},
      chainSeg s i p g A q h → chainInv s i q h B →
      chainInv s i p g (A ++ B) := by
  intro A
  induction A with
  | nil =>
      intro B p g q h h1 h2
      obtain ⟨rfl, rfl⟩ := h1
      simpa using h2
  | cons x rest ih =>
      intro B p g q h h1 h2
      simp only [chainSeg] at h1
      simp only [List.cons_append, chainInv]
      by_cases hx : i < height s x
      · rw [if_pos hx] at h1 ⊢
        exact ⟨h1.1, h1.2.1, ih h1.2.2 h2⟩
      · rw [if_neg hx] at h1 ⊢
        exact ih h1 h2

/-- When the last element of a segment is a cell, the segment ends exactly
there with gap 0. -/
lemma chainSeg_last_cell {s : SkipList} {i : Nat} :
    ∀ {L : List Nat} {p : Nat} {g : Int} {q : Nat} {h : Int} {u : Nat},
      chainSeg s i p g L q h → L.getLast? = some u → i < height s u →
      q = u ∧ h = 0 := by
  intro L
  induction L with
  | nil => intro p g q h u _ hl _; simp at hl
  | cons x rest ih =>
      intro p g q h u hc hl hu
      cases hrest : rest with
      | nil =>
          subst hrest
          simp at hl
          subst hl
          simp only [chainSeg, if_pos hu] at hc
          exact ⟨hc.2.2.1, hc.2.2.2⟩
      | cons y ys =>
          have hne : rest ≠ [] := by rw [hrest]; simp
          rw [getLast?_cons_of_ne x rest hne] at hl
          rw [← hrest] at *
          simp only [chainSeg] at hc
          by_cases hx : i < height s x
          · rw [if_pos hx] at hc
            exact ih hc.2.2 hl hu
          · rw [if_neg hx] at hc
            exact ih hc hl hu

lemma chainInv_no_cells_build {s : SkipList} {i : Nat} :
    ∀ (L : List Nat) (p : Nat) (g : Int),
      (∀ x ∈ L, ¬ i < height s x) → fwd s p i = none →
      chainInv s i p g L := by
  intro L
  induction L with
  | nil => intro p g _ hf; exact hf
  | cons x rest ih =>
      intro p g hL hf
      simp only [chainInv, if_neg (hL x (by simp))]
      exact ih p (g + 1) (fun y hy => hL y (by simp [hy])) hf

lemma chainInv_no_cells_inv {s : SkipList} {i : Nat} :
    ∀ {L : List Nat} {p : Nat} {g : Int},
      chainInv s i p g L → (∀ x ∈ L, ¬ i < height s x) →
      fwd s p i = none := by
  intro L
  induction L with
  | nil => intro p g hc _; exact hc
  | cons x rest ih =>
      intro p g hc hL
      simp only [chainInv, if_neg (hL x (by simp))] at hc
      exact ih hc (fun y hy => hL y (by simp [hy]))

lemma chainInv_prepend_noncells {s : SkipList} {i : Nat} :
    ∀ (N : List Nat) {L : List Nat} {p : Nat} {g : Int},
      (∀ x ∈ N, ¬ i < height s x) →
      chainInv s i p (g + (N.length : Int)) L →
      chainInv s i p g (N ++ L) := by
  intro N
  induction N with
  | nil => intro L p g _ hc; simpa using hc
  | cons x rest ih =>
      intro L p g hN hc
      simp only [List.cons_append, chainInv, if_neg (hN x (by simp))]
      refine ih (fun y hy => hN y (by simp [hy])) ?_
      have he : g + 1 + ((rest.length : Nat) : Int) =
          g + (((x :: rest).length : Nat) : Int) := by
        simp only [List.length_cons]; push_cast; ring
      rw [he]
      exact hc

lemma chainInv_drop_noncells {s : SkipList} {i : Nat} :
    ∀ (N : List Nat) {L : List Nat} {p : Nat} {g : Int},
      (∀ x ∈ N, ¬ i < height s x) →
      chainInv s i p g (N ++ L) →
      chainInv s i p (g + (N.length : Int)) L := by
  intro N
  induction N with
  | nil => intro L p g _ hc; simpa using hc
  | cons x rest ih =>
      intro L p g hN hc
      simp only [List.cons_append, chainInv, if_neg (hN x (by simp))] at hc
      have h2 := ih (fun y hy => hN y (by simp [hy])) hc
      have he : g + (((x :: rest).length : Nat) : Int) =
          g + 1 + ((rest.length : Nat) : Int) := by
        simp only [List.length_cons]; push_cast; ring
      rw [he]
      exact h2

/-- Transfer a chain tail to a new state with a new head cell: the heights
of the members agree, the slots of the member cells agree, and the new
head's slot carries the same link with a shifted gap. -/
lemma chainInv_transfer {s s' : SkipList} {i : Nat} :
    ∀ {L : List Nat} {p : Nat} {g : Int} {p2 : Nat} {g2 : Int},
      chainInv s i p g L →
      (∀ x ∈ L, height s' x = height s x) →
      fwd s' p2 i = fwd s p i →
      spn s' p2 i = spn s p i + (g2 - g) →
      (∀ x ∈ L, i < height s x →
        fwd s' x i = fwd s x i ∧ spn s' x i = spn s x i) →
      chainInv s' i p2 g2 L := by
  intro L
  induction L with
  | nil =>
      intro p g p2 g2 hc _ hf _ _
      simp only [chainInv] at hc ⊢
      rw [hf]; exact hc
  | cons x rest ih =>
      intro p g p2 g2 hc hh hf hsp hcells
      simp only [chainInv] at hc ⊢
      rw [hh x (by simp)]
      by_cases hx : i < height s x
      · rw [if_pos hx] at hc ⊢
        refine ⟨by rw [hf]; exact hc.1, by rw [hsp, hc.2.1]; ring, ?_⟩
        have hxc := hcells x (by simp) hx
        exact ih hc.2.2 (fun y hy => hh y (by simp [hy])) hxc.1
          (by rw [hxc.2]; ring)
          (fun y hy hyc => hcells y (by simp [hy]) hyc)
      · rw [if_neg hx] at hc ⊢
        exact ih hc (fun y hy => hh y (by simp [hy])) hf (by rw [hsp]; ring)
          (fun y hy hyc => hcells y (by simp [hy]) hyc)

lemma backInv_append_destruct {s : SkipList} :
    ∀ {A B : List Nat} {p : Nat},
      backInv s p (A ++ B) → backInv s p A ∧ backInv s (A.getLast?.getD p) B
    := by
  intro A
  induction A with
  | nil => intro B p h; exact ⟨trivial, by simpa using h⟩
  | cons x rest ih =>
      intro B p h
      obtain ⟨h1, h2⟩ := h
      obtain ⟨ha, hb⟩ := ih h2
      refine ⟨⟨h1, ha⟩, ?_⟩
      by_cases hr : rest = []
      · subst hr; simpa using hb
      · obtain ⟨u, hu⟩ : ∃ u, rest.getLast? = some u := by
          cases hh : rest.getLast? with
          | none => rw [List.getLast?_eq_none_iff] at hh; exact absurd hh hr
          | some u => exact ⟨u, rfl⟩
        rw [getLast?_cons_of_ne x rest hr, hu]
        rw [hu] at hb
        simpa using hb

lemma backInv_append_build {s : SkipList} :
    ∀ {A B : List Nat} {p : Nat},
      backInv s p A → backInv s (A.getLast?.getD p) B → backInv s p (A ++ B)
    := by
  intro A
  induction A with
  | nil => intro B p _ h; simpa using h
  | cons x rest ih =>
      intro B p h1 h2
      refine ⟨h1.1, ih h1.2 ?_⟩
      by_cases hr : rest = []
      · subst hr; simpa using h2
      · obtain ⟨u, hu⟩ : ∃ u, rest.getLast? = some u := by
          cases hh : rest.getLast? with
          | none => rw [List.getLast?_eq_none_iff] at hh; exact absurd hh hr
          | some u => exact ⟨u, rfl⟩
        rw [getLast?_cons_of_ne x rest hr, hu] at h2
        rw [hu]
        simpa using h2

lemma backInv_congr_on {s s' : SkipList} :
    ∀ {L : List Nat} {p : Nat},
      backInv s p L →
      (∀ x ∈ L, (s'.store x).backward = (s.store x).backward) →
      backInv s' p L := by
  intro L
  induction L with
  | nil => intro p _ _; trivial
  | cons x rest ih =>
      intro p h hb
      exact ⟨by rw [hb x (by simp)]; exact h.1,
        ih h.2 (fun y hy => hb y (by simp [hy]))⟩

lemma get?_set_getD {α : Type} (l : List α) (j i : Nat) (a d : α) :
    ((l.set j a).get? i).getD d =
      if j = i ∧ j < l.length then a else (l.get? i).getD d := by
  rw [List.get?_eq_getElem?, List.getElem?_set, List.get?_eq_getElem?]
  by_cases h1 : j = i
  · subst h1
    by_cases h2 : j < l.length
    · simp [h2]
    · simp [h2, List.getElem?_eq_none (Nat.le_of_not_lt h2)]
  · simp [h1]

lemma fwd_def (s : SkipList) (y i : Nat) :
    fwd s y i = ((s.store y).forward.get? i).getD none := rfl

lemma spn_def (s : SkipList) (y i : Nat) :
    spn s y i = ((s.store y).span.get? i).getD 0 := rfl

/-- The record written to `upd j` by the splice iteration `j`. -/
lemma linkStep_store_upd (upd : Nat → Nat) (rk : Nat → Int) (newId : Nat)
    (st : SkipList) (j : Nat) (h : upd j ≠ newId) :
    (linkStep upd rk newId st j).store (upd j) =
      { st.store (upd j) with
        forward := (st.store (upd j)).forward.set j (some newId),
        span := (st.store (upd j)).span.set j (rk 0 - rk j + 1) } := by
  simp [linkStep, setStore_same]

/-- The record written to the new node by the splice iteration `j`. -/
lemma linkStep_store_newId (upd : Nat → Nat) (rk : Nat → Int) (newId : Nat)
    (st : SkipList) (j : Nat) (h : upd j ≠ newId) :
    (linkStep upd rk newId st j).store newId =
      { st.store newId with
        forward := (st.store newId).forward.set j ((st.store (upd j)).fwdN j),
        span := (st.store newId).span.set j
          ((st.store (upd j)).spnN j - (rk 0 - rk j + 1 - 1)) } := by
  simp only [linkStep]
  rw [setStore_other _ _ _ _ (Ne.symm h), setStore_same]

lemma linkStep_store_other (upd : Nat → Nat) (rk : Nat → Int) (newId : Nat)
    (st : SkipList) (j : Nat) (y : Nat) (h1 : y ≠ upd j) (h2 : y ≠ newId) :
    (linkStep upd rk newId st j).store y = st.store y := by
  simp only [linkStep]
  rw [setStore_other _ _ _ _ h1, setStore_other _ _ _ _ h2]

lemma linkStep_misc (upd : Nat → Nat) (rk : Nat → Int) (newId : Nat)
    (st : SkipList) (j : Nat) (h : upd j ≠ newId) :
    (∀ y, ((linkStep upd rk newId st j).store y).forward.length =
        (st.store y).forward.length) ∧
    (∀ y, ((linkStep upd rk newId st j).store y).span.length =
        (st.store y).span.length) ∧
    (∀ y, ((linkStep upd rk newId st j).store y).key = (st.store y).key) ∧
    (∀ y, ((linkStep upd rk newId st j).store y).value = (st.store y).value) ∧
    (∀ y, ((linkStep upd rk newId st j).store y).backward =
        (st.store y).backward) ∧
    (linkStep upd rk newId st j).nextId = st.nextId ∧
    (linkStep upd rk newId st j).header = st.header ∧
    (linkStep upd rk newId st j).level = st.level ∧
    (linkStep upd rk newId st j).length = st.length ∧
    (linkStep upd rk newId st j).isArena = st.isArena := by
  refine ⟨?_, ?_, ?_, ?_, ?_, rfl, rfl, rfl, rfl, rfl⟩ <;> intro y <;>
    by_cases hy1 : y = upd j
  · subst hy1; rw [linkStep_store_upd upd rk newId st j h]; simp
  · by_cases hy2 : y = newId
    · rw [hy2, linkStep_store_newId upd rk newId st j h]; simp
    · rw [linkStep_store_other upd rk newId st j y hy1 hy2]
  · subst hy1; rw [linkStep_store_upd upd rk newId st j h]; simp
  · by_cases hy2 : y = newId
    · rw [hy2, linkStep_store_newId upd rk newId st j h]; simp
    · rw [linkStep_store_other upd rk newId st j y hy1 hy2]
  · subst hy1; rw [linkStep_store_upd upd rk newId st j h]
  · by_cases hy2 : y = newId
    · rw [hy2, linkStep_store_newId upd rk newId st j h]
    · rw [linkStep_store_other upd rk newId st j y hy1 hy2]
  · subst hy1; rw [linkStep_store_upd upd rk newId st j h]
  · by_cases hy2 : y = newId
    · rw [hy2, linkStep_store_newId upd rk newId st j h]
    · rw [linkStep_store_other upd rk newId st j y hy1 hy2]
  · subst hy1; rw [linkStep_store_upd upd rk newId st j h]
  · by_cases hy2 : y = newId
    · rw [hy2, linkStep_store_newId upd rk newId st j h]
    · rw [linkStep_store_other upd rk newId st j y hy1 hy2]

/-- A splice iteration leaves every slot other than its own two alone. -/
lemma linkStep_frame (upd : Nat → Nat) (rk : Nat → Int) (newId : Nat)
    (st : SkipList) (j : Nat) (h : upd j ≠ newId) (y i : Nat)
    (hfr : i ≠ j ∨ (y ≠ upd j ∧ y ≠ newId)) :
    fwd (linkStep upd rk newId st j) y i = fwd st y i ∧
    spn (linkStep upd rk newId st j) y i = spn st y i := by
  by_cases hy1 : y = upd j
  · subst hy1
    rw [fwd_def, spn_def, linkStep_store_upd upd rk newId st j h]
    have hij : i ≠ j := by
      rcases hfr with hfr | hfr
      · exact hfr
      · exact absurd rfl hfr.1
    simp only []
    rw [get?_set_getD, get?_set_getD]
    rw [if_neg (fun hcon => hij hcon.1.symm),
      if_neg (fun hcon => hij hcon.1.symm)]
    exact ⟨rfl, rfl⟩
  · by_cases hy2 : y = newId
    · have hij : i ≠ j := by
        rcases hfr with hfr | hfr
        · exact hfr
        · exact absurd hy2 hfr.2
      rw [hy2, fwd_def, spn_def, linkStep_store_newId upd rk newId st j h]
      simp only []
      rw [get?_set_getD, get?_set_getD]
      rw [if_neg (fun hcon => hij hcon.1.symm),
        if_neg (fun hcon => hij hcon.1.symm)]
      exact ⟨rfl, rfl⟩
    · rw [fwd_def, spn_def, linkStep_store_other upd rk newId st j y hy1 hy2]
      exact ⟨rfl, rfl⟩

/-- The slots written by a splice iteration, given in-range indices. -/
lemma linkStep_slots (upd : Nat → Nat) (rk : Nat → Int) (newId : Nat)
    (st : SkipList) (j : Nat) (h : upd j ≠ newId)
    (h1 : j < (st.store (upd j)).forward.length)
    (h2 : j < (st.store (upd j)).span.length)
    (h3 : j < (st.store newId).forward.length)
    (h4 : j < (st.store newId).span.length) :
    fwd (linkStep upd rk newId st j) (upd j) j = some newId ∧
    spn (linkStep upd rk newId st j) (upd j) j = rk 0 - rk j + 1 ∧
    fwd (linkStep upd rk newId st j) newId j = fwd st (upd j) j ∧
    spn (linkStep upd rk newId st j) newId j =
      spn st (upd j) j - (rk 0 - rk j) := by
  refine ⟨?_, ?_, ?_, ?_⟩
  · rw [fwd_def, linkStep_store_upd upd rk newId st j h]
    simp only []
    rw [get?_set_getD, if_pos ⟨rfl, h1⟩]
  · rw [spn_def, linkStep_store_upd upd rk newId st j h]
    simp only []
    rw [get?_set_getD, if_pos ⟨rfl, h2⟩]
  · rw [fwd_def, linkStep_store_newId upd rk newId st j h]
    simp only []
    rw [get?_set_getD, if_pos ⟨rfl, h3⟩]
    rfl
  · rw [spn_def, linkStep_store_newId upd rk newId st j h]
    simp only []
    rw [get?_set_getD, if_pos ⟨rfl, h4⟩]
    show (st.store (upd j)).spnN j - (rk 0 - rk j + 1 - 1) = _
    rw [show (st.store (upd j)).spnN j = spn st (upd j) j from rfl]
    ring

/-- Store characterization of the first `j` iterations of the splice loop of
`Insert`: the update slots carry the recomputed spans and point at the new
node, the new node's slots carry the old outgoing links with the remainder
spans, and every other slot and field is untouched. -/
lemma link_fold (upd : Nat → Nat) (rk : Nat → Int) (newId : Nat)
    (s2 : SkipList) (hup : ∀ m, upd m ≠ newId) (j : Nat)
    (hrange : ∀ m, m < j →
        m < (s2.store (upd m)).forward.length ∧
        m < (s2.store (upd m)).span.length ∧
        m < (s2.store newId).forward.length ∧
        m < (s2.store newId).span.length) :
    (∀ i, i < j →
        fwd ((List.range j).foldl (linkStep upd rk newId) s2) (upd i) i
          = some newId ∧
        spn ((List.range j).foldl (linkStep upd rk newId) s2) (upd i) i
          = rk 0 - rk i + 1 ∧
        fwd ((List.range j).foldl (linkStep upd rk newId) s2) newId i
          = fwd s2 (upd i) i ∧
        spn ((List.range j).foldl (linkStep upd rk newId) s2) newId i
          = spn s2 (upd i) i - (rk 0 - rk i)) ∧
    (∀ y i, (i < j → y ≠ newId ∧ y ≠ upd i) →
        fwd ((List.range j).foldl (linkStep upd rk newId) s2) y i
          = fwd s2 y i ∧
        spn ((List.range j).foldl (linkStep upd rk newId) s2) y i
          = spn s2 y i) ∧
    (∀ y, (((List.range j).foldl (linkStep upd rk newId) s2).store y).forward.length
        = (s2.store y).forward.length) ∧
    (∀ y, (((List.range j).foldl (linkStep upd rk newId) s2).store y).span.length
        = (s2.store y).span.length) ∧
    (∀ y, (((List.range j).foldl (linkStep upd rk newId) s2).store y).key
        = (s2.store y).key) ∧
    (∀ y, (((List.range j).foldl (linkStep upd rk newId) s2).store y).value
        = (s2.store y).value) ∧
    (∀ y, (((List.range j).foldl (linkStep upd rk newId) s2).store y).backward
        = (s2.store y).backward) ∧
    ((List.range j).foldl (linkStep upd rk newId) s2).nextId = s2.nextId ∧
    ((List.range j).foldl (linkStep upd rk newId) s2).header = s2.header ∧
    ((List.range j).foldl (linkStep upd rk newId) s2).level = s2.level ∧
    ((List.range j).foldl (linkStep upd rk newId) s2).length = s2.length ∧
    ((List.range j).foldl (linkStep upd rk newId) s2).isArena = s2.isArena := by
  induction j with
  | zero =>
      refine ⟨fun i hi => absurd hi (by omega), fun y i _ => ⟨rfl, rfl⟩,
        fun y => rfl, fun y => rfl, fun y => rfl, fun y => rfl, fun y => rfl,
        rfl, rfl, rfl, rfl, rfl⟩
  | succ j ih =>
      obtain ⟨Psl, Pfr, Plf, Pls, Pk, Pv, Pb, Pn, Ph, Pl, Plen, Pa⟩ :=
        ih (fun m hm => hrange m (by omega))
      have hr := hrange j (by omega)
      rw [List.range_succ, List.foldl_append, List.foldl_cons, List.foldl_nil]
      set st := (List.range j).foldl (linkStep upd rk newId) s2 with hst
      obtain ⟨Mlf, Mls, Mk, Mv, Mb, Mn, Mh, Ml, Mlen, Ma⟩ :=
        linkStep_misc upd rk newId st j (hup j)
      have hstj : fwd st (upd j) j = fwd s2 (upd j) j ∧
          spn st (upd j) j = spn s2 (upd j) j :=
        Pfr (upd j) j (fun hc => absurd hc (by omega))
      obtain ⟨S1, S2, S3, S4⟩ := linkStep_slots upd rk newId st j (hup j)
        (by rw [Plf]; exact hr.1) (by rw [Pls]; exact hr.2.1)
        (by rw [Plf]; exact hr.2.2.1) (by rw [Pls]; exact hr.2.2.2)
      refine ⟨?_, ?_, fun y => (Mlf y).trans (Plf y),
        fun y => (Mls y).trans (Pls y), fun y => (Mk y).trans (Pk y),
        fun y => (Mv y).trans (Pv y), fun y => (Mb y).trans (Pb y),
        Mn.trans Pn, Mh.trans Ph, Ml.trans Pl, Mlen.trans Plen,
        Ma.trans Pa⟩
      · intro i hi
        by_cases hij : i = j
        · subst hij
          exact ⟨S1, S2, S3.trans hstj.1, S4.trans (by rw [hstj.2])⟩
        · have hilt : i < j := by omega
          obtain ⟨F1, F2⟩ :=
            linkStep_frame upd rk newId st j (hup j) (upd i) i (Or.inl hij)
          obtain ⟨F3, F4⟩ :=
            linkStep_frame upd rk newId st j (hup j) newId i (Or.inl hij)
          obtain ⟨Q1, Q2, Q3, Q4⟩ := Psl i hilt
          exact ⟨F1.trans Q1, F2.trans Q2, F3.trans Q3, F4.trans Q4⟩
      · intro y i hfr
        have hstep : fwd (linkStep upd rk newId st j) y i = fwd st y i ∧
            spn (linkStep upd rk newId st j) y i = spn st y i := by
          by_cases hij : i = j
          · subst hij
            have hy := hfr (by omega)
            exact linkStep_frame upd rk newId st i (hup i) y i
              (Or.inr ⟨hy.2, hy.1⟩)
          · exact linkStep_frame upd rk newId st j (hup j) y i (Or.inl hij)
        have hold := Pfr y i (fun hlt => hfr (by omega))
        exact ⟨hstep.1.trans hold.1, hstep.2.trans hold.2⟩

/-- Everything a span-bump iteration does: it increments one span slot and
leaves every other slot and field alone. -/
lemma bumpStep_facts (upd : Nat → Nat) (st : SkipList) (j : Nat) :
    (∀ y i, fwd (bumpStep upd st j) y i = fwd st y i) ∧
    (j < (st.store (upd j)).span.length →
      spn (bumpStep upd st j) (upd j) j = spn st (upd j) j + 1) ∧
    (∀ y i, (y = upd j → i ≠ j) →
      spn (bumpStep upd st j) y i = spn st y i) ∧
    (∀ y, ((bumpStep upd st j).store y).forward.length
        = (st.store y).forward.length) ∧
    (∀ y, ((bumpStep upd st j).store y).span.length
        = (st.store y).span.length) ∧
    (∀ y, ((bumpStep upd st j).store y).key = (st.store y).key) ∧
    (∀ y, ((bumpStep upd st j).store y).value = (st.store y).value) ∧
    (∀ y, ((bumpStep upd st j).store y).backward = (st.store y).backward) ∧
    (bumpStep upd st j).nextId = st.nextId ∧
    (bumpStep upd st j).header = st.header ∧
    (bumpStep upd st j).level = st.level ∧
    (bumpStep upd st j).length = st.length ∧
    (bumpStep upd st j).isArena = st.isArena := by
  have hupd : (bumpStep upd st j).store (upd j) =
      { st.store (upd j) with
        span := (st.store (upd j)).span.set j ((st.store (upd j)).spnN j + 1) } := by
    simp [bumpStep, setStore_same]
  have hoth : ∀ y, y ≠ upd j → (bumpStep upd st j).store y = st.store y := by
    intro y hy
    simp only [bumpStep]
    rw [setStore_other _ _ _ _ hy]
  refine ⟨?_, ?_, ?_, ?_, ?_, ?_, ?_, ?_, rfl, rfl, rfl, rfl, rfl⟩
  · intro y i
    by_cases hy : y = upd j
    · subst hy; rw [fwd_def, fwd_def, hupd]
    · rw [fwd_def, fwd_def, hoth y hy]
  · intro hlen
    rw [spn_def, hupd]
    simp only []
    rw [get?_set_getD, if_pos ⟨rfl, hlen⟩]
    rfl
  · intro y i hy
    by_cases hy1 : y = upd j
    · have hij : i ≠ j := hy hy1
      subst hy1
      rw [spn_def, spn_def, hupd]
      simp only []
      rw [get?_set_getD, if_neg (fun hcon => hij hcon.1.symm)]
    · rw [spn_def, spn_def, hoth y hy1]
  · intro y
    by_cases hy : y = upd j
    · subst hy; rw [hupd]
    · rw [hoth y hy]
  · intro y
    by_cases hy : y = upd j
    · subst hy; rw [hupd]; simp
    · rw [hoth y hy]
  · intro y
    by_cases hy : y = upd j
    · subst hy; rw [hupd]
    · rw [hoth y hy]
  · intro y
    by_cases hy : y = upd j
    · subst hy; rw [hupd]
    · rw [hoth y hy]
  · intro y
    by_cases hy : y = upd j
    · subst hy; rw [hupd]
    · rw [hoth y hy]

/-- Store characterization of the span-bump loop of `Insert` over the level
range `[a, a+n)`. -/
lemma bump_fold (upd : Nat → Nat) (s3 : SkipList) (a : Nat) (n : Nat)
    (hrange : ∀ m, a ≤ m → m < a + n → m < (s3.store (upd m)).span.length) :
    (∀ y i, fwd ((List.range' a n).foldl (bumpStep upd) s3) y i
        = fwd s3 y i) ∧
    (∀ i, a ≤ i → i < a + n →
        spn ((List.range' a n).foldl (bumpStep upd) s3) (upd i) i
          = spn s3 (upd i) i + 1) ∧
    (∀ y i, (a ≤ i → i < a + n → y ≠ upd i) →
        spn ((List.range' a n).foldl (bumpStep upd) s3) y i = spn s3 y i) ∧
    (∀ y, (((List.range' a n).foldl (bumpStep upd) s3).store y).forward.length
        = (s3.store y).forward.length) ∧
    (∀ y, (((List.range' a n).foldl (bumpStep upd) s3).store y).span.length
        = (s3.store y).span.length) ∧
    (∀ y, (((List.range' a n).foldl (bumpStep upd) s3).store y).key
        = (s3.store y).key) ∧
    (∀ y, (((List.range' a n).foldl (bumpStep upd) s3).store y).value
        = (s3.store y).value) ∧
    (∀ y, (((List.range' a n).foldl (bumpStep upd) s3).store y).backward
        = (s3.store y).backward) ∧
    ((List.range' a n).foldl (bumpStep upd) s3).nextId = s3.nextId ∧
    ((List.range' a n).foldl (bumpStep upd) s3).header = s3.header ∧
    ((List.range' a n).foldl (bumpStep upd) s3).level = s3.level ∧
    ((List.range' a n).foldl (bumpStep upd) s3).length = s3.length ∧
    ((List.range' a n).foldl (bumpStep upd) s3).isArena = s3.isArena := by
  induction n with
  | zero =>
      exact ⟨fun y i => rfl, fun i h1 h2 => absurd h2 (by omega),
        fun y i _ => rfl, fun y => rfl, fun y => rfl, fun y => rfl,
        fun y => rfl, fun y => rfl, rfl, rfl, rfl, rfl, rfl⟩
  | succ n ih =>
      obtain ⟨Pf, Psl, Pfr, Plf, Pls, Pk, Pv, Pb, Pn, Ph, Pl, Plen, Pa⟩ :=
        ih (fun m h1 h2 => hrange m h1 (by omega))
      rw [List.range'_concat, List.foldl_append, List.foldl_cons, List.foldl_nil]
      simp only [Nat.one_mul]
      set st := (List.range' a n).foldl (bumpStep upd) s3 with hst
      obtain ⟨Bf, Bsl, Bfr, Blf, Bls, Bk, Bv, Bb, Bn, Bh, Bl, Blen, Ba⟩ :=
        bumpStep_facts upd st (a + n)
      refine ⟨fun y i => (Bf y i).trans (Pf y i), ?_, ?_,
        fun y => (Blf y).trans (Plf y), fun y => (Bls y).trans (Pls y),
        fun y => (Bk y).trans (Pk y), fun y => (Bv y).trans (Pv y),
        fun y => (Bb y).trans (Pb y), Bn.trans Pn, Bh.trans Ph,
        Bl.trans Pl, Blen.trans Plen, Ba.trans Pa⟩
      · intro i h1 h2
        by_cases hin : i = a + n
        · subst hin
          have hbs := Bsl (by
            rw [Pls]
            exact hrange (a + n) h1 (by omega))
          rw [hbs]
          have : spn st (upd (a + n)) (a + n) = spn s3 (upd (a + n)) (a + n) :=
            Pfr (upd (a + n)) (a + n) (fun _ hcon => absurd hcon (by omega))
          rw [this]
        · have hilt : i < a + n := by omega
          have hb : spn (bumpStep upd st (a + n)) (upd i) i
              = spn st (upd i) i :=
            Bfr (upd i) i (fun _ => by omega)
          rw [hb]
          exact Psl i h1 hilt
      · intro y i hy
        have hb : spn (bumpStep upd st (a + n)) y i = spn st y i := by
          by_cases hin : i = a + n
          · subst hin
            exact Bfr y (a + n) (fun hcon _ =>
              absurd hcon (hy (by omega) (by omega)))
          · exact Bfr y i (fun _ => hin)
        rw [hb]
        exact Pfr y i (fun h1 h2 => hy h1 (by omega))

lemma randomLevelAux_bounds :
    ∀ fuel x lvl, lvl ≤ randomLevelAux fuel x lvl ∧
      (lvl ≤ MaxLevel → randomLevelAux fuel x lvl ≤ MaxLevel) := by
  intro fuel
  induction fuel with
  | zero => intro x lvl; exact ⟨le_rfl, fun h => h⟩
  | succ f ih =>
      intro x lvl
      simp only [randomLevelAux]
      by_cases hc : x % 4 = 0 ∧ lvl < MaxLevel
      · rw [if_pos hc]
        obtain ⟨h1, h2⟩ := ih (x / 4) (lvl + 1)
        exact ⟨le_trans (by omega) h1, fun _ => h2 (by omega)⟩
      · rw [if_neg hc]
        exact ⟨le_rfl, fun h => h⟩

/-- The sampled level is always in `[1, MaxLevel]`. -/
lemma randomLevel_bounds (w : Nat) :
    1 ≤ randomLevel w ∧ randomLevel w ≤ MaxLevel := by
  obtain ⟨h1, h2⟩ := randomLevelAux_bounds MaxLevel w 1
  exact ⟨h1, h2 (by decide)⟩

/-- The level-extension writes: header spans at the newly occupied levels
are set to the length; everything else is untouched. -/
lemma extendLevels_facts (s : SkipList) (nl : Nat)
    (hnl : nl ≤ (s.store s.header).span.length) :
    (∀ y, y ≠ s.header → (extendLevels s nl).store y = s.store y) ∧
    (∀ y i, fwd (extendLevels s nl) y i = fwd s y i) ∧
    (∀ i, s.level + 1 ≤ i → i < nl →
      spn (extendLevels s nl) s.header i = s.length) ∧
    (∀ y i, (y = s.header → ¬(s.level + 1 ≤ i ∧ i < nl)) →
      spn (extendLevels s nl) y i = spn s y i) ∧
    (∀ y, ((extendLevels s nl).store y).forward.length
        = (s.store y).forward.length) ∧
    (∀ y, ((extendLevels s nl).store y).span.length
        = (s.store y).span.length) ∧
    (∀ y, ((extendLevels s nl).store y).key = (s.store y).key) ∧
    (∀ y, ((extendLevels s nl).store y).value = (s.store y).value) ∧
    (∀ y, ((extendLevels s nl).store y).backward = (s.store y).backward) ∧
    (extendLevels s nl).nextId = s.nextId ∧
    (extendLevels s nl).header = s.header ∧
    (extendLevels s nl).level = nl - 1 ∧
    (extendLevels s nl).length = s.length ∧
    (extendLevels s nl).isArena = s.isArena := by
  have hhd : (extendLevels s nl).store s.header =
      { s.store s.header with
        span := (s.store s.header).span.mapIdx fun i a =>
          if s.level + 1 ≤ i ∧ i < nl then s.length else a } := by
    simp [extendLevels, setStore_same]
  have hoth : ∀ y, y ≠ s.header → (extendLevels s nl).store y = s.store y := by
    intro y hy
    simp only [extendLevels]
    exact setStore_other _ _ _ _ hy
  have hsp : ∀ i, spn (extendLevels s nl) s.header i =
      if s.level + 1 ≤ i ∧ i < nl ∧ i < (s.store s.header).span.length
      then s.length else spn s s.header i := by
    intro i
    rw [spn_def, hhd]
    simp only [List.get?_eq_getElem?, List.getElem?_mapIdx]
    by_cases hi : i < (s.store s.header).span.length
    · rw [List.getElem?_eq_getElem hi]
      simp only [Option.map_some', Option.getD_some]
      by_cases hc : s.level + 1 ≤ i ∧ i < nl
      · rw [if_pos hc, if_pos ⟨hc.1, hc.2, hi⟩]
      · rw [if_neg hc, if_neg (fun hcon => hc ⟨hcon.1, hcon.2.1⟩)]
        rw [spn_def, List.get?_eq_getElem?, List.getElem?_eq_getElem hi]
        rfl
    · rw [List.getElem?_eq_none (Nat.le_of_not_lt hi)]
      rw [if_neg (fun hcon => hi hcon.2.2)]
      rw [spn_def, List.get?_eq_getElem?,
        List.getElem?_eq_none (Nat.le_of_not_lt hi)]
      rfl
  refine ⟨hoth, ?_, ?_, ?_, ?_, ?_, ?_, ?_, ?_, rfl, rfl, rfl, rfl, rfl⟩
  · intro y i
    by_cases hy : y = s.header
    · subst hy; rw [fwd_def, fwd_def, hhd]
    · rw [fwd_def, fwd_def, hoth y hy]
  · intro i h1 h2
    rw [hsp i, if_pos ⟨h1, h2, lt_of_lt_of_le h2 hnl⟩]
  · intro y i hy
    by_cases hy1 : y = s.header
    · subst hy1
      rw [hsp i, if_neg (fun hcon => hy rfl ⟨hcon.1, hcon.2.1⟩)]
    · rw [spn_def, spn_def, hoth y hy1]
  · intro y
    by_cases hy : y = s.header
    · subst hy; rw [hhd]
    · rw [hoth y hy]
  · intro y
    by_cases hy : y = s.header
    · subst hy; rw [hhd]; simp
    · rw [hoth y hy]
  · intro y
    by_cases hy : y = s.header
    · subst hy; rw [hhd]
    · rw [hoth y hy]
  · intro y
    by_cases hy : y = s.header
    · subst hy; rw [hhd]
    · rw [hoth y hy]
  · intro y
    by_cases hy : y = s.header
    · subst hy; rw [hhd]
    · rw [hoth y hy]

/-- A backward-pointer write changes nothing except that node's backward
field. -/
lemma setBackward_facts (s : SkipList) (x : Nat) (b : Option Nat) :
    (∀ y i, fwd (setBackward s x b) y i = fwd s y i) ∧
    (∀ y i, spn (setBackward s x b) y i = spn s y i) ∧
    ((setBackward s x b).store x).backward = b ∧
    (∀ y, y ≠ x → (setBackward s x b).store y = s.store y) ∧
    (∀ y, ((setBackward s x b).store y).forward.length
        = (s.store y).forward.length) ∧
    (∀ y, ((setBackward s x b).store y).span.length
        = (s.store y).span.length) ∧
    (∀ y, ((setBackward s x b).store y).key = (s.store y).key) ∧
    (∀ y, ((setBackward s x b).store y).value = (s.store y).value) ∧
    (setBackward s x b).nextId = s.nextId ∧
    (setBackward s x b).header = s.header ∧
    (setBackward s x b).level = s.level ∧
    (setBackward s x b).length = s.length ∧
    (setBackward s x b).isArena = s.isArena := by
  have hx : (setBackward s x b).store x = { s.store x with backward := b } := by
    simp [setBackward, setStore_same]
  have hoth : ∀ y, y ≠ x → (setBackward s x b).store y = s.store y := by
    intro y hy
    simp only [setBackward]
    exact setStore_other _ _ _ _ hy
  refine ⟨?_, ?_, by rw [hx], hoth, ?_, ?_, ?_, ?_, rfl, rfl, rfl, rfl, rfl⟩
  · intro y i
    by_cases hy : y = x
    · subst hy; rw [fwd_def, fwd_def, hx]
    · rw [fwd_def, fwd_def, hoth y hy]
  · intro y i
    by_cases hy : y = x
    · subst hy; rw [spn_def, spn_def, hx]
    · rw [spn_def, spn_def, hoth y hy]
  · intro y
    by_cases hy : y = x
    · subst hy; rw [hx]
    · rw [hoth y hy]
  · intro y
    by_cases hy : y = x
    · subst hy; rw [hx]
    · rw [hoth y hy]
  · intro y
    by_cases hy : y = x
    · subst hy; rw [hx]
    · rw [hoth y hy]
  · intro y
    by_cases hy : y = x
    · subst hy; rw [hx]
    · rw [hoth y hy]

/-- An all-true split prefix sits inside the `takeWhile` prefix. -/
lemma prefix_takeWhile {α : Type} (p : α → Bool) :
    ∀ (A S : List α), (∀ x ∈ A, p x = true) →
      A <+: (A ++ S).takeWhile p := by
  intro A
  induction A with
  | nil => intro S _; exact List.nil_prefix
  | cons a A ih =>
      intro S hA
      obtain ⟨t, ht⟩ := ih S (fun x hx => hA x (by simp [hx]))
      refine ⟨t, ?_⟩
      simp only [List.cons_append]
      rw [List.takeWhile_cons, hA a (by simp), if_pos rfl, ← ht]

/-- In a sorted list, nothing past the strict-lower prefix is below `k`. -/
lemma sorted_dropWhile_not_lt {s : SkipList} {k : Int} :
    ∀ C : List Nat, C.Pairwise (fun a b => key s a < key s b) →
      ∀ x ∈ C.dropWhile (fun x => decide (key s x < k)), ¬ key s x < k := by
  intro C
  induction C with
  | nil => simp
  | cons a rest ih =>
      intro hsort x hx
      have hsort2 := (List.pairwise_cons.1 hsort).2
      have hha := (List.pairwise_cons.1 hsort).1
      rw [List.dropWhile_cons] at hx
      by_cases ha : key s a < k
      · simp only [decide_eq_true_eq, if_pos ha] at hx
        exact ih hsort2 x hx
      · simp only [decide_eq_true_eq, if_neg ha] at hx
        rcases List.mem_cons.1 hx with rfl | hx
        · exact ha
        · have := hha x hx
          omega

/-- The per-level outcome of the walk, aligned with the base-level split:
the level-`i` consumed prefix `A`, the stretch `M` up to the base insertion
point with no level-`i` cells, and the chain structure around the cursor. -/
lemma walk_decomp {s : SkipList} {C : List Nat} (hInv : Inv s C) (k : Int)
    (i : Nat) (hi : i ≤ s.level) :
    ∃ A M,
      C.takeWhile (fun x => decide (key s x < k)) = A ++ M ∧
      C = A ++ M ++ C.dropWhile (fun x => decide (key s x < k)) ∧
      ranksI s k i = (A.length : Int) ∧
      ((updateI s k i = s.header ∧ A = []) ∨
        A.getLast? = some (updateI s k i)) ∧
      (∀ x ∈ M, ¬ i < height s x) ∧
      chainSeg s i s.header 0 A (updateI s k i) 0 ∧
      chainInv s i (updateI s k i) 0
        (M ++ C.dropWhile (fun x => decide (key s x < k))) := by
  obtain ⟨A, S, h1, h2, h3, h4, h5, h6⟩ := walk_spec hInv k i hi
  have hpre : A <+: C.takeWhile (fun x => decide (key s x < k)) := by
    rw [h1]
    exact prefix_takeWhile _ A S (fun x hx => by simpa using h3 x hx)
  obtain ⟨M, hM⟩ := hpre
  have hCsplit : C = A ++ M ++ C.dropWhile (fun x => decide (key s x < k))
      := by
    rw [hM, List.takeWhile_append_dropWhile]
  have hS : S = M ++ C.dropWhile (fun x => decide (key s x < k)) := by
    have h' : A ++ S
        = A ++ (M ++ C.dropWhile (fun x => decide (key s x < k))) := by
      rw [← List.append_assoc, hM, List.takeWhile_append_dropWhile, ← h1]
    exact List.append_cancel_left h'
  have hMnc : ∀ x ∈ M, ¬ i < height s x := by
    intro x hx hcell
    have hxk : key s x < k := by
      have : x ∈ C.takeWhile (fun x => decide (key s x < k)) := by
        rw [← hM]
        exact List.mem_append_right A hx
      simpa using List.mem_takeWhile_imp this
    exact h6 x (by rw [hS]; exact List.mem_append_left _ hx) ⟨hcell, hxk⟩
  have hchains := hInv.chains i (lt_of_le_of_lt hi hInv.levelLt)
  rw [h1] at hchains
  obtain ⟨q, g, hseg, hinv⟩ := chainInv_append_destruct hchains
  have hqg : q = updateI s k i ∧ g = 0 := by
    rcases h4 with ⟨hhd, rfl⟩ | hlast
    · obtain ⟨hq, hg⟩ := hseg
      exact ⟨by rw [hq, hhd], hg⟩
    · have hmemA : updateI s k i ∈ A := List.mem_of_getLast?_eq_some hlast
      have hmemC : updateI s k i ∈ C := by
        rw [h1]; exact List.mem_append_left S hmemA
      have hne : updateI s k i ≠ s.header := by
        intro hcon
        have := hInv.nodupC
        rw [List.nodup_cons] at this
        exact this.1 (hcon ▸ hmemC)
      have hcell : i < height s (updateI s k i) := by
        rcases h5 with hcon | hcell
        · exact absurd hcon hne
        · exact hcell
      exact chainSeg_last_cell hseg hlast hcell
  obtain ⟨rfl, rfl⟩ := hqg
  refine ⟨A, M, hM.symm, hCsplit, h2, h4, hMnc, hseg, ?_⟩
  rw [← hS]
  exact hinv

/-- Full store characterization of the new-key path, relative to the
pre-state: the new node's record, the spliced and bumped slots, and the
frame on everything else.  The hypotheses are the id-freshness and
slice-bound facts that hold in every well-formed state. -/
lemma insertNew_facts (s : SkipList) (k v : Int) (w : Nat)
    (nl : Nat) (upd : Nat → Nat) (rk : Nat → Int) (newId lvl' : Nat)
    (hnl : nl = randomLevel w) (hupd : upd = updateI s k)
    (hrk : rk = ranksI s k) (hnew : newId = s.nextId)
    (hlvl : lvl' = if s.level + 1 < nl then nl - 1 else s.level)
    (hub : ∀ m, upd m ≠ newId)
    (hfub : fwd s (upd 0) 0 ≠ some newId)
    (hrangeF : ∀ m, m < nl → m < (s.store (upd m)).forward.length)
    (hrangeS : ∀ m, m < nl → m < (s.store (upd m)).span.length)
    (hrangeB : ∀ m, nl ≤ m → m ≤ s.level → m < (s.store (upd m)).span.length)
    (hhdrspan : nl ≤ (s.store s.header).span.length) :
    (insertNew s k v w).2 = none ∧
    (insertNew s k v w).1.nextId = s.nextId + 1 ∧
    (insertNew s k v w).1.header = s.header ∧
    (insertNew s k v w).1.level = lvl' ∧
    (insertNew s k v w).1.length = s.length + 1 ∧
    (insertNew s k v w).1.isArena = s.isArena ∧
    ((insertNew s k v w).1.store newId).key = k ∧
    ((insertNew s k v w).1.store newId).value = v ∧
    ((insertNew s k v w).1.store newId).backward = some (upd 0) ∧
    ((insertNew s k v w).1.store newId).forward.length = nl ∧
    ((insertNew s k v w).1.store newId).span.length = nl ∧
    (∀ i, i < nl → fwd (insertNew s k v w).1 (upd i) i = some newId) ∧
    (∀ i, i < nl → spn (insertNew s k v w).1 (upd i) i = rk 0 - rk i + 1) ∧
    (∀ i, i < nl → fwd (insertNew s k v w).1 newId i = fwd s (upd i) i) ∧
    (∀ i, i < nl → spn (insertNew s k v w).1 newId i =
      (if s.level + 1 ≤ i then s.length else spn s (upd i) i) -
        (rk 0 - rk i)) ∧
    (∀ i, nl ≤ i → i ≤ lvl' →
      fwd (insertNew s k v w).1 (upd i) i = fwd s (upd i) i ∧
      spn (insertNew s k v w).1 (upd i) i = spn s (upd i) i + 1) ∧
    (∀ y i, y ≠ newId → (i ≤ lvl' → y ≠ upd i) →
      fwd (insertNew s k v w).1 y i = fwd s y i ∧
      spn (insertNew s k v w).1 y i = spn s y i) ∧
    (∀ nxt, fwd s (upd 0) 0 = some nxt →
      ((insertNew s k v w).1.store nxt).backward = some newId) ∧
    (∀ y, y ≠ newId → fwd s (upd 0) 0 ≠ some y →
      ((insertNew s k v w).1.store y).backward = (s.store y).backward) ∧
    (∀ y, y ≠ newId →
      ((insertNew s k v w).1.store y).forward.length
          = (s.store y).forward.length ∧
      ((insertNew s k v w).1.store y).span.length = (s.store y).span.length ∧
      ((insertNew s k v w).1.store y).key = (s.store y).key ∧
      ((insertNew s k v w).1.store y).value = (s.store y).value) := by
  subst hnl hupd hrk hnew hlvl
  obtain ⟨hrl1, hrl2⟩ := randomLevel_bounds w
  -- stage 1: level extension
  have h1 :
      (∀ y i, fwd (insertS1 s w) y i = fwd s y i) ∧
      (∀ i, s.level + 1 ≤ i → i < randomLevel w →
        spn (insertS1 s w) s.header i = s.length) ∧
      (∀ y i, (y = s.header → ¬(s.level + 1 ≤ i ∧ i < randomLevel w)) →
        spn (insertS1 s w) y i = spn s y i) ∧
      (∀ y, ((insertS1 s w).store y).forward.length
          = (s.store y).forward.length) ∧
      (∀ y, ((insertS1 s w).store y).span.length
          = (s.store y).span.length) ∧
      (∀ y, ((insertS1 s w).store y).key = (s.store y).key) ∧
      (∀ y, ((insertS1 s w).store y).value = (s.store y).value) ∧
      (∀ y, ((insertS1 s w).store y).backward = (s.store y).backward) ∧
      (insertS1 s w).nextId = s.nextId ∧
      (insertS1 s w).header = s.header ∧
      (insertS1 s w).level =
        (if s.level + 1 < randomLevel w then randomLevel w - 1
         else s.level) ∧
      (insertS1 s w).length = s.length ∧
      (insertS1 s w).isArena = s.isArena := by
    by_cases hext : s.level + 1 < randomLevel w
    · have hU : insertS1 s w = extendLevels s (randomLevel w) := by
        rw [insertS1, if_pos hext]
      obtain ⟨e1, e2, e3, e4, e5, e6, e7, e8, e9, e10, e11, e12, e13, e14⟩ :=
        extendLevels_facts s (randomLevel w) hhdrspan
      rw [hU, if_pos hext]
      exact ⟨e2, e3, e4, e5, e6, e7, e8, e9, e10, e11, e12, e13, e14⟩
    · have hU : insertS1 s w = s := by
        rw [insertS1, if_neg hext]
      rw [hU, if_neg hext]
      exact ⟨fun y i => rfl,
        fun i hi1 hi2 => absurd (show s.level + 1 < randomLevel w by omega)
          hext,
        fun y i _ => rfl, fun y => rfl, fun y => rfl, fun y => rfl,
        fun y => rfl, fun y => rfl, rfl, rfl, rfl, rfl, rfl⟩
  obtain ⟨h1f, h1sH, h1sF, h1lf, h1ls, h1k, h1v, h1b, h1n, h1h, h1l, h1len,
    h1a⟩ := h1
  -- stage 2: the fresh node
  have h2new : (insertS2 s k v w).store s.nextId = insertFresh k v w := by
    simp [insertS2, setStore_same]
  have h2oth : ∀ y, y ≠ s.nextId →
      (insertS2 s k v w).store y = (insertS1 s w).store y := by
    intro y hy
    simp only [insertS2]
    exact setStore_other _ _ _ _ hy
  have h2fwd : ∀ i, fwd (insertS2 s k v w) (updateI s k i) i
      = fwd s (updateI s k i) i := by
    intro i
    rw [fwd_def, h2oth _ (hub i), ← fwd_def]
    exact h1f _ i
  -- stage 3: the splice loop
  have hS3 : (List.range (randomLevel w)).foldl
      (linkStep (updateI s k) (ranksI s k) s.nextId) (insertS2 s k v w)
      = insertS3 s k v w := rfl
  obtain ⟨L_sl, L_fr, L_lf, L_ls, L_k, L_v, L_b, L_n, L_h, L_l, L_len, L_a⟩ :=
    link_fold (updateI s k) (ranksI s k) s.nextId (insertS2 s k v w) hub
      (randomLevel w)
      (by
        intro m hm
        refine ⟨?_, ?_, ?_, ?_⟩
        · rw [h2oth _ (hub m), h1lf]
          exact hrangeF m hm
        · rw [h2oth _ (hub m), h1ls]
          exact hrangeS m hm
        · rw [h2new]
          simpa [insertFresh] using hm
        · rw [h2new]
          simpa [insertFresh] using hm)
  rw [hS3] at L_n L_h L_l L_len L_a
  simp only [hS3] at L_sl L_fr L_lf L_ls L_k L_v L_b
  have hS3l : (insertS3 s k v w).level =
      (if s.level + 1 < randomLevel w then randomLevel w - 1 else s.level) := by
    rw [L_l]
    exact h1l
  -- stage 4: the span-bump loop
  have hS4 : (List.range' (randomLevel w)
      ((insertS3 s k v w).level + 1 - randomLevel w)).foldl
      (bumpStep (updateI s k)) (insertS3 s k v w) = insertS4 s k v w := rfl
  obtain ⟨B_f, B_sl, B_fr, B_lf, B_ls, B_k, B_v, B_b, B_n, B_h, B_l, B_len,
    B_a⟩ :=
    bump_fold (updateI s k) (insertS3 s k v w) (randomLevel w)
      ((insertS3 s k v w).level + 1 - randomLevel w)
      (by
        intro m hm1 hm2
        rw [hS3l] at hm2
        by_cases hext : s.level + 1 < randomLevel w
        · rw [if_pos hext] at hm2
          omega
        · rw [if_neg hext] at hm2
          rw [L_ls, h2oth _ (hub m), h1ls]
          exact hrangeB m hm1 (by omega))
  rw [hS4] at B_n B_h B_l B_len B_a
  simp only [hS4] at B_f B_sl B_fr B_lf B_ls B_k B_v B_b
  -- stage 5: backward pointer of the new node
  have hS5 : setBackward (insertS4 s k v w) s.nextId (some (updateI s k 0))
      = insertS5 s k v w := rfl
  obtain ⟨S5_f, S5_s, S5_bx, S5_oth, S5_lf, S5_ls, S5_k, S5_v, S5_n, S5_h,
    S5_l, S5_len, S5_a⟩ :=
    setBackward_facts (insertS4 s k v w) s.nextId (some (updateI s k 0))
  rw [hS5] at S5_bx S5_n S5_h S5_l S5_len S5_a
  simp only [hS5] at S5_f S5_s S5_oth S5_lf S5_ls S5_k S5_v
  -- the base-level outgoing link of the new node
  have hfwd50 : fwd (insertS5 s k v w) s.nextId 0
      = fwd s (updateI s k 0) 0 := by
    rw [S5_f, B_f]
    have := (L_sl 0 (by omega)).2.2.1
    rw [this]
    exact h2fwd 0
  -- stage 6: backward pointer of the base-level successor
  have h6 :
      (∀ y i, fwd (insertS6 s k v w) y i = fwd (insertS5 s k v w) y i) ∧
      (∀ y i, spn (insertS6 s k v w) y i = spn (insertS5 s k v w) y i) ∧
      (∀ y, ((insertS6 s k v w).store y).forward.length
          = ((insertS5 s k v w).store y).forward.length) ∧
      (∀ y, ((insertS6 s k v w).store y).span.length
          = ((insertS5 s k v w).store y).span.length) ∧
      (∀ y, ((insertS6 s k v w).store y).key
          = ((insertS5 s k v w).store y).key) ∧
      (∀ y, ((insertS6 s k v w).store y).value
          = ((insertS5 s k v w).store y).value) ∧
      (insertS6 s k v w).nextId = (insertS5 s k v w).nextId ∧
      (insertS6 s k v w).header = (insertS5 s k v w).header ∧
      (insertS6 s k v w).level = (insertS5 s k v w).level ∧
      (insertS6 s k v w).length = (insertS5 s k v w).length ∧
      (insertS6 s k v w).isArena = (insertS5 s k v w).isArena ∧
      (∀ nxt, fwd s (updateI s k 0) 0 = some nxt →
        ((insertS6 s k v w).store nxt).backward = some s.nextId) ∧
      (∀ y, fwd s (updateI s k 0) 0 ≠ some y →
        ((insertS6 s k v w).store y).backward
          = ((insertS5 s k v w).store y).backward) := by
    cases hc : fwd (insertS5 s k v w) s.nextId 0 with
    | none =>
        have hS6 : insertS6 s k v w = insertS5 s k v w := by
          simp only [insertS6, hc]
        rw [hS6]
        rw [hfwd50] at hc
        refine ⟨fun y i => rfl, fun y i => rfl, fun y => rfl, fun y => rfl,
          fun y => rfl, fun y => rfl, rfl, rfl, rfl, rfl, rfl, ?_,
          fun y _ => rfl⟩
        intro nxt hn
        rw [hc] at hn
        exact absurd hn (by simp)
    | some nxt =>
        have hS6 : insertS6 s k v w
            = setBackward (insertS5 s k v w) nxt (some s.nextId) := by
          simp only [insertS6, hc]
        rw [hfwd50] at hc
        obtain ⟨T_f, T_s, T_bx, T_oth, T_lf, T_ls, T_k, T_v, T_n, T_h, T_l,
          T_len, T_a⟩ :=
          setBackward_facts (insertS5 s k v w) nxt (some s.nextId)
        rw [hS6]
        refine ⟨T_f, T_s, T_lf, T_ls, T_k, T_v, T_n, T_h, T_l, T_len, T_a,
          ?_, ?_⟩
        · intro nxt' hn
          rw [hc] at hn
          injection hn with hn
          subst hn
          exact T_bx
        · intro y hy
          rw [hc] at hy
          have : y ≠ nxt := fun hcon => hy (by rw [hcon])
          rw [T_oth y this]
  obtain ⟨h6f, h6s, h6lf, h6ls, h6k, h6v, h6n, h6h, h6l, h6len, h6a, h6bn,
    h6bo⟩ := h6
  -- the final state
  have h7store : (insertNew s k v w).1.store = (insertS6 s k v w).store := rfl
  have h7fwd : ∀ y i, fwd (insertNew s k v w).1 y i
      = fwd (insertS6 s k v w) y i := fun y i => rfl
  have h7spn : ∀ y i, spn (insertNew s k v w).1 y i
      = spn (insertS6 s k v w) y i := fun y i => rfl
  have hlvlge : randomLevel w - 1
      ≤ (if s.level + 1 < randomLevel w then randomLevel w - 1 else s.level)
      := by
    by_cases hext : s.level + 1 < randomLevel w
    · rw [if_pos hext]
    · rw [if_neg hext]
      omega
  -- slot-level summaries
  have hfwdS : ∀ y i, fwd (insertNew s k v w).1 y i
      = fwd (insertS3 s k v w) y i := by
    intro y i
    rw [h7fwd, h6f, S5_f, B_f]
  have hspnS4 : ∀ y i, spn (insertNew s k v w).1 y i
      = spn (insertS4 s k v w) y i := by
    intro y i
    rw [h7spn, h6s, S5_s]
  refine ⟨rfl, ?_, ?_, ?_, ?_, ?_, ?_, ?_, ?_, ?_, ?_, ?_, ?_, ?_, ?_, ?_,
    ?_, ?_, ?_, ?_⟩
  · show (insertS6 s k v w).nextId = s.nextId + 1
    rw [h6n, S5_n, B_n, L_n]
    rfl
  · show (insertS6 s k v w).header = s.header
    rw [h6h, S5_h, B_h, L_h]
    exact h1h
  · show (insertS6 s k v w).level = _
    rw [h6l, S5_l, B_l, hS3l]
  · show (insertS6 s k v w).length + 1 = s.length + 1
    rw [h6len, S5_len, B_len, L_len]
    have : (insertS2 s k v w).length = s.length := h1len
    rw [this]
  · show (insertS6 s k v w).isArena = s.isArena
    rw [h6a, S5_a, B_a, L_a]
    exact h1a
  · rw [h7store, h6k, S5_k, B_k, L_k, h2new]
    rfl
  · rw [h7store, h6v, S5_v, B_v, L_v, h2new]
    rfl
  · rw [h7store, h6bo s.nextId hfub, S5_bx]
  · rw [h7store, h6lf, S5_lf, B_lf, L_lf, h2new]
    simp [insertFresh]
  · rw [h7store, h6ls, S5_ls, B_ls, L_ls, h2new]
    simp [insertFresh]
  · intro i hi
    rw [hfwdS]
    exact (L_sl i hi).1
  · intro i hi
    rw [hspnS4, B_fr _ _ (fun hm _ => absurd hm (by omega))]
    exact (L_sl i hi).2.1
  · intro i hi
    rw [hfwdS, (L_sl i hi).2.2.1]
    exact h2fwd i
  · intro i hi
    rw [hspnS4,
      B_fr _ _ (fun _ _ => Ne.symm (hub i)), (L_sl i hi).2.2.2]
    have h2s : spn (insertS2 s k v w) (updateI s k i) i
        = spn (insertS1 s w) (updateI s k i) i := by
      rw [spn_def, h2oth _ (hub i), ← spn_def]
    rw [h2s]
    by_cases hsl : s.level + 1 ≤ i
    · have hhd : updateI s k i = s.header := by
        rw [updateI, if_neg (by omega)]
      rw [if_pos hsl, hhd, h1sH i hsl hi]
    · rw [if_neg hsl, h1sF _ _ (fun _ hcon => hsl hcon.1)]
  · intro i hi1 hi2
    constructor
    · rw [hfwdS, (L_fr _ _ (fun hcon => absurd hcon (by omega))).1]
      exact h2fwd i
    · rw [hspnS4]
      have hin : i < randomLevel w
          + ((insertS3 s k v w).level + 1 - randomLevel w) := by
        rw [hS3l]
        have := hlvlge
        omega
      rw [B_sl i hi1 hin,
        (L_fr _ _ (fun hcon => absurd hcon (by omega))).2]
      have h2s : spn (insertS2 s k v w) (updateI s k i) i
          = spn (insertS1 s w) (updateI s k i) i := by
        rw [spn_def, h2oth _ (hub i), ← spn_def]
      rw [h2s, h1sF _ _ (fun _ hcon => by omega)]
  · intro y i hy1 hy2
    have hyu : i < randomLevel w → y ≠ updateI s k i := by
      intro hi
      refine hy2 ?_
      have := hlvlge
      omega
    constructor
    · rw [hfwdS, (L_fr y i (fun hi => ⟨hy1, hyu hi⟩)).1, fwd_def,
        h2oth _ hy1, ← fwd_def]
      exact h1f y i
    · rw [hspnS4]
      have hbfr : spn (insertS4 s k v w) y i = spn (insertS3 s k v w) y i
          := by
        refine B_fr y i ?_
        intro hm1 hm2
        rw [hS3l] at hm2
        exact hy2 (by omega)
      rw [hbfr, (L_fr y i (fun hi => ⟨hy1, hyu hi⟩)).2, spn_def,
        h2oth _ hy1, ← spn_def]
      refine h1sF y i ?_
      rintro rfl hcon
      have hhd : updateI s k i = s.header := by
        rw [updateI, if_neg (by omega)]
      have := hlvlge
      exact hy2 (by omega) hhd.symm
  · intro nxt hn
    rw [h7store]
    exact h6bn nxt hn
  · intro y hy1 hy2
    rw [h7store, h6bo y hy2, S5_oth y hy1, B_b, L_b]
    have : (insertS2 s k v w).store y = (insertS1 s w).store y :=
      h2oth y hy1
    rw [this]
    exact h1b y
  · intro y hy
    have h2y : (insertS2 s k v w).store y = (insertS1 s w).store y :=
      h2oth y hy
    refine ⟨?_, ?_, ?_, ?_⟩
    · rw [h7store, h6lf, S5_lf, B_lf, L_lf, h2y]
      exact h1lf y
    · rw [h7store, h6ls, S5_ls, B_ls, L_ls, h2y]
      exact h1ls y
    · rw [h7store, h6k, S5_k, B_k, L_k, h2y]
      exact h1k y
    · rw [h7store, h6v, S5_v, B_v, L_v, h2y]
      exact h1v y

/-- Sortedness transfers to a state agreeing on the keys of the members. -/
lemma pairwise_key_congr {s s' : SkipList} :
    ∀ {L : List Nat},
      L.Pairwise (fun a b => key s a < key s b) →
      (∀ x ∈ L, key s' x = key s x) →
      L.Pairwise (fun a b => key s' a < key s' b) := by
  intro L
  induction L with
  | nil => intro _ _; exact List.Pairwise.nil
  | cons a rest ih =>
      intro h hk
      rw [List.pairwise_cons] at h ⊢
      refine ⟨?_, ih h.2 (fun x hx => hk x (by simp [hx]))⟩
      intro b hb
      rw [hk a (by simp), hk b (by simp [hb])]
      exact h.1 b hb

/-- Insertion of a fresh key preserves the invariant: the new witness list
is the old one with the new node placed at the sorted position, the handle
is `none`, and the new node carries the key and value. -/
lemma inv_insertNew {s : SkipList} {C : List Nat} (hInv : Inv s C)
    (k v : Int) (w : Nat) (hknot : k ∉ C.map (key s)) :
    Inv (insertNew s k v w).1
      (C.takeWhile (fun x => decide (key s x < k)) ++
        s.nextId :: C.dropWhile (fun x => decide (key s x < k))) ∧
    (insertNew s k v w).2 = none ∧
    key (insertNew s k v w).1 s.nextId = k ∧
    value (insertNew s k v w).1 s.nextId = v ∧
    (∀ x, x ≠ s.nextId → key (insertNew s k v w).1 x = key s x ∧
      value (insertNew s k v w).1 x = value s x) := by
  obtain ⟨hrl1, hrl2⟩ := randomLevel_bounds w
  have hhdrC : s.header ∉ C := by
    have := hInv.nodupC
    rw [List.nodup_cons] at this
    exact this.1
  have hndC : C.Nodup := by
    have := hInv.nodupC
    rw [List.nodup_cons] at this
    exact this.2
  have hmemne : ∀ x ∈ C, x ≠ s.nextId := fun x hx =>
    Nat.ne_of_lt (hInv.memLt x hx)
  have hhdrne : s.header ≠ s.nextId := Nat.ne_of_lt hInv.hdrLt
  have hA0C : ∀ x ∈ C.takeWhile (fun x => decide (key s x < k)), x ∈ C :=
    fun x hx => (List.takeWhile_sublist _).mem hx
  have hS0C : ∀ x ∈ C.dropWhile (fun x => decide (key s x < k)), x ∈ C :=
    fun x hx => (List.dropWhile_sublist _).mem hx
  have hA0k : ∀ x ∈ C.takeWhile (fun x => decide (key s x < k)),
      key s x < k :=
    fun x hx => by simpa using List.mem_takeWhile_imp hx
  have hS0k : ∀ x ∈ C.dropWhile (fun x => decide (key s x < k)),
      k < key s x := by
    intro x hx
    have h1 := sorted_dropWhile_not_lt C hInv.sorted x hx
    have h2 : key s x ≠ k := by
      intro hcon
      exact hknot (by rw [← hcon]; exact List.mem_map_of_mem _ (hS0C x hx))
    omega
  have hdisjAS : ∀ {A B : List Nat}, C = A ++ B → ∀ x ∈ A, x ∉ B := by
    intro A B hAB x hxA hxB
    have hnd := hndC
    rw [hAB] at hnd
    exact List.disjoint_of_nodup_append hnd hxA hxB
  have hupdMem : ∀ i, updateI s k i = s.header ∨ updateI s k i ∈ C := by
    intro i
    by_cases hi : i ≤ s.level
    · obtain ⟨A, S, h1, h2, h3, h4, h5, h6⟩ := walk_spec hInv k i hi
      rcases h4 with ⟨hhd, _⟩ | hlast
      · exact Or.inl hhd
      · right
        rw [h1]
        exact List.mem_append_left S (List.mem_of_getLast?_eq_some hlast)
    · left
      rw [updateI, if_neg hi]
  have hub : ∀ m, updateI s k m ≠ s.nextId := by
    intro m
    rcases hupdMem m with h | h
    · rw [h]; exact hhdrne
    · exact hmemne _ h
  have hupdH : ∀ i, i ≤ s.level →
      (updateI s k i = s.header ∨ i < height s (updateI s k i)) := by
    intro i hi
    obtain ⟨A, S, h1, h2, h3, h4, h5, h6⟩ := walk_spec hInv k i hi
    exact h5
  have hhH : (s.store s.header).forward.length = MaxLevel := hInv.hdrH
  have hhS : (s.store s.header).span.length = MaxLevel := hInv.hdrSpanLen
  have hrangeF : ∀ m, m < randomLevel w →
      m < (s.store (updateI s k m)).forward.length := by
    intro m hm
    by_cases hi : m ≤ s.level
    · rcases hupdH m hi with h | h
      · rw [h, hhH]; omega
      · exact h
    · have hh : updateI s k m = s.header := by rw [updateI, if_neg hi]
      rw [hh, hhH]; omega
  have hspanlen : ∀ m, (updateI s k m = s.header ∨
      m < height s (updateI s k m)) → m < MaxLevel →
      m < (s.store (updateI s k m)).span.length := by
    intro m hm hmax
    rcases hupdMem m with hh | hh
    · rw [hh, hhS]; exact hmax
    · rw [(hInv.nodeH _ hh).2.2]
      rcases hm with hhd | hcell
      · exact absurd hh (by rw [hhd]; exact hhdrC)
      · exact hcell
  have hrangeS : ∀ m, m < randomLevel w →
      m < (s.store (updateI s k m)).span.length := by
    intro m hm
    by_cases hi : m ≤ s.level
    · exact hspanlen m (hupdH m hi) (by omega)
    · have hh : updateI s k m = s.header := by rw [updateI, if_neg hi]
      exact hspanlen m (Or.inl hh) (by omega)
  have hrangeB : ∀ m, randomLevel w ≤ m → m ≤ s.level →
      m < (s.store (updateI s k m)).span.length := by
    intro m hm1 hm2
    have := hInv.levelLt
    exact hspanlen m (hupdH m hm2) (by omega)
  have hrk0 : ranksI s k 0 =
      ((C.takeWhile (fun x => decide (key s x < k))).length : Int) :=
    (update0_spec hInv k).1
  have hfwd00 : fwd s (updateI s k 0) 0 =
      (C.dropWhile (fun x => decide (key s x < k))).head? :=
    (update0_spec hInv k).2
  have hfub : fwd s (updateI s k 0) 0 ≠ some s.nextId := by
    rw [hfwd00]
    cases hh : (C.dropWhile (fun x => decide (key s x < k))).head? with
    | none => simp
    | some c =>
        have hc : c ∈ C := hS0C c (List.mem_of_mem_head? hh)
        intro hcon
        injection hcon with hcon
        exact hmemne c hc hcon
  have hhdrspan : randomLevel w ≤ (s.store s.header).span.length := by
    rw [hhS]; exact hrl2
  obtain ⟨c1, c2, c3, c4, c5, c6, c7, c8, c9, c10, c11, c12, c13, c14, c15,
    c16, c17, c18, c19, c20⟩ :=
    insertNew_facts s k v w (randomLevel w) (updateI s k) (ranksI s k)
      s.nextId
      (if s.level + 1 < randomLevel w then randomLevel w - 1 else s.level)
      rfl rfl rfl rfl rfl hub hfub hrangeF hrangeS hrangeB hhdrspan
  have hheight : ∀ x, x ≠ s.nextId →
      height (insertNew s k v w).1 x = height s x := fun x hx => (c20 x hx).1
  have hheightN : height (insertNew s k v w).1 s.nextId = randomLevel w :=
    c10
  have hkeyF : ∀ x, x ≠ s.nextId →
      key (insertNew s k v w).1 x = key s x := fun x hx => (c20 x hx).2.2.1
  have hvalF : ∀ x, x ≠ s.nextId →
      value (insertNew s k v w).1 x = value s x :=
    fun x hx => (c20 x hx).2.2.2
  have hkeyN : key (insertNew s k v w).1 s.nextId = k := c7
  have hlvlge : s.level ≤
      (if s.level + 1 < randomLevel w then randomLevel w - 1 else s.level)
      := by
    by_cases hext : s.level + 1 < randomLevel w
    · rw [if_pos hext]; omega
    · rw [if_neg hext]
  have hlvlge2 : randomLevel w - 1 ≤
      (if s.level + 1 < randomLevel w then randomLevel w - 1 else s.level)
      := by
    by_cases hext : s.level + 1 < randomLevel w
    · rw [if_pos hext]
    · rw [if_neg hext]; omega
  have hlvllt :
      (if s.level + 1 < randomLevel w then randomLevel w - 1 else s.level)
        < MaxLevel := by
    have := hInv.levelLt
    by_cases hext : s.level + 1 < randomLevel w
    · rw [if_pos hext]
      have := hrl2
      unfold MaxLevel at *
      omega
    · rw [if_neg hext]
      exact this
  have hupd0 : (C.takeWhile (fun x => decide (key s x < k))).getLast?.getD
      s.header = updateI s k 0 := by
    obtain ⟨A, M, hAM, hCd, hrkA, hlast, hMnc, hseg, hchain⟩ :=
      walk_decomp hInv k 0 (Nat.zero_le _)
    have hM0 : M = [] := by
      rcases hMcase : M with _ | ⟨m, M'⟩
      · rfl
      · exfalso
        have hmC : m ∈ C := by
          rw [hCd, hMcase]
          exact List.mem_append_left _ (List.mem_append_right A (by simp))
        exact hMnc m (by rw [hMcase]; simp) ((hInv.nodeH m hmC).1)
    subst hM0
    rw [List.append_nil] at hAM
    rw [hAM]
    rcases hlast with ⟨hhd, rfl⟩ | hlast
    · simp [hhd]
    · rw [hlast]
      rfl
  refine ⟨⟨?_, ?_, ?_, ?_, ?_, ?_, ?_, ?_, ?_, ?_, ?_, ?_⟩, c1, c7, c8,
    fun x hx => ⟨hkeyF x hx, hvalF x hx⟩⟩
  · -- header below the id bound
    rw [c3, c2]
    have := hInv.hdrLt
    omega
  · -- no duplicate ids
    rw [c3]
    have hN' : s.nextId ∉ s.header :: C := by
      intro hcon
      rcases List.mem_cons.1 hcon with hcon | hcon
      · exact hhdrne hcon.symm
      · exact hmemne _ hcon rfl
    have heq : s.header :: (C.takeWhile (fun x => decide (key s x < k)) ++
        s.nextId :: C.dropWhile (fun x => decide (key s x < k)))
        = (s.header :: C.takeWhile (fun x => decide (key s x < k))) ++
          s.nextId :: C.dropWhile (fun x => decide (key s x < k)) := rfl
    rw [heq, List.nodup_middle]
    have heq2 : s.nextId ::
        ((s.header :: C.takeWhile (fun x => decide (key s x < k))) ++
          C.dropWhile (fun x => decide (key s x < k)))
        = s.nextId :: s.header ::
          (C.takeWhile (fun x => decide (key s x < k)) ++
            C.dropWhile (fun x => decide (key s x < k))) := rfl
    rw [heq2, List.takeWhile_append_dropWhile]
    exact List.nodup_cons.2 ⟨hN', hInv.nodupC⟩
  · -- ids below the bound
    intro x hx
    rw [c2]
    rcases List.mem_append.1 hx with hx | hx
    · have := hInv.memLt x (hA0C x hx)
      omega
    · rcases List.mem_cons.1 hx with rfl | hx
      · omega
      · have := hInv.memLt x (hS0C x hx)
        omega
  · -- header height
    rw [c3, hheight s.header hhdrne]
    exact hInv.hdrH
  · -- header span slice length
    rw [c3, (c20 s.header hhdrne).2.1]
    exact hInv.hdrSpanLen
  · -- member heights and slice lengths
    intro x hx
    rw [c4]
    have hmain : ∀ y ∈ C, 1 ≤ height (insertNew s k v w).1 y ∧
        height (insertNew s k v w).1 y ≤
          (if s.level + 1 < randomLevel w then randomLevel w - 1
           else s.level) + 1 ∧
        ((insertNew s k v w).1.store y).span.length
          = height (insertNew s k v w).1 y := by
      intro y hy
      have hyne := hmemne y hy
      obtain ⟨n1, n2, n3⟩ := hInv.nodeH y hy
      rw [hheight y hyne, (c20 y hyne).2.1]
      exact ⟨n1, by omega, n3⟩
    rcases List.mem_append.1 hx with hxA | hx
    · exact hmain x (hA0C x hxA)
    · rcases List.mem_cons.1 hx with rfl | hx
      · rw [hheightN, c11]
        exact ⟨hrl1, by omega, rfl⟩
      · exact hmain x (hS0C x hx)
  · -- sortedness
    refine (List.pairwise_append).2 ⟨?_, ?_, ?_⟩
    · refine pairwise_key_congr
        (hInv.sorted.sublist (List.takeWhile_sublist _)) ?_
      intro x hx
      exact hkeyF x (hmemne x (hA0C x hx))
    · rw [List.pairwise_cons]
      constructor
      · intro b hb
        rw [hkeyN, hkeyF b (hmemne b (hS0C b hb))]
        exact hS0k b hb
      · refine pairwise_key_congr
          (hInv.sorted.sublist (List.dropWhile_sublist _)) ?_
        intro x hx
        exact hkeyF x (hmemne x (hS0C x hx))
    · intro a ha b hb
      have hak : key (insertNew s k v w).1 a = key s a :=
        hkeyF a (hmemne a (hA0C a ha))
      rcases List.mem_cons.1 hb with rfl | hb
      · rw [hak, hkeyN]
        exact hA0k a ha
      · rw [hak, hkeyF b (hmemne b (hS0C b hb))]
        exact lt_trans (hA0k a ha) (hS0k b hb)
  · -- length
    rw [c5, hInv.lenEq, List.length_append, List.length_cons]
    have hlen : (C.takeWhile (fun x => decide (key s x < k))).length +
        (C.dropWhile (fun x => decide (key s x < k))).length = C.length := by
      rw [← List.length_append, List.takeWhile_append_dropWhile]
    push_cast
    omega
  · -- level bound
    rw [c4]
    exact hlvllt
  · -- level is occupied
    rw [c4]
    by_cases hext : s.level + 1 < randomLevel w
    · right
      refine ⟨s.nextId, List.mem_append_right _ (by simp), ?_⟩
      rw [hheightN, if_pos hext]
      omega
    · rw [if_neg hext]
      rcases hInv.levelOk with h | ⟨x, hx, hlt⟩
      · exact Or.inl h
      · right
        refine ⟨x, ?_, ?_⟩
        · have hx' : x ∈ C.takeWhile (fun x => decide (key s x < k)) ++
              C.dropWhile (fun x => decide (key s x < k)) := by
            rw [List.takeWhile_append_dropWhile]
            exact hx
          rcases List.mem_append.1 hx' with h | h
          · exact List.mem_append_left _ h
          · exact List.mem_append_right _ (List.mem_cons_of_mem _ h)
        · rw [hheight x (hmemne x hx)]
          exact hlt
  · -- the per-level chains
    intro i hiMax
    rw [c3]
    by_cases hcase1 : i < randomLevel w
    · by_cases hcase2 : i ≤ s.level
      · -- splice at an existing level
        obtain ⟨A, M, hAM, hCd, hrkA, hlast, hMnc, hseg, hchain⟩ :=
          walk_decomp hInv k i hcase2
        have hAC : ∀ x ∈ A, x ∈ C := by
          intro x hx
          rw [hCd]
          exact List.mem_append_left _ (List.mem_append_left M hx)
        have hMC : ∀ x ∈ M, x ∈ C := by
          intro x hx
          rw [hCd]
          exact List.mem_append_left _ (List.mem_append_right A hx)
        have hApre : A ++ (M ++ C.dropWhile (fun x => decide (key s x < k)))
            = C := by
          rw [← List.append_assoc]
          exact hCd.symm
        have hndA : A.Nodup := hndC.sublist (List.IsPrefix.sublist ⟨_, hApre⟩)
        have hxneupd : ∀ x ∈ C.dropWhile (fun x => decide (key s x < k)),
            x ≠ updateI s k i := by
          intro x hx
          rcases hlast with ⟨hhd, _⟩ | hlast
          · rw [hhd]
            intro hcon
            exact hhdrC (hcon ▸ hS0C x hx)
          · intro hcon
            refine hdisjAS hApre.symm (updateI s k i)
              (List.mem_of_getLast?_eq_some hlast) ?_
            exact List.mem_append_right M (hcon ▸ hx)
        have hseg' : chainSeg (insertNew s k v w).1 i s.header 0 A
            (updateI s k i) 0 := by
          refine chainSeg_congr hseg (fun hmem => hhdrC (hAC _ hmem)) hndA
            (fun x hx => hheight x (hmemne x (hAC x hx))) ?_
          intro x hx hxq
          refine c17 x i ?_ (fun _ => hxq)
          rcases hx with rfl | hx
          · exact hhdrne
          · exact hmemne x (hAC x hx)
        have hlenAM : ranksI s k 0 - ranksI s k i = (M.length : Int) := by
          rw [hrk0, hrkA, hAM, List.length_append]
          push_cast
          ring
        have hchain2 : chainInv (insertNew s k v w).1 i (updateI s k i)
            ((M.length : Int))
            (s.nextId :: C.dropWhile (fun x => decide (key s x < k))) := by
          have hcell : i < height (insertNew s k v w).1 s.nextId := by
            rw [hheightN]; exact hcase1
          simp only [chainInv]
          rw [if_pos hcell]
          refine ⟨c12 i hcase1, ?_, ?_⟩
          · rw [c13 i hcase1, ← hlenAM]
          · refine chainInv_transfer (chainInv_drop_noncells M hMnc hchain)
              (fun x hx => hheight x (hmemne x (hS0C x hx))) ?_ ?_ ?_
            · rw [c14 i hcase1]
            · rw [c15 i hcase1, if_neg (by omega), hlenAM]
              ring
            · intro x hx hxcell
              exact c17 x i (hmemne x (hS0C x hx)) (fun _ => hxneupd x hx)
        have hC' : C.takeWhile (fun x => decide (key s x < k)) ++
            s.nextId :: C.dropWhile (fun x => decide (key s x < k))
            = A ++ (M ++ s.nextId ::
                C.dropWhile (fun x => decide (key s x < k))) := by
          rw [hAM, List.append_assoc]
        rw [hC']
        refine chainInv_append_build hseg' ?_
        refine chainInv_prepend_noncells M ?_ ?_
        · intro x hx
          rw [hheight x (hmemne x (hMC x hx))]
          exact hMnc x hx
        · rw [show (0 : Int) + (M.length : Int) = (M.length : Int) by ring]
          exact hchain2
      · -- a level newly occupied by the extension
        have hhd : updateI s k i = s.header := by
          rw [updateI, if_neg hcase2]
        have hnocell : ∀ x ∈ C, ¬ i < height s x := by
          intro x hx hcell
          have := (hInv.nodeH x hx).2.1
          omega
        have hfnone : fwd s s.header i = none :=
          chainInv_no_cells_inv (hInv.chains i hiMax) hnocell
        have hrki : ranksI s k i = 0 := by
          rw [ranksI, if_neg hcase2]
        have hseg0 : chainSeg (insertNew s k v w).1 i s.header 0
            (C.takeWhile (fun x => decide (key s x < k))) s.header
            (0 + ((C.takeWhile (fun x => decide (key s x < k))).length :
              Int)) := by
          refine chainSeg_no_cells _ _ _ ?_
          intro x hx
          rw [hheight x (hmemne x (hA0C x hx))]
          exact hnocell x (hA0C x hx)
        refine chainInv_append_build hseg0 ?_
        have hcell : i < height (insertNew s k v w).1 s.nextId := by
          rw [hheightN]; exact hcase1
        simp only [chainInv]
        rw [if_pos hcell]
        refine ⟨?_, ?_, ?_⟩
        · rw [← hhd]
          exact c12 i hcase1
        · rw [← hhd, c13 i hcase1, hrki, hrk0]
          ring
        · refine chainInv_no_cells_build _ _ _ ?_ ?_
          · intro x hx
            rw [hheight x (hmemne x (hS0C x hx))]
            exact hnocell x (hS0C x hx)
          · rw [c14 i hcase1, hhd]
            exact hfnone
    · by_cases hcase2 : i ≤
          (if s.level + 1 < randomLevel w then randomLevel w - 1
           else s.level)
      · -- a bumped level
        have hcase2' : i ≤ s.level := by
          by_cases hext : s.level + 1 < randomLevel w
          · rw [if_pos hext] at hcase2
            omega
          · rw [if_neg hext] at hcase2
            exact hcase2
        obtain ⟨A, M, hAM, hCd, hrkA, hlast, hMnc, hseg, hchain⟩ :=
          walk_decomp hInv k i hcase2'
        have hAC : ∀ x ∈ A, x ∈ C := by
          intro x hx
          rw [hCd]
          exact List.mem_append_left _ (List.mem_append_left M hx)
        have hMC : ∀ x ∈ M, x ∈ C := by
          intro x hx
          rw [hCd]
          exact List.mem_append_left _ (List.mem_append_right A hx)
        have hApre : A ++ (M ++ C.dropWhile (fun x => decide (key s x < k)))
            = C := by
          rw [← List.append_assoc]
          exact hCd.symm
        have hndA : A.Nodup := hndC.sublist (List.IsPrefix.sublist ⟨_, hApre⟩)
        have hxneupd : ∀ x ∈ C.dropWhile (fun x => decide (key s x < k)),
            x ≠ updateI s k i := by
          intro x hx
          rcases hlast with ⟨hhd, _⟩ | hlast
          · rw [hhd]
            intro hcon
            exact hhdrC (hcon ▸ hS0C x hx)
          · intro hcon
            refine hdisjAS hApre.symm (updateI s k i)
              (List.mem_of_getLast?_eq_some hlast) ?_
            exact List.mem_append_right M (hcon ▸ hx)
        have hseg' : chainSeg (insertNew s k v w).1 i s.header 0 A
            (updateI s k i) 0 := by
          refine chainSeg_congr hseg (fun hmem => hhdrC (hAC _ hmem)) hndA
            (fun x hx => hheight x (hmemne x (hAC x hx))) ?_
          intro x hx hxq
          refine c17 x i ?_ (fun _ => hxq)
          rcases hx with rfl | hx
          · exact hhdrne
          · exact hmemne x (hAC x hx)
        have hC' : C.takeWhile (fun x => decide (key s x < k)) ++
            s.nextId :: C.dropWhile (fun x => decide (key s x < k))
            = A ++ (M ++ s.nextId ::
                C.dropWhile (fun x => decide (key s x < k))) := by
          rw [hAM, List.append_assoc]
        rw [hC']
        refine chainInv_append_build hseg' ?_
        have hsplit : M ++ s.nextId ::
            C.dropWhile (fun x => decide (key s x < k))
            = (M ++ [s.nextId]) ++
              C.dropWhile (fun x => decide (key s x < k)) := by
          simp
        rw [hsplit]
        refine chainInv_prepend_noncells (M ++ [s.nextId]) ?_ ?_
        · intro x hx
          rcases List.mem_append.1 hx with hx | hx
          · rw [hheight x (hmemne x (hMC x hx))]
            exact hMnc x hx
          · have hx' : x = s.nextId := by simpa using hx
            subst hx'
            rw [hheightN]
            exact hcase1
        · rw [show (0 : Int) + (((M ++ [s.nextId]).length : Nat) : Int)
              = (M.length : Int) + 1 by simp]
          refine chainInv_transfer (chainInv_drop_noncells M hMnc hchain)
            (fun x hx => hheight x (hmemne x (hS0C x hx))) ?_ ?_ ?_
          · exact (c16 i (Nat.le_of_not_lt hcase1) hcase2).1
          · rw [(c16 i (Nat.le_of_not_lt hcase1) hcase2).2]
            ring
          · intro x hx hxcell
            exact c17 x i (hmemne x (hS0C x hx)) (fun _ => hxneupd x hx)
      · -- a level above everything
        have hgenocell : ∀ x ∈ C, ¬ i < height s x := by
          intro x hx hcell
          have h1 := (hInv.nodeH x hx).2.1
          have h2 := hlvlge
          omega
        refine chainInv_no_cells_build _ _ _ ?_ ?_
        · intro x hx
          rcases List.mem_append.1 hx with hx | hx
          · rw [hheight x (hmemne x (hA0C x hx))]
            exact hgenocell x (hA0C x hx)
          · rcases List.mem_cons.1 hx with rfl | hx
            · rw [hheightN]
              exact hcase1
            · rw [hheight x (hmemne x (hS0C x hx))]
              exact hgenocell x (hS0C x hx)
        · rw [(c17 s.header i hhdrne (fun hcon => absurd hcon hcase2)).1]
          exact chainInv_no_cells_inv (hInv.chains i hiMax) hgenocell
  · -- backward pointers
    rw [c3]
    have hCb := hInv.backs
    have hCsplit2 : C = C.takeWhile (fun x => decide (key s x < k)) ++
        C.dropWhile (fun x => decide (key s x < k)) :=
      (List.takeWhile_append_dropWhile _ _).symm
    rw [hCsplit2] at hCb
    obtain ⟨hbA, hbS⟩ := backInv_append_destruct hCb
    refine backInv_append_build ?_ ?_
    · refine backInv_congr_on hbA ?_
      intro x hx
      refine c19 x (hmemne x (hA0C x hx)) ?_
      rw [hfwd00]
      cases hh : (C.dropWhile (fun x => decide (key s x < k))).head? with
      | none => simp
      | some c0 =>
          have hc0 : c0 ∈ C.dropWhile (fun x => decide (key s x < k)) :=
            List.mem_of_mem_head? hh
          intro hcon
          injection hcon with hcon
          subst hcon
          exact hdisjAS hCsplit2 c0 hx hc0
    · refine ⟨?_, ?_⟩
      · rw [c9, ← hupd0]
      · cases hS0case : C.dropWhile (fun x => decide (key s x < k)) with
        | nil => trivial
        | cons c0 rest =>
            have hc0head :
                (C.dropWhile (fun x => decide (key s x < k))).head?
                  = some c0 := by
              rw [hS0case]
              rfl
            refine ⟨?_, ?_⟩
            · refine c18 c0 ?_
              rw [hfwd00, hc0head]
            · have hbS' := hbS
              rw [hS0case] at hbS'
              refine backInv_congr_on hbS'.2 ?_
              intro x hx
              have hxS0 : x ∈ C.dropWhile (fun x => decide (key s x < k))
                  := by
                rw [hS0case]
                exact List.mem_cons_of_mem _ hx
              refine c19 x (hmemne x (hS0C x hxS0)) ?_
              rw [hfwd00, hc0head]
              intro hcon
              injection hcon with hcon
              have hnd0 : (c0 :: rest).Nodup := by
                rw [← hS0case]
                exact hndC.sublist (List.dropWhile_sublist _)
              rw [List.nodup_cons] at hnd0
              exact hnd0.1 (by rw [hcon]; exact hx)

/-- Everything one unlink iteration does, by branch. -/
lemma deleteStep_facts (x : Nat) (upd : Nat → Nat) (st : SkipList)
    (j : Nat) :
    (∀ y, y ≠ upd j → (deleteStep x upd st j).store y = st.store y) ∧
    (∀ y, ((deleteStep x upd st j).store y).key = (st.store y).key ∧
      ((deleteStep x upd st j).store y).value = (st.store y).value ∧
      ((deleteStep x upd st j).store y).backward = (st.store y).backward ∧
      ((deleteStep x upd st j).store y).forward.length
        = (st.store y).forward.length ∧
      ((deleteStep x upd st j).store y).span.length
        = (st.store y).span.length) ∧
    (∀ y i, (y = upd j → i ≠ j) →
      fwd (deleteStep x upd st j) y i = fwd st y i ∧
      spn (deleteStep x upd st j) y i = spn st y i) ∧
    (deleteStep x upd st j).nextId = st.nextId ∧
    (deleteStep x upd st j).header = st.header ∧
    (deleteStep x upd st j).level = st.level ∧
    (deleteStep x upd st j).length = st.length ∧
    (deleteStep x upd st j).isArena = st.isArena ∧
    (fwd st (upd j) j = some x →
      j < (st.store (upd j)).forward.length →
      j < (st.store (upd j)).span.length →
      fwd (deleteStep x upd st j) (upd j) j = fwd st x j ∧
      spn (deleteStep x upd st j) (upd j) j
        = spn st (upd j) j + (spn st x j - 1)) ∧
    (fwd st (upd j) j ≠ some x → fwd st (upd j) j ≠ none →
      j < (st.store (upd j)).span.length →
      fwd (deleteStep x upd st j) (upd j) j = fwd st (upd j) j ∧
      spn (deleteStep x upd st j) (upd j) j = spn st (upd j) j - 1) ∧
    (fwd st (upd j) j = none →
      fwd (deleteStep x upd st j) (upd j) j = none ∧
      spn (deleteStep x upd st j) (upd j) j = spn st (upd j) j) := by
  by_cases h1 : (st.store (upd j)).fwdN j = some x
  · have hU : deleteStep x upd st j = { st with
        store := setStore st.store (upd j)
          { st.store (upd j) with
            span := (st.store (upd j)).span.set j
              ((st.store (upd j)).spnN j + ((st.store x).spnN j - 1)),
            forward := (st.store (upd j)).forward.set j
              ((st.store x).fwdN j) } } := by
      simp only [deleteStep]
      rw [if_pos h1]
    have hoth : ∀ y, y ≠ upd j →
        (deleteStep x upd st j).store y = st.store y := by
      intro y hy
      rw [hU]
      exact setStore_other _ _ _ _ hy
    have hme : (deleteStep x upd st j).store (upd j)
        = { st.store (upd j) with
            span := (st.store (upd j)).span.set j
              ((st.store (upd j)).spnN j + ((st.store x).spnN j - 1)),
            forward := (st.store (upd j)).forward.set j
              ((st.store x).fwdN j) } := by
      rw [hU]
      exact setStore_same _ _ _
    refine ⟨hoth, ?_, ?_, by rw [hU], by rw [hU], by rw [hU], by rw [hU],
      by rw [hU], ?_, ?_, ?_⟩
    · intro y
      by_cases hy : y = upd j
      · subst hy
        rw [hme]
        exact ⟨rfl, rfl, rfl, by simp, by simp⟩
      · rw [hoth y hy]
        exact ⟨rfl, rfl, rfl, rfl, rfl⟩
    · intro y i hyj
      by_cases hy : y = upd j
      · have hij : i ≠ j := hyj hy
        subst hy
        rw [fwd_def, fwd_def, spn_def, spn_def, hme]
        simp only []
        rw [get?_set_getD, get?_set_getD,
          if_neg (fun hcon => hij hcon.1.symm),
          if_neg (fun hcon => hij hcon.1.symm)]
        exact ⟨rfl, rfl⟩
      · rw [fwd_def, fwd_def, spn_def, spn_def, hoth y hy]
        exact ⟨rfl, rfl⟩
    · intro _ hf hs
      rw [fwd_def, spn_def, hme]
      simp only []
      rw [get?_set_getD, get?_set_getD, if_pos ⟨rfl, hf⟩, if_pos ⟨rfl, hs⟩]
      exact ⟨rfl, rfl⟩
    · intro hne _ _
      exact absurd h1 hne
    · intro hnone
      have hcon : (st.store (upd j)).fwdN j = none := hnone
      rw [h1] at hcon
      exact absurd hcon (by simp)
  · by_cases h2 : (st.store (upd j)).fwdN j ≠ none
    · have hU : deleteStep x upd st j = { st with
          store := setStore st.store (upd j)
            { st.store (upd j) with
              span := (st.store (upd j)).span.set j
                ((st.store (upd j)).spnN j - 1) } } := by
        simp only [deleteStep]
        rw [if_neg h1, if_pos h2]
      have hoth : ∀ y, y ≠ upd j →
          (deleteStep x upd st j).store y = st.store y := by
        intro y hy
        rw [hU]
        exact setStore_other _ _ _ _ hy
      have hme : (deleteStep x upd st j).store (upd j)
          = { st.store (upd j) with
              span := (st.store (upd j)).span.set j
                ((st.store (upd j)).spnN j - 1) } := by
        rw [hU]
        exact setStore_same _ _ _
      refine ⟨hoth, ?_, ?_, by rw [hU], by rw [hU], by rw [hU], by rw [hU],
        by rw [hU], ?_, ?_, ?_⟩
      · intro y
        by_cases hy : y = upd j
        · subst hy
          rw [hme]
          exact ⟨rfl, rfl, rfl, rfl, by simp⟩
        · rw [hoth y hy]
          exact ⟨rfl, rfl, rfl, rfl, rfl⟩
      · intro y i hyj
        by_cases hy : y = upd j
        · have hij : i ≠ j := hyj hy
          subst hy
          rw [fwd_def, fwd_def, spn_def, spn_def, hme]
          simp only []
          rw [get?_set_getD, if_neg (fun hcon => hij hcon.1.symm)]
          exact ⟨trivial, rfl⟩
        · rw [fwd_def, fwd_def, spn_def, spn_def, hoth y hy]
          exact ⟨rfl, rfl⟩
      · intro hcon
        exact absurd hcon h1
      · intro _ _ hs
        constructor
        · rw [fwd_def, hme]
          rfl
        · rw [spn_def, hme]
          simp only []
          rw [get?_set_getD, if_pos ⟨rfl, hs⟩]
          rfl
      · intro hnone
        exact absurd hnone h2
    · have hU : deleteStep x upd st j = st := by
        simp only [deleteStep]
        rw [if_neg h1, if_neg h2]
      rw [hU]
      rw [not_not] at h2
      refine ⟨fun y _ => rfl, fun y => ⟨rfl, rfl, rfl, rfl, rfl⟩,
        fun y i _ => ⟨rfl, rfl⟩, rfl, rfl, rfl, rfl, rfl, ?_, ?_, ?_⟩
      · intro hcon
        exact absurd hcon h1
      · intro _ hcon
        exact absurd h2 hcon
      · intro _
        exact ⟨h2, rfl⟩

/-- Store characterization of the unlink loop of `deleteNode` over levels
`[0, j)`.  Each level's branch is decided by the pre-state, because the
slots read at level `i` are never written before level `i`. -/
lemma delete_fold (x : Nat) (upd : Nat → Nat) (s : SkipList)
    (hux : ∀ m, upd m ≠ x) (j : Nat)
    (hrange : ∀ m, m < j → fwd s (upd m) m ≠ none →
      m < (s.store (upd m)).forward.length ∧
      m < (s.store (upd m)).span.length) :
    (∀ i, i < j →
      (fwd s (upd i) i = some x →
        fwd ((List.range j).foldl (deleteStep x upd) s) (upd i) i
          = fwd s x i ∧
        spn ((List.range j).foldl (deleteStep x upd) s) (upd i) i
          = spn s (upd i) i + (spn s x i - 1)) ∧
      (fwd s (upd i) i ≠ some x → fwd s (upd i) i ≠ none →
        fwd ((List.range j).foldl (deleteStep x upd) s) (upd i) i
          = fwd s (upd i) i ∧
        spn ((List.range j).foldl (deleteStep x upd) s) (upd i) i
          = spn s (upd i) i - 1) ∧
      (fwd s (upd i) i = none →
        fwd ((List.range j).foldl (deleteStep x upd) s) (upd i) i = none ∧
        spn ((List.range j).foldl (deleteStep x upd) s) (upd i) i
          = spn s (upd i) i)) ∧
    (∀ y i, (i < j → y ≠ upd i) →
      fwd ((List.range j).foldl (deleteStep x upd) s) y i = fwd s y i ∧
      spn ((List.range j).foldl (deleteStep x upd) s) y i = spn s y i) ∧
    (∀ y, (((List.range j).foldl (deleteStep x upd) s).store y).key
        = (s.store y).key ∧
      (((List.range j).foldl (deleteStep x upd) s).store y).value
        = (s.store y).value ∧
      (((List.range j).foldl (deleteStep x upd) s).store y).backward
        = (s.store y).backward ∧
      (((List.range j).foldl (deleteStep x upd) s).store y).forward.length
        = (s.store y).forward.length ∧
      (((List.range j).foldl (deleteStep x upd) s).store y).span.length
        = (s.store y).span.length) ∧
    ((List.range j).foldl (deleteStep x upd) s).nextId = s.nextId ∧
    ((List.range j).foldl (deleteStep x upd) s).header = s.header ∧
    ((List.range j).foldl (deleteStep x upd) s).level = s.level ∧
    ((List.range j).foldl (deleteStep x upd) s).length = s.length ∧
    ((List.range j).foldl (deleteStep x upd) s).isArena = s.isArena := by
  induction j with
  | zero =>
      exact ⟨fun i hi => absurd hi (by omega), fun y i _ => ⟨rfl, rfl⟩,
        fun y => ⟨rfl, rfl, rfl, rfl, rfl⟩, rfl, rfl, rfl, rfl, rfl⟩
  | succ j ih =>
      obtain ⟨Psl, Pfr, Pm, Pn, Ph, Pl, Plen, Pa⟩ :=
        ih (fun m hm => hrange m (by omega))
      rw [List.range_succ, List.foldl_append, List.foldl_cons, List.foldl_nil]
      set st := (List.range j).foldl (deleteStep x upd) s with hst
      obtain ⟨Doth, Dm, Dfr, Dn, Dh, Dl, Dlen, Da, Dhit, Dmiss, Dnone⟩ :=
        deleteStep_facts x upd st j
      have hstj : fwd st (upd j) j = fwd s (upd j) j ∧
          spn st (upd j) j = spn s (upd j) j :=
        Pfr (upd j) j (fun hcon => absurd hcon (lt_irrefl j))
      have hstx : ∀ i, fwd st x i = fwd s x i ∧ spn st x i = spn s x i :=
        fun i => Pfr x i (fun _ => Ne.symm (hux i))
      refine ⟨?_, ?_, ?_, Dn.trans Pn, Dh.trans Ph, Dl.trans Pl,
        Dlen.trans Plen, Da.trans Pa⟩
      · intro i hi
        by_cases hij : i = j
        · subst hij
          refine ⟨?_, ?_, ?_⟩
          · intro h
            have hne : fwd s (upd i) i ≠ none := by rw [h]; simp
            obtain ⟨hf1, hf2⟩ := hrange i (by omega) hne
            obtain ⟨E1, E2⟩ := Dhit (by rw [hstj.1]; exact h)
              (by rw [(Pm (upd i)).2.2.2.1]; exact hf1)
              (by rw [(Pm (upd i)).2.2.2.2]; exact hf2)
            rw [E1, E2, hstj.2, (hstx i).1, (hstx i).2]
            exact ⟨rfl, rfl⟩
          · intro h1 h2
            obtain ⟨hf1, hf2⟩ := hrange i (by omega) h2
            obtain ⟨E1, E2⟩ := Dmiss (by rw [hstj.1]; exact h1)
              (by rw [hstj.1]; exact h2)
              (by rw [(Pm (upd i)).2.2.2.2]; exact hf2)
            rw [E1, E2, hstj.1, hstj.2]
            exact ⟨rfl, rfl⟩
          · intro h
            obtain ⟨E1, E2⟩ := Dnone (by rw [hstj.1]; exact h)
            rw [E1, E2, hstj.2]
            exact ⟨rfl, rfl⟩
        · have hilt : i < j := by omega
          have hDfr := Dfr (upd i) i (fun _ => hij)
          obtain ⟨I1, I2, I3⟩ := Psl i hilt
          refine ⟨?_, ?_, ?_⟩
          · intro h
            obtain ⟨E1, E2⟩ := I1 h
            exact ⟨hDfr.1.trans E1, hDfr.2.trans E2⟩
          · intro h1 h2
            obtain ⟨E1, E2⟩ := I2 h1 h2
            exact ⟨hDfr.1.trans E1, hDfr.2.trans E2⟩
          · intro h
            obtain ⟨E1, E2⟩ := I3 h
            exact ⟨hDfr.1.trans E1, hDfr.2.trans E2⟩
      · intro y i hy
        have hstep : fwd (deleteStep x upd st j) y i = fwd st y i ∧
            spn (deleteStep x upd st j) y i = spn st y i := by
          refine Dfr y i ?_
          intro hyu
          intro hcon
          exact hy (by omega) (by rw [hcon]; exact hyu)
        have hold := Pfr y i (fun hlt => hy (by omega))
        exact ⟨hstep.1.trans hold.1, hstep.2.trans hold.2⟩
      · intro y
        obtain ⟨a1, a2, a3, a4, a5⟩ := Dm y
        obtain ⟨b1, b2, b3, b4, b5⟩ := Pm y
        exact ⟨a1.trans b1, a2.trans b2, a3.trans b3, a4.trans b4,
          a5.trans b5⟩

lemma shrinkLevel_le (st : SkipList) : ∀ l, shrinkLevel st l ≤ l := by
  intro l
  induction l with
  | zero => exact le_rfl
  | succ l ih =>
      simp only [shrinkLevel]
      split
      · omega
      · exact le_rfl

lemma shrinkLevel_none (st : SkipList) :
    ∀ l i, shrinkLevel st l < i → i ≤ l → fwd st st.header i = none := by
  intro l
  induction l with
  | zero => intro i h1 h2; omega
  | succ l ih =>
      intro i h1 h2
      by_cases hc : fwd st st.header (l + 1) = none
      · rw [shrinkLevel, if_pos hc] at h1
        by_cases hi : i = l + 1
        · rw [hi]; exact hc
        · exact ih i h1 (by omega)
      · rw [shrinkLevel, if_neg hc] at h1
        omega

lemma shrinkLevel_pos (st : SkipList) :
    ∀ l, shrinkLevel st l = 0 ∨
      fwd st st.header (shrinkLevel st l) ≠ none := by
  intro l
  induction l with
  | zero => exact Or.inl rfl
  | succ l ih =>
      by_cases hc : fwd st st.header (l + 1) = none
      · rw [shrinkLevel, if_pos hc]
        exact ih
      · rw [shrinkLevel, if_neg hc]
        exact Or.inr hc

/-- On a chain whose head slot is empty there are no cells. -/
lemma chainInv_fwd_none_no_cells {s : SkipList} {i : Nat} :
    ∀ {L : List Nat} {p : Nat} {g : Int},
      chainInv s i p g L → fwd s p i = none →
      ∀ x ∈ L, ¬ i < height s x := by
  intro L
  induction L with
  | nil => intro p g _ _ x hx; simp at hx
  | cons a rest ih =>
      intro p g hc hnone x hx
      simp only [chainInv] at hc
      by_cases ha : i < height s a
      · rw [if_pos ha] at hc
        rw [hc.1] at hnone
        exact absurd hnone (by simp)
      · rw [if_neg ha] at hc
        rcases List.mem_cons.1 hx with rfl | hx
        · exact ha
        · exact ih hc hnone x hx

/-- A nonempty head slot points at the first cell of the chain. -/
lemma chainInv_fwd_some_cell {s : SkipList} {i : Nat} :
    ∀ {L : List Nat} {p : Nat} {g : Int} {d : Nat},
      chainInv s i p g L → fwd s p i = some d →
      d ∈ L ∧ i < height s d := by
  intro L
  induction L with
  | nil =>
      intro p g d hc hsome
      rw [show chainInv s i p g [] = (fwd s p i = none) from rfl] at hc
      rw [hc] at hsome
      exact absurd hsome (by simp)
  | cons a rest ih =>
      intro p g d hc hsome
      simp only [chainInv] at hc
      by_cases ha : i < height s a
      · rw [if_pos ha] at hc
        rw [hc.1] at hsome
        injection hsome with hsome
        subst hsome
        exact ⟨by simp, ha⟩
      · rw [if_neg ha] at hc
        obtain ⟨h1, h2⟩ := ih hc hsome
        exact ⟨by simp [h1], h2⟩

/-- Resetting a node touches only that node and only its payload: slice
lengths are kept, the slices are zeroed. -/
lemma resetNode_facts (s : SkipList) (x : Nat) :
    (∀ y, y ≠ x → (resetNode s x).store y = s.store y) ∧
    (∀ i, fwd (resetNode s x) x i = none) ∧
    (∀ y, ((resetNode s x).store y).forward.length
        = (s.store y).forward.length ∧
      ((resetNode s x).store y).span.length = (s.store y).span.length) ∧
    (resetNode s x).nextId = s.nextId ∧
    (resetNode s x).header = s.header ∧
    (resetNode s x).level = s.level ∧
    (resetNode s x).length = s.length ∧
    (resetNode s x).isArena = s.isArena := by
  have hx : (resetNode s x).store x =
      { key := 0, value := 0, backward := none,
        forward := (s.store x).forward.map (fun _ => none),
        span := (s.store x).span.map (fun _ => 0) } := by
    simp [resetNode, setStore_same]
  have hoth : ∀ y, y ≠ x → (resetNode s x).store y = s.store y := by
    intro y hy
    simp only [resetNode]
    exact setStore_other _ _ _ _ hy
  refine ⟨hoth, ?_, ?_, rfl, rfl, rfl, rfl, rfl⟩
  · intro i
    rw [fwd_def, hx]
    simp only [List.get?_eq_getElem?, List.getElem?_map]
    cases (s.store x).forward[i]? <;> rfl
  · intro y
    by_cases hy : y = x
    · subst hy
      rw [hx]
      simp
    · rw [hoth y hy]
      exact ⟨rfl, rfl⟩

/-- Full store characterization of `deleteNode`, relative to the
pre-state. -/
lemma deleteNode_facts (s : SkipList) (x : Nat) (upd : Nat → Nat)
    (hux : ∀ m, upd m ≠ x) (hhx : s.header ≠ x)
    (hrange : ∀ m, m < s.level + 1 → fwd s (upd m) m ≠ none →
      m < (s.store (upd m)).forward.length ∧
      m < (s.store (upd m)).span.length) :
    (deleteNode s x upd).nextId = s.nextId ∧
    (deleteNode s x upd).header = s.header ∧
    (deleteNode s x upd).level = shrinkLevel (deleteS1 s x upd) s.level ∧
    (deleteNode s x upd).length = s.length - 1 ∧
    (deleteNode s x upd).isArena = s.isArena ∧
    (∀ i, i ≤ s.level → fwd s (upd i) i = some x →
      fwd (deleteNode s x upd) (upd i) i = fwd s x i ∧
      spn (deleteNode s x upd) (upd i) i
        = spn s (upd i) i + (spn s x i - 1)) ∧
    (∀ i, i ≤ s.level → fwd s (upd i) i ≠ some x → fwd s (upd i) i ≠ none →
      fwd (deleteNode s x upd) (upd i) i = fwd s (upd i) i ∧
      spn (deleteNode s x upd) (upd i) i = spn s (upd i) i - 1) ∧
    (∀ i, i ≤ s.level → fwd s (upd i) i = none →
      fwd (deleteNode s x upd) (upd i) i = none ∧
      spn (deleteNode s x upd) (upd i) i = spn s (upd i) i) ∧
    (∀ y i, y ≠ x → (i ≤ s.level → y ≠ upd i) →
      fwd (deleteNode s x upd) y i = fwd s y i ∧
      spn (deleteNode s x upd) y i = spn s y i) ∧
    (∀ nxt, fwd s x 0 = some nxt → nxt ≠ x →
      ((deleteNode s x upd).store nxt).backward = (s.store x).backward) ∧
    (∀ y, y ≠ x → fwd s x 0 ≠ some y →
      ((deleteNode s x upd).store y).backward = (s.store y).backward) ∧
    (∀ y, y ≠ x →
      ((deleteNode s x upd).store y).key = (s.store y).key ∧
      ((deleteNode s x upd).store y).value = (s.store y).value ∧
      ((deleteNode s x upd).store y).forward.length
        = (s.store y).forward.length ∧
      ((deleteNode s x upd).store y).span.length
        = (s.store y).span.length) ∧
    (∀ y, ((deleteNode s x upd).store y).forward.length
        = (s.store y).forward.length) ∧
    (∀ i, fwd (deleteNode s x upd) s.header i
        = fwd (deleteS1 s x upd) s.header i) := by
  obtain ⟨Dsl, Dfr, Dm, Dn, Dh, Dl, Dlen, Da⟩ :=
    delete_fold x upd s hux (s.level + 1) hrange
  have hS1 : (List.range (s.level + 1)).foldl (deleteStep x upd) s
      = deleteS1 s x upd := rfl
  simp only [hS1] at Dsl Dfr Dm
  rw [hS1] at Dn Dh Dl Dlen Da
  have h2fwd : ∀ y i, fwd (deleteS2 s x upd) y i
      = fwd (deleteS1 s x upd) y i := fun y i => rfl
  have h2spn : ∀ y i, spn (deleteS2 s x upd) y i
      = spn (deleteS1 s x upd) y i := fun y i => rfl
  have h2store : (deleteS2 s x upd).store = (deleteS1 s x upd).store := rfl
  have hsc : fwd (deleteS2 s x upd) x 0 = fwd s x 0 := by
    rw [h2fwd]
    exact (Dfr x 0 (fun _ => Ne.symm (hux 0))).1
  -- stage 3
  have h3 :
      (∀ y i, fwd (deleteS3 s x upd) y i = fwd (deleteS2 s x upd) y i) ∧
      (∀ y i, spn (deleteS3 s x upd) y i = spn (deleteS2 s x upd) y i) ∧
      (∀ y, ((deleteS3 s x upd).store y).key
          = ((deleteS2 s x upd).store y).key ∧
        ((deleteS3 s x upd).store y).value
          = ((deleteS2 s x upd).store y).value ∧
        ((deleteS3 s x upd).store y).forward.length
          = ((deleteS2 s x upd).store y).forward.length ∧
        ((deleteS3 s x upd).store y).span.length
          = ((deleteS2 s x upd).store y).span.length) ∧
      (deleteS3 s x upd).nextId = (deleteS2 s x upd).nextId ∧
      (deleteS3 s x upd).header = (deleteS2 s x upd).header ∧
      (deleteS3 s x upd).level = (deleteS2 s x upd).level ∧
      (deleteS3 s x upd).length = (deleteS2 s x upd).length ∧
      (deleteS3 s x upd).isArena = (deleteS2 s x upd).isArena ∧
      (∀ nxt, fwd s x 0 = some nxt →
        ((deleteS3 s x upd).store nxt).backward
          = ((deleteS2 s x upd).store x).backward) ∧
      (∀ y, fwd s x 0 ≠ some y →
        ((deleteS3 s x upd).store y).backward
          = ((deleteS2 s x upd).store y).backward) := by
    cases hcs : fwd (deleteS2 s x upd) x 0 with
    | none =>
        have hU : deleteS3 s x upd = deleteS2 s x upd := by
          simp only [deleteS3, hcs]
        rw [hsc] at hcs
        rw [hU]
        refine ⟨fun y i => rfl, fun y i => rfl,
          fun y => ⟨rfl, rfl, rfl, rfl⟩, rfl, rfl, rfl, rfl, rfl, ?_,
          fun y _ => rfl⟩
        intro nxt hn
        rw [hcs] at hn
        exact absurd hn (by simp)
    | some nxt0 =>
        have hU : deleteS3 s x upd = setBackward (deleteS2 s x upd) nxt0
            (((deleteS2 s x upd).store x).backward) := by
          simp only [deleteS3, hcs]
        rw [hsc] at hcs
        obtain ⟨T_f, T_s, T_bx, T_oth, T_lf, T_ls, T_k, T_v, T_n, T_h, T_l,
          T_len, T_a⟩ :=
          setBackward_facts (deleteS2 s x upd) nxt0
            (((deleteS2 s x upd).store x).backward)
        rw [hU]
        refine ⟨T_f, T_s, ?_, T_n, T_h, T_l, T_len, T_a, ?_, ?_⟩
        · intro y
          by_cases hy : y = nxt0
          · rw [hy]
            have hrec : (setBackward (deleteS2 s x upd) nxt0
                (((deleteS2 s x upd).store x).backward)).store nxt0
                = { (deleteS2 s x upd).store nxt0 with
                    backward := ((deleteS2 s x upd).store x).backward } := by
              simp [setBackward, setStore_same]
            rw [hrec]
            exact ⟨rfl, rfl, rfl, rfl⟩
          · rw [T_oth y hy]
            exact ⟨rfl, rfl, rfl, rfl⟩
        · intro nxt hn
          rw [hcs] at hn
          injection hn with hn
          subst hn
          exact T_bx
        · intro y hy
          rw [hcs] at hy
          have : y ≠ nxt0 := fun hcon => hy (by rw [hcon])
          rw [T_oth y this]
  obtain ⟨h3f, h3s, h3m, h3n, h3h, h3l, h3len, h3a, h3bn, h3bo⟩ := h3
  -- stage 4
  have h4 :
      (∀ y, y ≠ x → (deleteS4 s x upd).store y
          = (deleteS3 s x upd).store y) ∧
      (∀ y, ((deleteS4 s x upd).store y).forward.length
          = ((deleteS3 s x upd).store y).forward.length) ∧
      (deleteS4 s x upd).nextId = (deleteS3 s x upd).nextId ∧
      (deleteS4 s x upd).header = (deleteS3 s x upd).header ∧
      (deleteS4 s x upd).level = (deleteS3 s x upd).level ∧
      (deleteS4 s x upd).length = (deleteS3 s x upd).length ∧
      (deleteS4 s x upd).isArena = (deleteS3 s x upd).isArena := by
    by_cases hA : (deleteS3 s x upd).isArena
    · have hU : deleteS4 s x upd = deleteS3 s x upd := by
        rw [deleteS4, if_pos hA]
      rw [hU]
      exact ⟨fun y _ => rfl, fun y => rfl, rfl, rfl, rfl, rfl, rfl⟩
    · have hU : deleteS4 s x upd = resetNode (deleteS3 s x upd) x := by
        rw [deleteS4, if_neg hA]
      obtain ⟨R_oth, R_fwd, R_len, R_n, R_h, R_l, R_len2, R_a⟩ :=
        resetNode_facts (deleteS3 s x upd) x
      rw [hU]
      exact ⟨R_oth, fun y => (R_len y).1, R_n, R_h, R_l, R_len2, R_a⟩
  obtain ⟨h4oth, h4lf, h4n, h4h, h4l, h4len, h4a⟩ := h4
  have h4fwd : ∀ y i, y ≠ x → fwd (deleteS4 s x upd) y i
      = fwd (deleteS3 s x upd) y i := by
    intro y i hy
    rw [fwd_def, fwd_def, h4oth y hy]
  have h4spn : ∀ y i, y ≠ x → spn (deleteS4 s x upd) y i
      = spn (deleteS3 s x upd) y i := by
    intro y i hy
    rw [spn_def, spn_def, h4oth y hy]
  -- the final state
  have h5store : (deleteNode s x upd).store = (deleteS4 s x upd).store := rfl
  have h5fwd : ∀ y i, fwd (deleteNode s x upd) y i
      = fwd (deleteS4 s x upd) y i := fun y i => rfl
  have h5spn : ∀ y i, spn (deleteNode s x upd) y i
      = spn (deleteS4 s x upd) y i := fun y i => rfl
  have hfs : ∀ y i, y ≠ x → fwd (deleteNode s x upd) y i
      = fwd (deleteS1 s x upd) y i := by
    intro y i hy
    rw [h5fwd, h4fwd y i hy, h3f, h2fwd]
  have hss : ∀ y i, y ≠ x → spn (deleteNode s x upd) y i
      = spn (deleteS1 s x upd) y i := by
    intro y i hy
    rw [h5spn, h4spn y i hy, h3s, h2spn]
  refine ⟨?_, ?_, ?_, ?_, ?_, ?_, ?_, ?_, ?_, ?_, ?_, ?_, ?_, ?_⟩
  · show (deleteS4 s x upd).nextId = s.nextId
    rw [h4n, h3n]
    exact Dn
  · show (deleteS4 s x upd).header = s.header
    rw [h4h, h3h]
    exact Dh
  · show (deleteS4 s x upd).level = _
    rw [h4l, h3l]
    show shrinkLevel (deleteS1 s x upd) (deleteS1 s x upd).level = _
    rw [Dl]
  · show (deleteS4 s x upd).length - 1 = s.length - 1
    rw [h4len, h3len]
    have : (deleteS2 s x upd).length = (deleteS1 s x upd).length := rfl
    rw [this, Dlen]
  · show (deleteS4 s x upd).isArena = s.isArena
    rw [h4a, h3a]
    exact Da
  · intro i hi h
    obtain ⟨E1, E2⟩ := ((Dsl i (by omega)).1) h
    exact ⟨(hfs _ i (hux i)).trans E1, (hss _ i (hux i)).trans E2⟩
  · intro i hi h1 h2
    obtain ⟨E1, E2⟩ := ((Dsl i (by omega)).2.1) h1 h2
    exact ⟨(hfs _ i (hux i)).trans E1, (hss _ i (hux i)).trans E2⟩
  · intro i hi h
    obtain ⟨E1, E2⟩ := ((Dsl i (by omega)).2.2) h
    exact ⟨(hfs _ i (hux i)).trans E1, (hss _ i (hux i)).trans E2⟩
  · intro y i hy1 hy2
    obtain ⟨E1, E2⟩ := Dfr y i (fun hlt => hy2 (by omega))
    exact ⟨(hfs y i hy1).trans E1, (hss y i hy1).trans E2⟩
  · intro nxt hn hnx
    rw [h5store, h4oth nxt hnx, h3bn nxt hn, h2store]
    exact (Dm x).2.2.1
  · intro y hy1 hy2
    rw [h5store, h4oth y hy1, h3bo y hy2, h2store]
    exact (Dm y).2.2.1
  · intro y hy
    rw [h5store, h4oth y hy]
    obtain ⟨m1, m2, m3, m4⟩ := h3m y
    rw [m1, m2, m3, m4, h2store]
    obtain ⟨b1, b2, _, b4, b5⟩ := Dm y
    exact ⟨b1, b2, b4, b5⟩
  · intro y
    rw [h5store, h4lf y, (h3m y).2.2.1, h2store]
    exact (Dm y).2.2.2.1
  · intro i
    rw [hfs s.header i hhx]

lemma foldl_deleteStep_header (x : Nat) (upd : Nat → Nat) :
    ∀ (L : List Nat) (st : SkipList),
      (L.foldl (deleteStep x upd) st).header = st.header := by
  intro L
  induction L with
  | nil => intro st; rfl
  | cons a L ih =>
      intro st
      rw [List.foldl_cons, ih (deleteStep x upd st a)]
      exact (deleteStep_facts x upd st a).2.2.2.2.1

lemma deleteS1_header (s : SkipList) (x : Nat) (upd : Nat → Nat) :
    (deleteS1 s x upd).header = s.header :=
  foldl_deleteStep_header x upd (List.range (s.level + 1)) s

/-- Unlinking the node found by the walk preserves the invariant: the new
witness list is the old one with that node removed, the length drops by
one, and every other node keeps its key and value. -/
lemma inv_deleteNode {s : SkipList} {C : List Nat} (hInv : Inv s C)
    (k : Int) (c : Nat) (hc : fwd s (updateI s k 0) 0 = some c)
    (hck : key s c = k) :
    Inv (deleteNode s c (fun i => updateI s k i))
      (C.takeWhile (fun x => decide (key s x < k)) ++
        (C.dropWhile (fun x => decide (key s x < k))).tail) ∧
    (deleteNode s c (fun i => updateI s k i)).nextId = s.nextId ∧
    (deleteNode s c (fun i => updateI s k i)).length = s.length - 1 ∧
    (∀ y, y ≠ c →
      key (deleteNode s c (fun i => updateI s k i)) y = key s y ∧
      value (deleteNode s c (fun i => updateI s k i)) y = value s y) ∧
    c ∈ C ∧
    C.dropWhile (fun x => decide (key s x < k))
      = c :: (C.dropWhile (fun x => decide (key s x < k))).tail := by
  have hhdrC : s.header ∉ C := by
    have := hInv.nodupC
    rw [List.nodup_cons] at this
    exact this.1
  have hndC : C.Nodup := by
    have := hInv.nodupC
    rw [List.nodup_cons] at this
    exact this.2
  have hhead : (C.dropWhile (fun x => decide (key s x < k))).head?
      = some c := by
    rw [← (update0_spec hInv k).2]
    exact hc
  have hS0cons : C.dropWhile (fun x => decide (key s x < k))
      = c :: (C.dropWhile (fun x => decide (key s x < k))).tail := by
    cases hd : C.dropWhile (fun x => decide (key s x < k)) with
    | nil => rw [hd] at hhead; simp at hhead
    | cons a t =>
        rw [hd] at hhead
        simp at hhead
        rw [hhead]
        rfl
  have hA0C : ∀ x ∈ C.takeWhile (fun x => decide (key s x < k)), x ∈ C :=
    fun x hx => (List.takeWhile_sublist _).mem hx
  have hS0C : ∀ x ∈ C.dropWhile (fun x => decide (key s x < k)), x ∈ C :=
    fun x hx => (List.dropWhile_sublist _).mem hx
  have hTd : ∀ x ∈ (C.dropWhile (fun x => decide (key s x < k))).tail,
      x ∈ C.dropWhile (fun x => decide (key s x < k)) := by
    intro x hx
    rw [hS0cons]
    exact List.mem_cons_of_mem c hx
  have hcC : c ∈ C := hS0C c (by rw [hS0cons]; simp)
  have hA0k : ∀ x ∈ C.takeWhile (fun x => decide (key s x < k)),
      key s x < k :=
    fun x hx => by simpa using List.mem_takeWhile_imp hx
  have hndS0 : (c :: (C.dropWhile (fun x => decide (key s x < k))).tail).Nodup
      := by
    rw [← hS0cons]
    exact hndC.sublist (List.dropWhile_sublist _)
  have hcT : c ∉ (C.dropWhile (fun x => decide (key s x < k))).tail := by
    have := hndS0
    rw [List.nodup_cons] at this
    exact this.1
  have hCsplit2 : C = C.takeWhile (fun x => decide (key s x < k)) ++
      C.dropWhile (fun x => decide (key s x < k)) :=
    (List.takeWhile_append_dropWhile _ _).symm
  have hdisjAS : ∀ {A B : List Nat}, C = A ++ B → ∀ x ∈ A, x ∉ B := by
    intro A B hAB x hxA hxB
    have hnd := hndC
    rw [hAB] at hnd
    exact List.disjoint_of_nodup_append hnd hxA hxB
  have hA0ne : ∀ x ∈ C.takeWhile (fun x => decide (key s x < k)), x ≠ c := by
    intro x hx hcon
    have := hA0k x hx
    rw [hcon, hck] at this
    omega
  have hTne : ∀ x ∈ (C.dropWhile (fun x => decide (key s x < k))).tail,
      x ≠ c := by
    intro x hx hcon
    exact hcT (hcon ▸ hx)
  have hupdMemK : ∀ i, updateI s k i = s.header ∨
      (updateI s k i ∈ C ∧ key s (updateI s k i) < k) := by
    intro i
    by_cases hi : i ≤ s.level
    · obtain ⟨A, S, h1, h2, h3, h4, h5, h6⟩ := walk_spec hInv k i hi
      rcases h4 with ⟨hhd, _⟩ | hlast
      · exact Or.inl hhd
      · have hmA := List.mem_of_getLast?_eq_some hlast
        exact Or.inr ⟨by rw [h1]; exact List.mem_append_left S hmA,
          h3 _ hmA⟩
    · left
      rw [updateI, if_neg hi]
  have hhc : s.header ≠ c := fun hcon => hhdrC (hcon ▸ hcC)
  have hub' : ∀ m, updateI s k m ≠ c := by
    intro m
    rcases hupdMemK m with h | ⟨_, hklt⟩
    · rw [h]; exact hhc
    · intro hcon
      rw [hcon, hck] at hklt
      omega
  have hupdH : ∀ i, i ≤ s.level →
      (updateI s k i = s.header ∨ i < height s (updateI s k i)) := by
    intro i hi
    obtain ⟨A, S, h1, h2, h3, h4, h5, h6⟩ := walk_spec hInv k i hi
    exact h5
  have hhH : (s.store s.header).forward.length = MaxLevel := hInv.hdrH
  have hhS : (s.store s.header).span.length = MaxLevel := hInv.hdrSpanLen
  have hrange : ∀ m, m < s.level + 1 →
      fwd s (updateI s k m) m ≠ none →
      m < (s.store (updateI s k m)).forward.length ∧
      m < (s.store (updateI s k m)).span.length := by
    intro m hm _
    have hmax : m < MaxLevel := by
      have := hInv.levelLt
      omega
    rcases hupdH m (by omega) with h | h
    · rw [h, hhH, hhS]
      exact ⟨hmax, hmax⟩
    · rcases hupdMemK m with hh | ⟨hh, _⟩
      · rw [hh, hhH, hhS]
        exact ⟨hmax, hmax⟩
      · rw [(hInv.nodeH _ hh).2.2]
        exact ⟨h, h⟩
  obtain ⟨d1, d2, d3, d4, d5, d6, d7, d8, d9, d10, d11, d12, d13, d14⟩ :=
    deleteNode_facts s c (fun i => updateI s k i) hub' hhc hrange
  have hheightAll : ∀ y, height (deleteNode s c (fun i => updateI s k i)) y
      = height s y := d13
  have hkeyF : ∀ y, y ≠ c →
      key (deleteNode s c (fun i => updateI s k i)) y = key s y :=
    fun y hy => (d12 y hy).1
  have hC'sub : List.Sublist
      (C.takeWhile (fun x => decide (key s x < k)) ++
        (C.dropWhile (fun x => decide (key s x < k))).tail) C := by
    conv_rhs => rw [hCsplit2, hS0cons]
    exact List.Sublist.append_left
      (List.sublist_cons_self c _) _
  have hC'C : ∀ x ∈ C.takeWhile (fun x => decide (key s x < k)) ++
      (C.dropWhile (fun x => decide (key s x < k))).tail, x ∈ C :=
    fun x hx => hC'sub.mem hx
  have hC'ne : ∀ x ∈ C.takeWhile (fun x => decide (key s x < k)) ++
      (C.dropWhile (fun x => decide (key s x < k))).tail, x ≠ c := by
    intro x hx
    rcases List.mem_append.1 hx with hx | hx
    · exact hA0ne x hx
    · exact hTne x hx
  -- base-level link out of the deleted node
  have hfwdc0 : fwd s c 0 =
      (C.dropWhile (fun x => decide (key s x < k))).tail.head? := by
    obtain ⟨A, M, hAM, hCd, hrkA, hlast, hMnc, hseg, hchain⟩ :=
      walk_decomp hInv k 0 (Nat.zero_le _)
    have hM0 : M = [] := by
      rcases hMcase : M with _ | ⟨m, M'⟩
      · rfl
      · exfalso
        have hmC : m ∈ C := by
          rw [hCd, hMcase]
          exact List.mem_append_left _ (List.mem_append_right A (by simp))
        exact hMnc m (by rw [hMcase]; simp) ((hInv.nodeH m hmC).1)
    subst hM0
    rw [List.nil_append, hS0cons] at hchain
    have hccell : 0 < height s c := (hInv.nodeH c hcC).1
    simp only [chainInv] at hchain
    rw [if_pos hccell] at hchain
    have hrest := hchain.2.2
    cases hT : (C.dropWhile (fun x => decide (key s x < k))).tail with
    | nil =>
        rw [hT] at hrest
        simpa [chainInv] using hrest
    | cons n0 t' =>
        rw [hT] at hrest
        have hn0C : n0 ∈ C := hS0C n0 (hTd n0 (by rw [hT]; simp))
        have hn0cell : 0 < height s n0 := (hInv.nodeH n0 hn0C).1
        simp only [chainInv] at hrest
        rw [if_pos hn0cell] at hrest
        rw [hrest.1]
        rfl
  -- the per-level chains of the new state
  have hchains' : ∀ i, i < MaxLevel →
      chainInv (deleteNode s c (fun i => updateI s k i)) i s.header 0
        (C.takeWhile (fun x => decide (key s x < k)) ++
          (C.dropWhile (fun x => decide (key s x < k))).tail) := by
    intro i hiMax
    by_cases hcase1 : i ≤ s.level
    · obtain ⟨A, M, hAM, hCd, hrkA, hlast, hMnc, hseg, hchain⟩ :=
        walk_decomp hInv k i hcase1
      have hAC : ∀ x ∈ A, x ∈ C := by
        intro x hx
        rw [hCd]
        exact List.mem_append_left _ (List.mem_append_left M hx)
      have hAk : ∀ x ∈ A, key s x < k := by
        intro x hx
        refine hA0k x ?_
        rw [hAM]
        exact List.mem_append_left M hx
      have hAne : ∀ x ∈ A, x ≠ c := by
        intro x hx hcon
        have := hAk x hx
        rw [hcon, hck] at this
        omega
      have hMne : ∀ x ∈ M, x ≠ c := by
        intro x hx hcon
        have : x ∈ C.takeWhile (fun x => decide (key s x < k)) := by
          rw [hAM]
          exact List.mem_append_right A hx
        have := hA0k x this
        rw [hcon, hck] at this
        omega
      have hApre : A ++ (M ++ C.dropWhile (fun x => decide (key s x < k)))
          = C := by
        rw [← List.append_assoc]
        exact hCd.symm
      have hndA : A.Nodup := hndC.sublist (List.IsPrefix.sublist ⟨_, hApre⟩)
      have hxneupd : ∀ x ∈ C.dropWhile (fun x => decide (key s x < k)),
          x ≠ updateI s k i := by
        intro x hx
        rcases hlast with ⟨hhd, _⟩ | hlast
        · rw [hhd]
          intro hcon
          exact hhdrC (hcon ▸ hS0C x hx)
        · intro hcon
          refine hdisjAS hApre.symm (updateI s k i)
            (List.mem_of_getLast?_eq_some hlast) ?_
          exact List.mem_append_right M (hcon ▸ hx)
      have hTneupd : ∀ x ∈ (C.dropWhile (fun x => decide (key s x < k))).tail,
          x ≠ updateI s k i := fun x hx => hxneupd x (hTd x hx)
      have hseg' : chainSeg (deleteNode s c (fun i => updateI s k i)) i
          s.header 0 A (updateI s k i) 0 := by
        refine chainSeg_congr hseg (fun hmem => hhdrC (hAC _ hmem)) hndA
          (fun x hx => hheightAll x) ?_
        intro x hx hxq
        refine d9 x i ?_ (fun _ => hxq)
        rcases hx with rfl | hx
        · exact hhc
        · exact hAne x hx
      rw [hS0cons] at hchain
      have hdropPre : chainInv s i (updateI s k i) ((M.length : Int))
          (c :: (C.dropWhile (fun x => decide (key s x < k))).tail) := by
        have := chainInv_drop_noncells M hMnc hchain
        rwa [show (0 : Int) + (M.length : Int) = (M.length : Int) by ring]
          at this
      have hC' : C.takeWhile (fun x => decide (key s x < k)) ++
          (C.dropWhile (fun x => decide (key s x < k))).tail
          = A ++ (M ++ (C.dropWhile (fun x => decide (key s x < k))).tail)
          := by
        rw [hAM, List.append_assoc]
      rw [hC']
      refine chainInv_append_build hseg' ?_
      refine chainInv_prepend_noncells M
        (fun x hx => by rw [hheightAll x]; exact hMnc x hx) ?_
      rw [show (0 : Int) + (M.length : Int) = (M.length : Int) by ring]
      by_cases hcell : i < height s c
      · -- the level passes through the deleted node
        have hdrop := hdropPre
        simp only [chainInv] at hdrop
        rw [if_pos hcell] at hdrop
        obtain ⟨hfc, hsp, hrest⟩ := hdrop
        obtain ⟨E1, E2⟩ := d6 i hcase1 hfc
        refine chainInv_transfer hrest (fun x hx => hheightAll x) E1 ?_ ?_
        · rw [E2, hsp]
          ring
        · intro x hx hxcell
          exact d9 x i (hTne x hx) (fun _ => hTneupd x hx)
      · -- the level passes above the deleted node
        have hfne : fwd s (updateI s k i) i ≠ some c := by
          intro hcon
          exact hcell (chainInv_fwd_some_cell hdropPre hcon).2
        have hdrop := hdropPre
        simp only [chainInv] at hdrop
        rw [if_neg hcell] at hdrop
        cases hfw : fwd s (updateI s k i) i with
        | none =>
            obtain ⟨E1, E2⟩ := d8 i hcase1 hfw
            refine chainInv_no_cells_build _ _ _ ?_ E1
            intro x hx hxcell
            rw [hheightAll x] at hxcell
            exact chainInv_fwd_none_no_cells hdropPre hfw x
              (List.mem_cons_of_mem c hx) hxcell
        | some d =>
            obtain ⟨E1, E2⟩ := d7 i hcase1 hfne (by rw [hfw]; simp)
            refine chainInv_transfer hdrop (fun x hx => hheightAll x)
              (by rw [E1]) ?_ ?_
            · rw [E2]
              ring
            · intro x hx hxcell
              exact d9 x i (hTne x hx) (fun _ => hTneupd x hx)
    · -- a level above the old list level: untouched and empty
      have hnocell : ∀ x ∈ C, ¬ i < height s x := by
        intro x hx hcellx
        have := (hInv.nodeH x hx).2.1
        omega
      refine chainInv_no_cells_build _ _ _ ?_ ?_
      · intro x hx
        rw [hheightAll x]
        exact hnocell x (hC'C x hx)
      · rw [(d9 s.header i hhc (fun hcon => absurd hcon (by omega))).1]
        exact chainInv_no_cells_inv (hInv.chains i hiMax) hnocell
  -- the shrunk level is tight
  have hlvl_none : ∀ i, (deleteNode s c (fun i => updateI s k i)).level < i →
      i ≤ s.level →
      fwd (deleteNode s c (fun i => updateI s k i)) s.header i = none := by
    intro i h1 h2
    rw [d14 i]
    rw [d3] at h1
    have := shrinkLevel_none (deleteS1 s c (fun i => updateI s k i))
      s.level i h1 h2
    rwa [deleteS1_header] at this
  refine ⟨⟨?_, ?_, ?_, ?_, ?_, ?_, ?_, ?_, ?_, ?_, ?_, ?_⟩, d1, d4,
    fun y hy => ⟨(d12 y hy).1, (d12 y hy).2.1⟩, hcC, hS0cons⟩
  · rw [d1, d2]
    exact hInv.hdrLt
  · rw [d2]
    refine (hInv.nodupC.sublist ?_)
    exact List.Sublist.cons₂ s.header hC'sub
  · intro x hx
    rw [d1]
    exact hInv.memLt x (hC'C x hx)
  · rw [d2, hheightAll]
    exact hInv.hdrH
  · rw [d2, (d12 s.header hhc).2.2.2]
    exact hInv.hdrSpanLen
  · intro x hx
    have hxC := hC'C x hx
    have hxne := hC'ne x hx
    obtain ⟨n1, n2, n3⟩ := hInv.nodeH x hxC
    refine ⟨by rw [hheightAll]; exact n1, ?_,
      by rw [hheightAll, (d12 x hxne).2.2.2]; exact n3⟩
    rw [hheightAll]
    by_contra hbig
    have hi0 : (deleteNode s c (fun i => updateI s k i)).level
        < height s x - 1 := by omega
    have hi0le : height s x - 1 ≤ s.level := by omega
    have hi0max : height s x - 1 < MaxLevel := by
      have := hInv.levelLt
      omega
    have hnone := hlvl_none (height s x - 1) hi0 hi0le
    have := chainInv_fwd_none_no_cells (hchains' (height s x - 1) hi0max)
      hnone x hx
    rw [hheightAll] at this
    omega
  · refine pairwise_key_congr (hInv.sorted.sublist hC'sub) ?_
    intro x hx
    exact hkeyF x (hC'ne x hx)
  · rw [d4, hInv.lenEq]
    have hlenC : C.length =
        (C.takeWhile (fun x => decide (key s x < k))).length +
        (1 + (C.dropWhile (fun x => decide (key s x < k))).tail.length) := by
      conv_lhs => rw [hCsplit2, hS0cons]
      simp only [List.length_append, List.length_cons]
      omega
    rw [List.length_append, hlenC]
    push_cast
    ring
  · rw [d3]
    have h1 := shrinkLevel_le (deleteS1 s c (fun i => updateI s k i)) s.level
    have h2 := hInv.levelLt
    omega
  · rcases shrinkLevel_pos (deleteS1 s c (fun i => updateI s k i)) s.level
        with h | h
    · left
      rw [d3]
      exact h
    · right
      rw [deleteS1_header] at h
      have hmax : shrinkLevel (deleteS1 s c (fun i => updateI s k i))
          s.level < MaxLevel := by
        have h1 := shrinkLevel_le (deleteS1 s c (fun i => updateI s k i))
          s.level
        have h2 := hInv.levelLt
        omega
      have hne : fwd (deleteNode s c (fun i => updateI s k i)) s.header
          (shrinkLevel (deleteS1 s c (fun i => updateI s k i)) s.level)
          ≠ none := by
        rw [d14]
        exact h
      cases hfw : fwd (deleteNode s c (fun i => updateI s k i)) s.header
          (shrinkLevel (deleteS1 s c (fun i => updateI s k i)) s.level) with
      | none => exact absurd hfw hne
      | some d =>
          obtain ⟨hdmem, hdcell⟩ :=
            chainInv_fwd_some_cell (hchains' _ hmax) hfw
          exact ⟨d, hdmem, by rw [d3]; exact hdcell⟩
  · intro i hiMax
    rw [d2]
    exact hchains' i hiMax
  · rw [d2]
    have hCb := hInv.backs
    rw [hCsplit2, hS0cons] at hCb
    obtain ⟨hbA, hbct⟩ := backInv_append_destruct hCb
    refine backInv_append_build ?_ ?_
    · refine backInv_congr_on hbA ?_
      intro x hx
      refine d11 x (hA0ne x hx) ?_
      rw [hfwdc0]
      cases hh : (C.dropWhile (fun x => decide (key s x < k))).tail.head?
          with
      | none => simp
      | some n0 =>
          have hn0T : n0 ∈ (C.dropWhile (fun x => decide (key s x < k))).tail
              := List.mem_of_mem_head? hh
          intro hcon
          injection hcon with hcon
          subst hcon
          exact hdisjAS hCsplit2 n0 hx (hTd n0 hn0T)
    · cases hT : (C.dropWhile (fun x => decide (key s x < k))).tail with
      | nil => trivial
      | cons n0 t' =>
          have hbct' := hbct
          rw [hT] at hbct'
          have hn0T : n0 ∈ (C.dropWhile (fun x => decide (key s x < k))).tail
              := by rw [hT]; simp
          refine ⟨?_, ?_⟩
          · rw [d10 n0 (by rw [hfwdc0, hT]; rfl) (hTne n0 hn0T)]
            exact hbct'.1
          · refine backInv_congr_on hbct'.2.2 ?_
            intro x hx
            have hxT : x ∈ (C.dropWhile (fun x => decide (key s x < k))).tail
                := by rw [hT]; exact List.mem_cons_of_mem n0 hx
            refine d11 x (hTne x hxT) ?_
            rw [hfwdc0, hT]
            intro hcon
            injection hcon with hcon
            have hndT : (n0 :: t').Nodup := by
              rw [← hT]
              have := hndS0
              rw [List.nodup_cons] at this
              exact this.2
            rw [List.nodup_cons] at hndT
            exact hndT.1 (by rw [hcon]; exact hx)

/-- `Clear` yields a well-formed empty list. -/
lemma inv_clear {s : SkipList} {C : List Nat} (hInv : Inv s C) :
    Inv (Clear s) [] := by
  have hstore : (Clear s).store (Clear s).header =
      { s.store s.header with
        forward := (s.store s.header).forward.map (fun _ => none) } := by
    simp [Clear, setStore]
  have hfwd : ∀ i, fwd (Clear s) (Clear s).header i = none := by
    intro i
    show (((Clear s).store (Clear s).header).forward.get? i).getD none = none
    rw [hstore]
    simp only [List.get?_eq_getElem?, List.getElem?_map]
    cases (s.store s.header).forward[i]? <;> rfl
  refine ⟨hInv.hdrLt, by simp, by simp, ?_, ?_, by simp, by simp, rfl, ?_,
    Or.inl rfl, ?_, trivial⟩
  · show ((Clear s).store (Clear s).header).forward.length = MaxLevel
    rw [hstore]
    simpa using hInv.hdrH
  · show ((Clear s).store (Clear s).header).span.length = MaxLevel
    rw [hstore]
    exact hInv.hdrSpanLen
  · show (0 : Nat) < MaxLevel
    decide
  · intro i _
    show fwd (Clear s) (Clear s).header i = none
    exact hfwd i

/-- Overwriting the value of a stored node preserves the invariant with the
same witness list. -/
lemma inv_setValue {s : SkipList} {C : List Nat} (hInv : Inv s C) (c : Nat)
    (v : Int) :
    Inv { s with store := setStore s.store c { s.store c with value := v } }
      C := by
  set s2 : SkipList :=
    { s with store := setStore s.store c { s.store c with value := v } }
    with hs2
  have hh : ∀ x, height s2 x = height s x := by
    intro x
    show (s2.store x).forward.length = (s.store x).forward.length
    by_cases hx : x = c <;> simp [hs2, hx, setStore]
  have hfw : ∀ x i, fwd s2 x i = fwd s x i := by
    intro x i
    show ((s2.store x).forward.get? i).getD none = _
    by_cases hx : x = c <;> simp [hs2, hx, setStore, fwd, node.fwdN]
  have hsp : ∀ x i, spn s2 x i = spn s x i := by
    intro x i
    show ((s2.store x).span.get? i).getD 0 = _
    by_cases hx : x = c <;> simp [hs2, hx, setStore, spn, node.spnN]
  have hk : ∀ x, key s2 x = key s x := by
    intro x
    show (s2.store x).key = (s.store x).key
    by_cases hx : x = c <;> simp [hs2, hx, setStore]
  have hb : ∀ x, (s2.store x).backward = (s.store x).backward := by
    intro x
    by_cases hx : x = c <;> simp [hs2, hx, setStore]
  have hsl : ∀ x, (s2.store x).span.length = (s.store x).span.length := by
    intro x
    by_cases hx : x = c <;> simp [hs2, hx, setStore]
  refine ⟨hInv.hdrLt, hInv.nodupC, hInv.memLt, ?_, ?_, ?_, ?_, hInv.lenEq,
    hInv.levelLt, ?_, ?_, ?_⟩
  · rw [hh]; exact hInv.hdrH
  · rw [hsl]; exact hInv.hdrSpanLen
  · intro x hx
    rw [hh, hsl]
    exact hInv.nodeH x hx
  · refine hInv.sorted.imp ?_
    intro a b hab
    rw [hk, hk]
    exact hab
  · rcases hInv.levelOk with h | ⟨x, hx, hhx⟩
    · exact Or.inl h
    · exact Or.inr ⟨x, hx, by rw [hh]; exact hhx⟩
  · intro i hi
    exact chainInv_congr hh (fun x => hfw x i) (fun x => hsp x i) C s.header 0
      (hInv.chains i hi)
  · exact backInv_congr hb C s.header hInv.backs

/-- `Insert` preserves the invariant: a fresh key is placed at its sorted
position with a `none` handle, an existing key has its value overwritten
in place with the node as handle. -/
lemma inv_Insert {s : SkipList} {C : List Nat} (hInv : Inv s C) (k v : Int)
    (w : Nat) :
    (k ∉ C.map (key s) →
      Insert s k v w = insertNew s k v w ∧
      Inv (Insert s k v w).1
        (C.takeWhile (fun x => decide (key s x < k)) ++
          s.nextId :: C.dropWhile (fun x => decide (key s x < k))) ∧
      (Insert s k v w).2 = none) ∧
    (k ∈ C.map (key s) →
      ∃ c, c ∈ C ∧ key s c = k ∧
        (Insert s k v w).1 = { s with store := setStore s.store c { s.store c with value := v } } ∧
        (Insert s k v w).2 = some c ∧
        Inv (Insert s k v w).1 C) := by
  have hfwd00 : fwd s (updateI s k 0) 0 =
      (C.dropWhile (fun x => decide (key s x < k))).head? :=
    (update0_spec hInv k).2
  constructor
  · intro hknot
    have hIeq : Insert s k v w = insertNew s k v w := by
      cases hh : fwd s (updateI s k 0) 0 with
      | none => simp only [Insert, hh]
      | some c =>
          have hcmem : c ∈ C := by
            rw [hfwd00] at hh
            exact (List.dropWhile_sublist _).mem (List.mem_of_mem_head? hh)
          have hck : key s c ≠ k := by
            intro hcon
            exact hknot (hcon ▸ List.mem_map_of_mem _ hcmem)
          have hcmp : ¬ cmpInt (key s c) k = 0 := by
            rw [cmpInt_eq_iff]
            exact hck
          simp only [Insert, hh, if_neg hcmp]
    obtain ⟨hi1, hi2, _, _, _⟩ := inv_insertNew hInv k v w hknot
    rw [hIeq]
    exact ⟨rfl, hi1, hi2⟩
  · intro hkmem
    obtain ⟨c, hhead, hck⟩ := (sorted_key_mem C hInv.sorted k).1 hkmem
    have hcmem : c ∈ C := by
      rw [← hfwd00] at hhead
      rw [hfwd00] at hhead
      exact (List.dropWhile_sublist _).mem (List.mem_of_mem_head? hhead)
    have hfc : fwd s (updateI s k 0) 0 = some c := by
      rw [hfwd00]
      exact hhead
    have hcmp : cmpInt (key s c) k = 0 := (cmpInt_eq_iff _ _).2 hck
    have hIeq : Insert s k v w = ({ s with store := setStore s.store c { s.store c with value := v } }, some c) := by
      simp only [Insert, hfc, if_pos hcmp]
    refine ⟨c, hcmem, hck, ?_, ?_, ?_⟩
    · rw [hIeq]
    · rw [hIeq]
    · rw [hIeq]
      exact inv_setValue hInv c v

/-- `Delete` preserves the invariant: an absent key leaves the state
untouched with a `false` result, a stored key has its node unlinked. -/
lemma inv_Delete {s : SkipList} {C : List Nat} (hInv : Inv s C) (k : Int) :
    (k ∉ C.map (key s) → Delete s k = (s, false)) ∧
    (k ∈ C.map (key s) →
      ∃ c, c ∈ C ∧ key s c = k ∧
        (Delete s k).2 = true ∧
        Inv (Delete s k).1
          (C.takeWhile (fun x => decide (key s x < k)) ++
            (C.dropWhile (fun x => decide (key s x < k))).tail) ∧
        (Delete s k).1.nextId = s.nextId ∧
        (Delete s k).1.length = s.length - 1 ∧
        (∀ y, y ≠ c → key (Delete s k).1 y = key s y ∧
          value (Delete s k).1 y = value s y) ∧
        C.dropWhile (fun x => decide (key s x < k))
          = c :: (C.dropWhile (fun x => decide (key s x < k))).tail) := by
  have hfwd00 : fwd s (updateI s k 0) 0 =
      (C.dropWhile (fun x => decide (key s x < k))).head? :=
    (update0_spec hInv k).2
  constructor
  · intro hknot
    cases hh : fwd s (updateI s k 0) 0 with
    | none => simp only [Delete, hh]
    | some c =>
        have hcmem : c ∈ C := by
          rw [hfwd00] at hh
          exact (List.dropWhile_sublist _).mem (List.mem_of_mem_head? hh)
        have hck : key s c ≠ k := by
          intro hcon
          exact hknot (hcon ▸ List.mem_map_of_mem _ hcmem)
        have hcmp : ¬ cmpInt (key s c) k = 0 := by
          rw [cmpInt_eq_iff]
          exact hck
        simp only [Delete, hh, if_neg hcmp]
  · intro hkmem
    obtain ⟨c, hhead, hck⟩ := (sorted_key_mem C hInv.sorted k).1 hkmem
    have hfc : fwd s (updateI s k 0) 0 = some c := by
      rw [hfwd00]
      exact hhead
    have hcmp : cmpInt (key s c) k = 0 := (cmpInt_eq_iff _ _).2 hck
    have hDeq : Delete s k =
        (deleteNode s c (fun i => updateI s k i), true) := by
      simp only [Delete, hfc, if_pos hcmp]
    obtain ⟨g1, g2, g3, g4, g5, g6⟩ := inv_deleteNode hInv k c hfc hck
    refine ⟨c, g5, hck, ?_, ?_, ?_, ?_, ?_, g6⟩ <;> rw [hDeq]
    · exact g1
    · exact g2
    · exact g3
    · exact g4

lemma deleteStep_congr (x : Nat) (u1 u2 : Nat → Nat) (st : SkipList)
    (i : Nat) (h : u1 i = u2 i) :
    deleteStep x u1 st i = deleteStep x u2 st i := by
  simp only [deleteStep, h]

/-- `deleteNode` only reads the update path at levels up to the list
level. -/
lemma deleteNode_congr (s : SkipList) (x : Nat) (u1 u2 : Nat → Nat)
    (h : ∀ i, i ≤ s.level → u1 i = u2 i) :
    deleteNode s x u1 = deleteNode s x u2 := by
  have hS1 : deleteS1 s x u1 = deleteS1 s x u2 := by
    show (List.range (s.level + 1)).foldl (deleteStep x u1) s = _
    have hfold : ∀ (L : List Nat) (st : SkipList), (∀ i ∈ L, u1 i = u2 i) →
        L.foldl (deleteStep x u1) st = L.foldl (deleteStep x u2) st := by
      intro L
      induction L with
      | nil => intro st _; rfl
      | cons a L ih =>
          intro st hL
          rw [List.foldl_cons, List.foldl_cons,
            deleteStep_congr x u1 u2 st a (hL a (by simp)),
            ih (deleteStep x u2 st a) (fun i hi => hL i (by simp [hi]))]
    refine hfold _ s ?_
    intro i hi
    rw [List.mem_range] at hi
    exact h i (by omega)
  have hS2 : deleteS2 s x u1 = deleteS2 s x u2 := by
    simp only [deleteS2, hS1]
  have hS3 : deleteS3 s x u1 = deleteS3 s x u2 := by
    simp only [deleteS3, hS2]
  have hS4 : deleteS4 s x u1 = deleteS4 s x u2 := by
    simp only [deleteS4, hS3]
  simp only [deleteNode, hS4]

/-- The chain after any cursor position, from the invariant. -/
lemma chainInv_at_cursor {s : SkipList} {C : List Nat} (hInv : Inv s C)
    {i cur : Nat} {A S : List Nat} (hi : i < MaxLevel) (hC : C = A ++ S)
    (hcur : (cur = s.header ∧ A = []) ∨ A.getLast? = some cur)
    (hcell : cur = s.header ∨ i < height s cur) :
    chainInv s i cur 0 S := by
  rcases hcur with ⟨rfl, rfl⟩ | h4
  · have hc := hInv.chains i hi
    rw [hC] at hc
    simpa using hc
  · obtain ⟨ys, rfl⟩ := List.getLast?_eq_some_iff.1 h4
    have hcell2 : i < height s cur := by
      rcases hcell with rfl | h5
      · rw [hInv.hdrH]; exact hi
      · exact h5
    have hc := hInv.chains i hi
    rw [hC, List.append_assoc, List.singleton_append] at hc
    exact chainInv_suffix s i ys S s.header 0 cur hc hcell2

/-- The always-forward inner loop consumes a chain segment ending at the
last level-`i` cell and leaves a cell-free remainder. -/
lemma advanceMax_pos (s : SkipList) (i : Nat) :
    ∀ (S : List Nat) (p : Nat) (g : Int) (fuel : Nat),
      chainInv s i p g S → S.length < fuel →
      ∃ D R, S = D ++ R ∧
        ((advanceMax s i fuel p = p ∧ D = []) ∨
          D.getLast? = some (advanceMax s i fuel p)) ∧
        (advanceMax s i fuel p = p ∨
          i < height s (advanceMax s i fuel p)) ∧
        (∀ x ∈ R, ¬ i < height s x) := by
  intro S
  induction S with
  | nil =>
      intro p g fuel hc hf
      obtain ⟨f, rfl⟩ : ∃ f, fuel = f + 1 := ⟨fuel - 1, by omega⟩
      have hnone : fwd s p i = none := hc
      have hstop : advanceMax s i (f + 1) p = p := by
        simp [advanceMax, hnone]
      exact ⟨[], [], rfl, Or.inl ⟨hstop, rfl⟩, Or.inl hstop, by simp⟩
  | cons x rest ih =>
      intro p g fuel hc hf
      obtain ⟨f, rfl⟩ : ∃ f, fuel = f + 1 := ⟨fuel - 1, by omega⟩
      simp only [chainInv] at hc
      by_cases hcell : i < height s x
      · rw [if_pos hcell] at hc
        obtain ⟨hfw, hsp, hrest⟩ := hc
        have hstep : advanceMax s i (f + 1) p = advanceMax s i f x := by
          simp [advanceMax, hfw]
        obtain ⟨D, R, hsplit, hl, hcel, hnoc⟩ :=
          ih x 0 f hrest (by simp at hf; omega)
        have hres : advanceMax s i f x = x ∨
            i < height s (advanceMax s i f x) := hcel
        have hrescell : i < height s (advanceMax s i (f + 1) p) := by
          rw [hstep]
          rcases hres with hx | hx
          · rw [hx]; exact hcell
          · exact hx
        rcases hl with ⟨hr, hD⟩ | hl
        · subst hD
          refine ⟨[x], R, by simpa using hsplit, ?_, Or.inr hrescell, hnoc⟩
          right
          rw [hstep, hr]
          rfl
        · have hne : D ≠ [] := by
            intro hcon
            rw [hcon] at hl
            simp at hl
          refine ⟨x :: D, R, by rw [hsplit]; rfl, ?_, Or.inr hrescell, hnoc⟩
          right
          rw [hstep, getLast?_cons_of_ne x D hne]
          exact hl
      · rw [if_neg hcell] at hc
        obtain ⟨D, R, hsplit, hl, hcel, hnoc⟩ :=
          ih p (g + 1) (f + 1) hc (by simp at hf; omega)
        rcases hl with ⟨hr, hD⟩ | hl
        · subst hD
          refine ⟨[], x :: R, by simpa using hsplit, Or.inl ⟨hr, rfl⟩, hcel,
            ?_⟩
          intro y hy
          rcases List.mem_cons.1 hy with rfl | hy
          · exact hcell
          · exact hnoc y hy
        · have hne : D ≠ [] := by
            intro hcon
            rw [hcon] at hl
            simp at hl
          refine ⟨x :: D, R, by rw [hsplit]; rfl, ?_, hcel, hnoc⟩
          right
          rw [getLast?_cons_of_ne x D hne]
          exact hl

lemma cursor_append {A D : List Nat} {hd cur r : Nat}
    (hcur : (cur = hd ∧ A = []) ∨ A.getLast? = some cur)
    (hl : (r = cur ∧ D = []) ∨ D.getLast? = some r) :
    (r = hd ∧ A ++ D = []) ∨ (A ++ D).getLast? = some r := by
  rcases hl with ⟨hr, hD⟩ | hl
  · subst hD
    rw [List.append_nil]
    rcases hcur with ⟨hh, hA⟩ | hA
    · exact Or.inl ⟨hr.trans hh, hA⟩
    · right
      rw [hr]
      exact hA
  · right
    rw [List.getLast?_append]
    simp [hl]

/-- The descending rightmost walk ends at the last base node. -/
lemma descendMax_pos {s : SkipList} {C : List Nat} (hInv : Inv s C) :
    ∀ (d : Nat) (cur : Nat) (A S : List Nat), d ≤ s.level →
      C = A ++ S →
      ((cur = s.header ∧ A = []) ∨ A.getLast? = some cur) →
      (cur = s.header ∨ d < height s cur) →
      ∃ A2 S2, C = A2 ++ S2 ∧
        ((descendMax s d cur = s.header ∧ A2 = []) ∨
          A2.getLast? = some (descendMax s d cur)) ∧
        (∀ x ∈ S2, ¬ 0 < height s x) := by
  intro d
  induction d with
  | zero =>
      intro cur A S hd hC hcur hcell
      have hchain : chainInv s 0 cur 0 S :=
        chainInv_at_cursor hInv (by decide) hC hcur hcell
      have hlen : S.length < s.nextId := by
        have h1 := length_lt_nextId hInv
        rw [hC, List.length_append] at h1
        omega
      obtain ⟨D, R, hsplit, hl, hcel, hnoc⟩ :=
        advanceMax_pos s 0 S cur 0 s.nextId hchain hlen
      have hD0 : descendMax s 0 cur = advanceMax s 0 s.nextId cur := rfl
      refine ⟨A ++ D, R, by rw [hC, hsplit, List.append_assoc], ?_, hnoc⟩
      rw [hD0]
      exact cursor_append hcur hl
  | succ d ih =>
      intro cur A S hd hC hcur hcell
      have hchain : chainInv s (d + 1) cur 0 S :=
        chainInv_at_cursor hInv (lt_of_le_of_lt hd hInv.levelLt) hC hcur
          hcell
      have hlen : S.length < s.nextId := by
        have h1 := length_lt_nextId hInv
        rw [hC, List.length_append] at h1
        omega
      obtain ⟨D, R, hsplit, hl, hcel, hnoc⟩ :=
        advanceMax_pos s (d + 1) S cur 0 s.nextId hchain hlen
      have hstep : descendMax s (d + 1) cur
          = descendMax s d (advanceMax s (d + 1) s.nextId cur) := rfl
      rw [hstep]
      refine ih (advanceMax s (d + 1) s.nextId cur) (A ++ D) R (by omega)
        (by rw [hC, hsplit, List.append_assoc]) (cursor_append hcur hl) ?_
      rcases hcel with hx | hx
      · rw [hx]
        rcases hcell with hh | hh
        · exact Or.inl hh
        · right
          omega
      · right
        omega

/-- `lastNode` is the last stored node (the header on an empty list). -/
lemma lastNode_spec {s : SkipList} {C : List Nat} (hInv : Inv s C) :
    lastNode s = C.getLast?.getD s.header := by
  obtain ⟨A2, S2, hC, hcur, hnoc⟩ :=
    descendMax_pos hInv s.level s.header [] C le_rfl (by simp)
      (Or.inl ⟨rfl, rfl⟩) (Or.inl rfl)
  have hS2nil : S2 = [] := by
    cases hS2 : S2 with
    | nil => rfl
    | cons a t =>
        exfalso
        have haC : a ∈ C := by
          rw [hC, hS2]
          exact List.mem_append_right _ (by simp)
        exact hnoc a (by rw [hS2]; simp) ((hInv.nodeH a haC).1)
  subst hS2nil
  rw [List.append_nil] at hC
  subst hC
  rcases hcur with ⟨hh, hA⟩ | hA
  · rw [hA]
    exact hh
  · rw [hA]
    rfl

/-- `PopMin` preserves the invariant: it removes the head node of the base
list and reports its pair. -/
lemma inv_PopMin {s : SkipList} {C : List Nat} (hInv : Inv s C) :
    (C = [] → PopMin s = (s, none)) ∧
    (∀ c rest, C = c :: rest →
      (PopMin s).2 = some (key s c, value s c) ∧
      Inv (PopMin s).1 rest ∧
      (PopMin s).1.nextId = s.nextId ∧
      (PopMin s).1.length = s.length - 1 ∧
      (∀ y, y ≠ c → key (PopMin s).1 y = key s y ∧
        value (PopMin s).1 y = value s y)) := by
  constructor
  · intro hC
    have hlen : s.length = 0 := by
      rw [hInv.lenEq, hC]
      rfl
    simp only [PopMin, if_pos hlen]
  · intro c rest hC
    have hlen : ¬ s.length = 0 := by
      intro hcon
      rw [hInv.lenEq, hC] at hcon
      simp only [List.length_cons] at hcon
      push_cast at hcon
      omega
    have hcC : c ∈ C := by rw [hC]; simp
    have hccell : 0 < height s c := (hInv.nodeH c hcC).1
    have hfwd0 : fwd s s.header 0 = some c := by
      have hch := hInv.chains 0 (by decide)
      rw [hC] at hch
      simp only [chainInv] at hch
      rw [if_pos hccell] at hch
      exact hch.1
    have hPeq : PopMin s = (deleteNode s c (fun _ => s.header),
        some (key s c, value s c)) := by
      simp only [PopMin, if_neg hlen, hfwd0]
    have htake : C.takeWhile (fun x => decide (key s x < key s c)) = [] := by
      rw [hC, List.takeWhile_cons]
      simp
    have hdrop : C.dropWhile (fun x => decide (key s x < key s c)) = C := by
      rw [hC, List.dropWhile_cons]
      simp
    have hupdhdr : ∀ i, i ≤ s.level →
        updateI s (key s c) i = s.header := by
      intro i hi
      obtain ⟨A, M, hAM, _, _, hlast, _, _, _⟩ :=
        walk_decomp hInv (key s c) i hi
      have hA : A = [] := by
        have hAM0 : A ++ M = [] := by rw [← hAM, htake]
        exact (List.append_eq_nil.1 hAM0).1
      rcases hlast with ⟨hh, _⟩ | hlast
      · exact hh
      · rw [hA] at hlast
        simp at hlast
    have hcongr : deleteNode s c (fun _ => s.header)
        = deleteNode s c (fun i => updateI s (key s c) i) :=
      deleteNode_congr s c _ _ (fun i hi => (hupdhdr i hi).symm)
    have hfc : fwd s (updateI s (key s c) 0) 0 = some c := by
      rw [hupdhdr 0 (Nat.zero_le _)]
      exact hfwd0
    obtain ⟨g1, g2, g3, g4, _, _⟩ := inv_deleteNode hInv (key s c) c hfc rfl
    have hrest : C.takeWhile (fun x => decide (key s x < key s c)) ++
        (C.dropWhile (fun x => decide (key s x < key s c))).tail = rest := by
      rw [htake, hdrop, hC]
      rfl
    rw [hrest] at g1
    rw [hPeq]
    refine ⟨rfl, ?_, ?_, ?_, ?_⟩
    · show Inv (deleteNode s c (fun _ => s.header)) rest
      rw [hcongr]
      exact g1
    · show (deleteNode s c (fun _ => s.header)).nextId = s.nextId
      rw [hcongr]
      exact g2
    · show (deleteNode s c (fun _ => s.header)).length = s.length - 1
      rw [hcongr]
      exact g3
    · intro y hy
      show key (deleteNode s c (fun _ => s.header)) y = key s y ∧
        value (deleteNode s c (fun _ => s.header)) y = value s y
      rw [hcongr]
      exact g4 y hy

/-- `PopMax` preserves the invariant: it removes the last node of the base
list and reports its pair. -/
lemma inv_PopMax {s : SkipList} {C : List Nat} (hInv : Inv s C) :
    (C = [] → PopMax s = (s, none)) ∧
    (∀ c, C.getLast? = some c →
      (PopMax s).2 = some (key s c, value s c) ∧
      Inv (PopMax s).1 C.dropLast ∧
      (PopMax s).1.nextId = s.nextId ∧
      (PopMax s).1.length = s.length - 1 ∧
      (∀ y, y ≠ c → key (PopMax s).1 y = key s y ∧
        value (PopMax s).1 y = value s y)) := by
  constructor
  · intro hC
    have hlen : s.length = 0 := by
      rw [hInv.lenEq, hC]
      rfl
    simp only [PopMax, if_pos hlen]
  · intro c hlastC
    obtain ⟨B, hB⟩ := List.getLast?_eq_some_iff.1 hlastC
    have hlen : ¬ s.length = 0 := by
      intro hcon
      rw [hInv.lenEq, hB] at hcon
      simp only [List.length_append, List.length_cons, List.length_nil]
        at hcon
      push_cast at hcon
      omega
    have hlast : lastNode s = c := by
      rw [lastNode_spec hInv, hlastC]
      rfl
    have hBk : ∀ x ∈ B, key s x < key s c := by
      intro x hx
      have hsort := hInv.sorted
      rw [hB] at hsort
      exact (List.pairwise_append.1 hsort).2.2 x hx c (by simp)
    have hsplit := split_takeWhile
      (fun x => decide (key s x < key s c)) B [c]
      (fun x hx => by simpa using hBk x hx)
      (by intro x hx; simp at hx; subst hx; simp)
    have htake : C.takeWhile (fun x => decide (key s x < key s c)) = B := by
      rw [hB]
      exact hsplit.1
    have hdrop : C.dropWhile (fun x => decide (key s x < key s c)) = [c]
        := by
      rw [hB]
      exact hsplit.2
    have hfc : fwd s (updateI s (key s c) 0) 0 = some c := by
      rw [(update0_spec hInv (key s c)).2, hdrop]
      rfl
    have hPeq : PopMax s =
        (deleteNode s c (fun i => updateI s (key s c) i),
          some (key s c, value s c)) := by
      simp only [PopMax, if_neg hlen, hlast, hfc]
    obtain ⟨g1, g2, g3, g4, _, _⟩ :=
      inv_deleteNode hInv (key s c) c hfc rfl
    have hrest : C.takeWhile (fun x => decide (key s x < key s c)) ++
        (C.dropWhile (fun x => decide (key s x < key s c))).tail
        = C.dropLast := by
      rw [htake, hdrop, hB, List.dropLast_concat]
      show B ++ ([] : List Nat) = B
      rw [List.append_nil]
    rw [hrest] at g1
    rw [hPeq]
    exact ⟨rfl, g1, g2, g3, g4⟩

/-- Every public operation preserves well-formedness. -/
lemma inv_step {s : SkipList} {C : List Nat} (hInv : Inv s C) (op : Op) :
    ∃ C', Inv (step s op).1 C' := by
  cases op with
  | insert k v w =>
      show ∃ C', Inv (Insert s k v w).1 C'
      by_cases hk : k ∈ C.map (key s)
      · obtain ⟨c, _, _, _, _, hI⟩ := (inv_Insert hInv k v w).2 hk
        exact ⟨C, hI⟩
      · exact ⟨_, ((inv_Insert hInv k v w).1 hk).2.1⟩
  | delete k =>
      show ∃ C', Inv (Delete s k).1 C'
      by_cases hk : k ∈ C.map (key s)
      · obtain ⟨c, _, _, _, hI, _⟩ := (inv_Delete hInv k).2 hk
        exact ⟨_, hI⟩
      · rw [(inv_Delete hInv k).1 hk]
        exact ⟨C, hInv⟩
  | popMin =>
      show ∃ C', Inv (PopMin s).1 C'
      cases hC : C with
      | nil =>
          rw [(inv_PopMin hInv).1 hC]
          exact ⟨C, hInv⟩
      | cons c rest =>
          exact ⟨rest, ((inv_PopMin hInv).2 c rest hC).2.1⟩
  | popMax =>
      show ∃ C', Inv (PopMax s).1 C'
      cases hC : C.getLast? with
      | none =>
          have hnil : C = [] := List.getLast?_eq_none_iff.1 hC
          rw [(inv_PopMax hInv).1 hnil]
          exact ⟨C, hInv⟩
      | some c =>
          exact ⟨C.dropLast, ((inv_PopMax hInv).2 c hC).2.1⟩
  | clear => exact ⟨[], inv_clear hInv⟩
  | search k => exact ⟨C, hInv⟩
  | rank k => exact ⟨C, hInv⟩
  | len => exact ⟨C, hInv⟩

/-- Every reachable state is well-formed. -/
lemma reachable_inv {b : Bool} {s : SkipList} (h : Reachable b s) :
    ∃ C, Inv s C := by
  obtain ⟨ops, rfl⟩ := h
  have hgen : ∀ (ops : List Op) (t : SkipList) (C : List Nat), Inv t C →
      ∃ C', Inv (exec t ops) C' := by
    intro ops
    induction ops with
    | nil => intro t C h; exact ⟨C, h⟩
    | cons op ops ih =>
        intro t C h
        obtain ⟨C2, h2⟩ := inv_step h op
        exact ih (step t op).1 C2 h2
  exact hgen ops (initState b) [] (inv_init b)

/-- C2: on every reachable state, `Rank k` returns the number of stored
keys that compare strictly below `k`; equivalently, it is the 0-based
position at which `k` is or would be inserted (the length of the
strictly-smaller prefix of the sorted key list). -/
theorem C2_rank_counts_below (b : Bool) (s : SkipList) (hs : Reachable b s)
    (k : Int) :
    Rank s k
      = (((absKeys s).filter (fun a => decide (a < k))).length : Int) ∧
    Rank s k
      = (((absKeys s).takeWhile (fun a => decide (a < k))).length : Int)
    := by
  obtain ⟨C, hInv⟩ := reachable_inv hs
  constructor
  · rw [absKeys_eq hInv]
    exact Rank_spec hInv k
  · rw [absKeys_eq hInv, List.takeWhile_map, List.length_map]
    exact (update0_spec hInv k).1

theorem C2_rank_counts_below_witness :
    Reachable false (exec (initState false)
      [Op.insert 10 100 4, Op.insert 20 200 1, Op.insert 15 150 1]) ∧
    Rank (exec (initState false)
      [Op.insert 10 100 4, Op.insert 20 200 1, Op.insert 15 150 1]) 16
      = (((absKeys (exec (initState false)
          [Op.insert 10 100 4, Op.insert 20 200 1, Op.insert 15 150 1])).filter
            (fun a => decide (a < 16))).length : Int) ∧
    (((absKeys (exec (initState false)
        [Op.insert 10 100 4, Op.insert 20 200 1, Op.insert 15 150 1])).filter
          (fun a => decide (a < 16))).length : Int) = 2 :=
  ⟨⟨[Op.insert 10 100 4, Op.insert 20 200 1, Op.insert 15 150 1], rfl⟩,
    (C2_rank_counts_below false _
      ⟨[Op.insert 10 100 4, Op.insert 20 200 1, Op.insert 15 150 1],
        rfl⟩ 16).1,
    by decide⟩

/-- Keys are unique on a sorted witness list. -/
lemma sorted_key_inj {s : SkipList} :
    ∀ {C : List Nat}, C.Pairwise (fun a b => key s a < key s b) →
      ∀ a ∈ C, ∀ b ∈ C, key s a = key s b → a = b := by
  intro C
  induction C with
  | nil => intro _ a ha; simp at ha
  | cons x rest ih =>
      intro hsort a ha b hb hab
      have hx := (List.pairwise_cons.1 hsort).1
      have hrest := (List.pairwise_cons.1 hsort).2
      rcases List.mem_cons.1 ha with h1 | h1
      · rcases List.mem_cons.1 hb with h2 | h2
        · rw [h1, h2]
        · have := hx b h2
          rw [h1] at hab
          omega
      · rcases List.mem_cons.1 hb with h2 | h2
        · have := hx a h1
          rw [h2] at hab
          omega
        · exact ih hrest a h1 b h2 hab

/-- C3 (amended): inserting over an existing key keeps the length and
returns a non-`none` handle to the stored node, but the handle reads back
the new value (the overwrite happens before the handle is returned); a
subsequent `Search` also observes the new value. -/
theorem C3_insert_existing_handle (b : Bool) (s : SkipList)
    (hs : Reachable b s) (k v : Int) (w : Nat) (hk : k ∈ absKeys s) :
    ∃ c, (Insert s k v w).2 = some c ∧
      (Insert s k v w).1.length = s.length ∧
      key (Insert s k v w).1 c = k ∧
      value (Insert s k v w).1 c = v ∧
      ∃ c2, Search (Insert s k v w).1 k = some c2 ∧
        value (Insert s k v w).1 c2 = v := by
  obtain ⟨C, hInv⟩ := reachable_inv hs
  rw [absKeys_eq hInv] at hk
  obtain ⟨c, hcC, hck, hstate, hhandle, hI⟩ := (inv_Insert hInv k v w).2 hk
  have hkeyP : ∀ x, key (Insert s k v w).1 x = key s x := by
    intro x
    rw [hstate]
    show (setStore s.store c { s.store c with value := v } x).key = _
    by_cases hx : x = c
    · subst hx
      rw [setStore_same]
      rfl
    · rw [setStore_other _ _ _ _ hx]
      rfl
  have hvalc : value (Insert s k v w).1 c = v := by
    rw [hstate]
    show (setStore s.store c { s.store c with value := v } c).value = v
    rw [setStore_same]
  have hkmem2 : k ∈ C.map (key (Insert s k v w).1) := by
    have : C.map (key (Insert s k v w).1) = C.map (key s) := by
      exact List.map_congr_left (fun x _ => hkeyP x)
    rw [this]
    exact hk
  obtain ⟨c2, hsearch, hc2k, hc2C⟩ := Search_mem hI k hkmem2
  have hc2c : c2 = c := by
    refine sorted_key_inj hI.sorted c2 hc2C c hcC ?_
    rw [hc2k, hkeyP c]
    exact hck.symm
  refine ⟨c, hhandle, ?_, by rw [hkeyP c]; exact hck, hvalc,
    c2, hsearch, by rw [hc2c]; exact hvalc⟩
  rw [hstate]

theorem C3_insert_existing_handle_witness :
    Reachable false (exec (initState false) [Op.insert 1 10 1]) ∧
    1 ∈ absKeys (exec (initState false) [Op.insert 1 10 1]) ∧
    ∃ c, (Insert (exec (initState false) [Op.insert 1 10 1]) 1 20 1).2
        = some c ∧
      (Insert (exec (initState false) [Op.insert 1 10 1]) 1 20 1).1.length
        = (exec (initState false) [Op.insert 1 10 1]).length ∧
      key (Insert (exec (initState false) [Op.insert 1 10 1]) 1 20 1).1 c
        = 1 ∧
      value (Insert (exec (initState false) [Op.insert 1 10 1]) 1 20 1).1 c
        = 20 ∧
      ∃ c2, Search
          (Insert (exec (initState false) [Op.insert 1 10 1]) 1 20 1).1 1
          = some c2 ∧
        value (Insert (exec (initState false) [Op.insert 1 10 1]) 1 20 1).1
          c2 = 20 :=
  ⟨⟨[Op.insert 1 10 1], rfl⟩, by decide,
    C3_insert_existing_handle false _ ⟨[Op.insert 1 10 1], rfl⟩ 1 20 1
      (by decide)⟩

lemma filter_cons_cell {s : SkipList} {i x : Nat} (rest : List Nat)
    (hx : i < height s x) :
    (x :: rest).filter (fun y => decide (i < height s y))
      = x :: rest.filter (fun y => decide (i < height s y)) := by
  simp [List.filter_cons, hx]

lemma filter_cons_noncell {s : SkipList} {i x : Nat} (rest : List Nat)
    (hx : ¬ i < height s x) :
    (x :: rest).filter (fun y => decide (i < height s y))
      = rest.filter (fun y => decide (i < height s y)) := by
  simp [List.filter_cons, hx]

lemma coveredLen_cons (s : SkipList) (i x : Nat) (rest : List Nat) :
    coveredLen s i (x :: rest)
      = if coveredLen s i rest = 0 then (if i < height s x then 1 else 0)
        else coveredLen s i rest + 1 := rfl

lemma coveredLen_eq_zero {s : SkipList} {i : Nat} :
    ∀ C : List Nat, coveredLen s i C = 0 ↔
      C.filter (fun x => decide (i < height s x)) = [] := by
  intro C
  induction C with
  | nil => simp [coveredLen]
  | cons x rest ih =>
      rw [coveredLen_cons]
      by_cases hx : i < height s x
      · rw [filter_cons_cell rest hx]
        constructor
        · intro h
          by_cases hr : coveredLen s i rest = 0
          · rw [if_pos hr, if_pos hx] at h
            exact absurd h (by decide)
          · rw [if_neg hr] at h
            exact absurd h (by omega)
        · intro h
          exact absurd h (by simp)
      · rw [filter_cons_noncell rest hx]
        by_cases hr : coveredLen s i rest = 0
        · rw [if_pos hr, if_neg hx]
          constructor
          · intro _; exact ih.1 hr
          · intro _; rfl
        · rw [if_neg hr]
          constructor
          · intro h; exact absurd h (by omega)
          · intro h; exact absurd (ih.2 h) hr

lemma coveredLen_all_cells {s : SkipList} {i : Nat} :
    ∀ C : List Nat, (∀ x ∈ C, i < height s x) →
      coveredLen s i C = C.length := by
  intro C
  induction C with
  | nil => intro _; rfl
  | cons x rest ih =>
      intro h
      have hrest := ih (fun y hy => h y (by simp [hy]))
      rw [coveredLen_cons, hrest, List.length_cons]
      by_cases hr : rest.length = 0
      · rw [if_pos hr, if_pos (h x (by simp)), hr]
      · rw [if_neg hr]

/-- The executable level-`i` chain recovers the cells of the witness list. -/
lemma chainFrom_eq_filter {s : SkipList} {i : Nat} :
    ∀ (C : List Nat) (p : Nat) (g : Int) (fuel : Nat),
      chainInv s i p g C → C.length < fuel →
      chainFrom s i fuel p = C.filter (fun x => decide (i < height s x)) := by
  intro C
  induction C with
  | nil =>
      intro p g fuel hc hf
      obtain ⟨f, rfl⟩ : ∃ f, fuel = f + 1 := ⟨fuel - 1, by omega⟩
      simp only [chainInv] at hc
      simp [chainFrom, hc]
  | cons x rest ih =>
      intro p g fuel hc hf
      by_cases hx : i < height s x
      · obtain ⟨f, rfl⟩ : ∃ f, fuel = f + 1 := ⟨fuel - 1, by omega⟩
        simp only [chainInv, if_pos hx] at hc
        rw [filter_cons_cell rest hx]
        simp only [chainFrom, hc.1]
        rw [ih x 0 f hc.2.2 (by simp at hf; omega)]
      · simp only [chainInv, if_neg hx] at hc
        rw [filter_cons_noncell rest hx]
        exact ih p (g + 1) fuel hc (by simp at hf; omega)

/-- Telescoping: along a level-`i` chain, the spans of the cells whose
level-`i` slot is non-null sum to the number of base nodes covered up to
and including the last cell. -/
lemma chainInv_span_sum {s : SkipList} {i : Nat} :
    ∀ (C : List Nat) (p : Nat) (g : Int), chainInv s i p g C →
      (((p :: C.filter (fun x => decide (i < height s x))).dropLast).map
          (fun x => spn s x i)).sum =
        if C.filter (fun x => decide (i < height s x)) = [] then 0
        else g + (coveredLen s i C : Int) := by
  intro C
  induction C with
  | nil =>
      intro p g _
      simp
  | cons x rest ih =>
      intro p g hc
      by_cases hx : i < height s x
      · simp only [chainInv, if_pos hx] at hc
        rw [filter_cons_cell rest hx, if_neg (List.cons_ne_nil x _)]
        by_cases hre : rest.filter (fun y => decide (i < height s y)) = []
        · rw [hre]
          have hcov : coveredLen s i rest = 0 := (coveredLen_eq_zero rest).2 hre
          rw [coveredLen_cons, if_pos hcov, if_pos hx,
            List.dropLast_cons₂, List.dropLast_single, List.map_cons,
            List.map_nil, List.sum_cons, List.sum_nil, hc.2.1]
          push_cast
          ring
        · have hih := ih x 0 hc.2.2
          rw [if_neg hre] at hih
          have hcov : coveredLen s i rest ≠ 0 := fun h =>
            hre ((coveredLen_eq_zero rest).1 h)
          rw [List.dropLast_cons₂, List.map_cons, List.sum_cons, hih, hc.2.1,
            coveredLen_cons, if_neg hcov]
          push_cast
          ring
      · simp only [chainInv, if_neg hx] at hc
        rw [filter_cons_noncell rest hx, ih p (g + 1) hc]
        by_cases hre : rest.filter (fun y => decide (i < height s y)) = []
        · rw [if_pos hre, if_pos hre]
        · rw [if_neg hre, if_neg hre]
          have hcov : coveredLen s i rest ≠ 0 := fun h =>
            hre ((coveredLen_eq_zero rest).1 h)
          rw [coveredLen_cons, if_neg hcov]
          push_cast
          ring

/-- C1 (amended): on every reachable state, at every level `i ≤ level`, the
spans of the level-`i` chain nodes whose level-`i` forward pointer is
non-null (all chain nodes but the last) sum to the number of base nodes up
to and including the chain's last node; at level 0 this sum is the length.
The full chain sum (`spanSumLevel`, final stale span included) does not
satisfy the original claim, see the counterexample. -/
theorem C1_nonnull_chain_span_sum (b : Bool) (s : SkipList)
    (hs : Reachable b s) (i : Nat) (hi : i ≤ s.level) :
    ((((s.header :: chainFrom s i s.nextId s.header).dropLast).map
        (fun x => spn s x i)).sum = (coveredLen s i (chain0 s) : Int)) ∧
    ((((s.header :: chainFrom s 0 s.nextId s.header).dropLast).map
        (fun x => spn s x 0)).sum = Len s) := by
  obtain ⟨C, hInv⟩ := reachable_inv hs
  have hfuel := length_lt_nextId hInv
  have hlen0 : Len s = (C.length : Int) := hInv.lenEq
  have hch0 : chain0 s = C := chain0_eq hInv
  constructor
  · have hiM : i < MaxLevel := by
      have := hInv.levelLt
      omega
    rw [chainFrom_eq_filter C s.header 0 s.nextId (hInv.chains i hiM) hfuel,
      hch0]
    have hmain := chainInv_span_sum C s.header 0 (hInv.chains i hiM)
    by_cases hf : C.filter (fun x => decide (i < height s x)) = []
    · rw [if_pos hf] at hmain
      rw [hmain, (coveredLen_eq_zero C).2 hf]
      rfl
    · rw [if_neg hf] at hmain
      rw [hmain]
      ring
  · have h0M : 0 < MaxLevel := by decide
    have hcells : ∀ x ∈ C, 0 < height s x := fun x hx => (hInv.nodeH x hx).1
    have hfeq : C.filter (fun x => decide (0 < height s x)) = C := by
      rw [List.filter_eq_self]
      intro x hx
      exact decide_eq_true (hcells x hx)
    rw [chainFrom_eq_filter C s.header 0 s.nextId (hInv.chains 0 h0M) hfuel]
    have hmain := chainInv_span_sum C s.header 0 (hInv.chains 0 h0M)
    by_cases hf : C = []
    · subst hf
      simp at hmain ⊢
      rw [hlen0]
      rfl
    · rw [hfeq] at hmain ⊢
      rw [if_neg hf] at hmain
      rw [hmain, hlen0, coveredLen_all_cells C hcells]
      ring

theorem C1_nonnull_chain_span_sum_witness :
    Reachable false
      (exec (initState false) [Op.insert 10 100 4, Op.insert 20 200 1]) ∧
    1 ≤ (exec (initState false) [Op.insert 10 100 4, Op.insert 20 200 1]).level ∧
    (((((exec (initState false) [Op.insert 10 100 4, Op.insert 20 200 1]).header ::
        chainFrom (exec (initState false) [Op.insert 10 100 4, Op.insert 20 200 1]) 1
          (exec (initState false) [Op.insert 10 100 4, Op.insert 20 200 1]).nextId
          (exec (initState false) [Op.insert 10 100 4, Op.insert 20 200 1]).header).dropLast).map
        (fun x => spn (exec (initState false) [Op.insert 10 100 4, Op.insert 20 200 1]) x 1)).sum
      = (coveredLen (exec (initState false) [Op.insert 10 100 4, Op.insert 20 200 1]) 1
          (chain0 (exec (initState false) [Op.insert 10 100 4, Op.insert 20 200 1])) : Int)) ∧
    (((((exec (initState false) [Op.insert 10 100 4, Op.insert 20 200 1]).header ::
        chainFrom (exec (initState false) [Op.insert 10 100 4, Op.insert 20 200 1]) 0
          (exec (initState false) [Op.insert 10 100 4, Op.insert 20 200 1]).nextId
          (exec (initState false) [Op.insert 10 100 4, Op.insert 20 200 1]).header).dropLast).map
        (fun x => spn (exec (initState false) [Op.insert 10 100 4, Op.insert 20 200 1]) x 0)).sum
      = Len (exec (initState false) [Op.insert 10 100 4, Op.insert 20 200 1])) := by
  refine ⟨⟨[Op.insert 10 100 4, Op.insert 20 200 1], rfl⟩, by decide, ?_⟩
  exact C1_nonnull_chain_span_sum false _
    ⟨[Op.insert 10 100 4, Op.insert 20 200 1], rfl⟩ 1 (by decide)

/-! ## A pure abstract model of the public operations, for trace equality -/

/-- Abstract `Insert` on the sorted key/value list. -/
def aInsert (l : List (Int × Int)) (k v : Int) : List (Int × Int) × Obs :=
  if k ∈ l.map Prod.fst then
    (l.map (fun p => if p.1 = k then (k, v) else p), Obs.handle (some (k, v)))
  else
    (l.takeWhile (fun p => decide (p.1 < k)) ++
        (k, v) :: l.dropWhile (fun p => decide (p.1 < k)),
      Obs.handle none)

/-- Abstract step: the new sorted key/value list and the observation. -/
def aStep (l : List (Int × Int)) : Op → List (Int × Int) × Obs
  | .insert k v _ => aInsert l k v
  | .delete k =>
      if k ∈ l.map Prod.fst then
        (l.takeWhile (fun p => decide (p.1 < k)) ++
            (l.dropWhile (fun p => decide (p.1 < k))).tail,
          Obs.flag true)
      else (l, Obs.flag false)
  | .popMin => (l.tail, Obs.handle l.head?)
  | .popMax => (l.dropLast, Obs.handle l.getLast?)
  | .clear => ([], Obs.unit)
  | .search k =>
      (l, Obs.handle ((l.dropWhile (fun p => decide (p.1 < k))).head?.bind
        (fun p => if p.1 = k then some p else none)))
  | .rank k =>
      (l, Obs.num (((l.takeWhile (fun p => decide (p.1 < k))).length : Int)))
  | .len => (l, Obs.num ((l.length : Int)))

/-- Abstract observation trace. -/
def aRun (l : List (Int × Int)) : List Op → List Obs
  | [] => []
  | op :: ops => (aStep l op).2 :: aRun (aStep l op).1 ops

lemma absList_fst {s : SkipList} {C : List Nat} (hInv : Inv s C) :
    (absList s).map Prod.fst = C.map (key s) := by
  rw [absList_eq hInv, List.map_map]
  rfl

lemma absList_takeWhile {s : SkipList} {C : List Nat} (hInv : Inv s C)
    (k : Int) :
    (absList s).takeWhile (fun p => decide (p.1 < k))
      = (C.takeWhile (fun x => decide (key s x < k))).map
          (fun x => (key s x, value s x)) := by
  rw [absList_eq hInv, List.takeWhile_map]
  rfl

lemma absList_dropWhile {s : SkipList} {C : List Nat} (hInv : Inv s C)
    (k : Int) :
    (absList s).dropWhile (fun p => decide (p.1 < k))
      = (C.dropWhile (fun x => decide (key s x < k))).map
          (fun x => (key s x, value s x)) := by
  rw [absList_eq hInv, List.dropWhile_map]
  rfl

lemma aInsert_pos (l : List (Int × Int)) (k v : Int)
    (h : k ∈ l.map Prod.fst) :
    aInsert l k v = (l.map (fun p => if p.1 = k then (k, v) else p),
      Obs.handle (some (k, v))) := by
  simp [aInsert, h]

lemma aInsert_neg (l : List (Int × Int)) (k v : Int)
    (h : k ∉ l.map Prod.fst) :
    aInsert l k v = (l.takeWhile (fun p => decide (p.1 < k)) ++
        (k, v) :: l.dropWhile (fun p => decide (p.1 < k)),
      Obs.handle none) := by
  simp [aInsert, h]

/-- One concrete step is simulated by one abstract step. -/
lemma step_sim {s : SkipList} {C : List Nat} (hInv : Inv s C) (op : Op) :
    (step s op).2 = (aStep (absList s) op).2 ∧
    absList (step s op).1 = (aStep (absList s) op).1 := by
  have hndC : C.Nodup := (List.nodup_cons.1 hInv.nodupC).2
  cases op with
  | insert k v w =>
      have hsa : aStep (absList s) (Op.insert k v w) = aInsert (absList s) k v
        := rfl
      by_cases hk : k ∈ C.map (key s)
      · have ha := aInsert_pos (absList s) k v
          (by rw [absList_fst hInv]; exact hk)
        obtain ⟨c, hcC, hck, hstate, hhandle, hI⟩ := (inv_Insert hInv k v w).2 hk
        have hkeyP : ∀ x, key (Insert s k v w).1 x = key s x := by
          intro x
          rw [hstate]
          show (setStore s.store c { s.store c with value := v } x).key = _
          by_cases hx : x = c
          · subst hx
            rw [setStore_same]
            rfl
          · rw [setStore_other _ _ _ _ hx]
            rfl
        have hvalc : value (Insert s k v w).1 c = v := by
          rw [hstate]
          show (setStore s.store c { s.store c with value := v } c).value = v
          rw [setStore_same]
        have hvalO : ∀ x, x ≠ c → value (Insert s k v w).1 x = value s x := by
          intro x hx
          rw [hstate]
          show (setStore s.store c { s.store c with value := v } x).value = _
          rw [setStore_other _ _ _ _ hx]
          rfl
        constructor
        · show Obs.handle ((Insert s k v w).2.map
              (fun x => (key (Insert s k v w).1 x, value (Insert s k v w).1 x)))
            = (aStep (absList s) (Op.insert k v w)).2
          rw [hsa, ha, hhandle, Option.map_some']
          have h1 : key (Insert s k v w).1 c = k := by rw [hkeyP c]; exact hck
          rw [h1, hvalc]
        · show absList (Insert s k v w).1
            = (aStep (absList s) (Op.insert k v w)).1
          rw [hsa, ha]
          show absList (Insert s k v w).1
            = (absList s).map (fun p => if p.1 = k then (k, v) else p)
          rw [absList_eq hI, absList_eq hInv, List.map_map]
          refine List.map_congr_left ?_
          intro x hx
          show (key (Insert s k v w).1 x, value (Insert s k v w).1 x)
            = if key s x = k then (k, v) else (key s x, value s x)
          by_cases hxc : x = c
          · subst hxc
            rw [if_pos hck]
            have h1 : key (Insert s k v w).1 x = k := by rw [hkeyP x]; exact hck
            rw [h1, hvalc]
          · have hkx : key s x ≠ k := fun hcon =>
              hxc (sorted_key_inj hInv.sorted x hx c hcC (by rw [hcon, hck]))
            rw [if_neg hkx, hkeyP x, hvalO x hxc]
      · have ha := aInsert_neg (absList s) k v
          (by rw [absList_fst hInv]; exact hk)
        obtain ⟨hIeq, hInv2, hnone⟩ := (inv_Insert hInv k v w).1 hk
        obtain ⟨hI2, _, hkeyN, hvalN, hframe⟩ := inv_insertNew hInv k v w hk
        constructor
        · show Obs.handle ((Insert s k v w).2.map
              (fun x => (key (Insert s k v w).1 x, value (Insert s k v w).1 x)))
            = (aStep (absList s) (Op.insert k v w)).2
          rw [hsa, ha, hnone, Option.map_none']
        · show absList (Insert s k v w).1
            = (aStep (absList s) (Op.insert k v w)).1
          rw [hsa, ha]
          show absList (Insert s k v w).1
            = (absList s).takeWhile (fun p => decide (p.1 < k)) ++
                (k, v) :: (absList s).dropWhile (fun p => decide (p.1 < k))
          rw [absList_takeWhile hInv k, absList_dropWhile hInv k, hIeq,
            absList_eq hI2, List.map_append, List.map_cons]
          have hmemA : ∀ x ∈ C.takeWhile (fun y => decide (key s y < k)),
              x ≠ s.nextId := fun x hx =>
            Nat.ne_of_lt (hInv.memLt x ((List.takeWhile_sublist _).mem hx))
          have hmemB : ∀ x ∈ C.dropWhile (fun y => decide (key s y < k)),
              x ≠ s.nextId := fun x hx =>
            Nat.ne_of_lt (hInv.memLt x ((List.dropWhile_sublist _).mem hx))
          have hA : (C.takeWhile (fun y => decide (key s y < k))).map
                (fun x => (key (insertNew s k v w).1 x,
                  value (insertNew s k v w).1 x))
              = (C.takeWhile (fun y => decide (key s y < k))).map
                (fun x => (key s x, value s x)) := by
            refine List.map_congr_left ?_
            intro x hx
            rw [(hframe x (hmemA x hx)).1, (hframe x (hmemA x hx)).2]
          have hB : (C.dropWhile (fun y => decide (key s y < k))).map
                (fun x => (key (insertNew s k v w).1 x,
                  value (insertNew s k v w).1 x))
              = (C.dropWhile (fun y => decide (key s y < k))).map
                (fun x => (key s x, value s x)) := by
            refine List.map_congr_left ?_
            intro x hx
            rw [(hframe x (hmemB x hx)).1, (hframe x (hmemB x hx)).2]
          rw [hA, hB, hkeyN, hvalN]
  | delete k =>
      by_cases hk : k ∈ C.map (key s)
      · have hsa : aStep (absList s) (Op.delete k)
            = ((absList s).takeWhile (fun p => decide (p.1 < k)) ++
                ((absList s).dropWhile (fun p => decide (p.1 < k))).tail,
              Obs.flag true) := by
          show (if k ∈ (absList s).map Prod.fst then _ else _) = _
          rw [if_pos (by rw [absList_fst hInv]; exact hk)]
        obtain ⟨c, hcC, hck, hflag, hI2, _, _, hframe, hScons⟩ :=
          (inv_Delete hInv k).2 hk
        have hCsplit : C.takeWhile (fun x => decide (key s x < k)) ++
            C.dropWhile (fun x => decide (key s x < k)) = C :=
          List.takeWhile_append_dropWhile _ _
        have hcS : c ∈ C.dropWhile (fun x => decide (key s x < k)) := by
          rw [hScons]
          exact List.mem_cons_self _ _
        have hdisj : ∀ x ∈ C.takeWhile (fun y => decide (key s y < k)),
            x ∉ C.dropWhile (fun y => decide (key s y < k)) := by
          have hnd2 := hndC
          rw [← hCsplit] at hnd2
          exact fun x hx => (List.disjoint_of_nodup_append hnd2) hx
        have hcA : c ∉ C.takeWhile (fun y => decide (key s y < k)) :=
          fun h => hdisj c h hcS
        have hSnd : (C.dropWhile (fun y => decide (key s y < k))).Nodup :=
          List.Nodup.sublist (List.dropWhile_sublist _) hndC
        have hcT : c ∉ (C.dropWhile (fun y => decide (key s y < k))).tail := by
          have := hSnd
          rw [hScons] at this
          exact (List.nodup_cons.1 this).1
        constructor
        · show Obs.flag (Delete s k).2 = (aStep (absList s) (Op.delete k)).2
          rw [hsa, hflag]
        · show absList (Delete s k).1 = (aStep (absList s) (Op.delete k)).1
          rw [hsa]
          show absList (Delete s k).1
            = (absList s).takeWhile (fun p => decide (p.1 < k)) ++
                ((absList s).dropWhile (fun p => decide (p.1 < k))).tail
          rw [absList_takeWhile hInv k, absList_dropWhile hInv k,
            absList_eq hI2, List.map_append]
          have hA : (C.takeWhile (fun y => decide (key s y < k))).map
                (fun x => (key (Delete s k).1 x, value (Delete s k).1 x))
              = (C.takeWhile (fun y => decide (key s y < k))).map
                (fun x => (key s x, value s x)) := by
            refine List.map_congr_left ?_
            intro x hx
            have hne : x ≠ c := fun hxeq => hcA (hxeq ▸ hx)
            rw [(hframe x hne).1, (hframe x hne).2]
          have hT : ((C.dropWhile (fun y => decide (key s y < k))).tail).map
                (fun x => (key (Delete s k).1 x, value (Delete s k).1 x))
              = ((C.dropWhile (fun y => decide (key s y < k))).tail).map
                (fun x => (key s x, value s x)) := by
            refine List.map_congr_left ?_
            intro x hx
            have hne : x ≠ c := fun hxeq => hcT (hxeq ▸ hx)
            rw [(hframe x hne).1, (hframe x hne).2]
          rw [hA, hT]
          have hmapT : ((C.dropWhile (fun y => decide (key s y < k))).map
                (fun x => (key s x, value s x))).tail
              = ((C.dropWhile (fun y => decide (key s y < k))).tail).map
                (fun x => (key s x, value s x)) := by
            conv_lhs => rw [hScons]
            rfl
          rw [hmapT]
      · have hD := (inv_Delete hInv k).1 hk
        have hsa : aStep (absList s) (Op.delete k)
            = (absList s, Obs.flag false) := by
          show (if k ∈ (absList s).map Prod.fst then _ else _) = _
          rw [if_neg (by rw [absList_fst hInv]; exact hk)]
        constructor
        · show Obs.flag (Delete s k).2 = (aStep (absList s) (Op.delete k)).2
          rw [hsa, hD]
        · show absList (Delete s k).1 = (aStep (absList s) (Op.delete k)).1
          rw [hsa, hD]
  | popMin =>
      cases hC : C with
      | nil =>
          have hP := (inv_PopMin hInv).1 hC
          have habs : absList s = [] := by
            rw [absList_eq hInv, hC]
            rfl
          constructor
          · show Obs.handle (PopMin s).2 = Obs.handle (absList s).head?
            rw [hP, habs]
            rfl
          · show absList (PopMin s).1 = (absList s).tail
            rw [hP, habs]
            rfl
      | cons c rest =>
          obtain ⟨hobs, hI2, _, _, hframe⟩ := (inv_PopMin hInv).2 c rest hC
          have hcrest : c ∉ rest := by
            have := hInv.nodupC
            rw [hC] at hndC
            exact (List.nodup_cons.1 hndC).1
          have habs : absList s
              = (key s c, value s c) ::
                  rest.map (fun x => (key s x, value s x)) := by
            rw [absList_eq hInv, hC, List.map_cons]
          constructor
          · show Obs.handle (PopMin s).2 = Obs.handle (absList s).head?
            rw [hobs, habs]
            rfl
          · show absList (PopMin s).1 = (absList s).tail
            rw [habs]
            show absList (PopMin s).1
              = rest.map (fun x => (key s x, value s x))
            rw [absList_eq hI2]
            refine List.map_congr_left ?_
            intro x hx
            have hne : x ≠ c := fun hxeq => hcrest (hxeq ▸ hx)
            rw [(hframe x hne).1, (hframe x hne).2]
  | popMax =>
      cases hL : C.getLast? with
      | none =>
          have hnil : C = [] := List.getLast?_eq_none_iff.1 hL
          have hP := (inv_PopMax hInv).1 hnil
          have habs : absList s = [] := by
            rw [absList_eq hInv, hnil]
            rfl
          constructor
          · show Obs.handle (PopMax s).2 = Obs.handle (absList s).getLast?
            rw [hP, habs]
            rfl
          · show absList (PopMax s).1 = (absList s).dropLast
            rw [hP, habs]
            rfl
      | some c =>
          obtain ⟨hobs, hI2, _, _, hframe⟩ := (inv_PopMax hInv).2 c hL
          obtain ⟨B, hB⟩ := List.getLast?_eq_some_iff.1 hL
          have hcB : c ∉ B := by
            have hnd2 := hndC
            rw [hB] at hnd2
            exact fun h => (List.disjoint_of_nodup_append hnd2) h
              (List.mem_cons_self _ _)
          have hdropB : C.dropLast = B := by
            rw [hB, List.dropLast_concat]
          constructor
          · show Obs.handle (PopMax s).2 = Obs.handle (absList s).getLast?
            rw [hobs, absList_eq hInv, List.getLast?_map, hL]
            rfl
          · show absList (PopMax s).1 = (absList s).dropLast
            rw [absList_eq hI2, hdropB, absList_eq hInv, hB, List.map_append,
              List.map_cons]
            show B.map (fun x => (key (PopMax s).1 x, value (PopMax s).1 x))
              = (B.map (fun x => (key s x, value s x)) ++
                  [(key s c, value s c)]).dropLast
            rw [show ((key s c, value s c) :: ([] : List (Int × Int)))
                = [(key s c, value s c)] from rfl] at *
            rw [List.dropLast_concat]
            refine List.map_congr_left ?_
            intro x hx
            have hne : x ≠ c := fun hxeq => hcB (hxeq ▸ hx)
            rw [(hframe x hne).1, (hframe x hne).2]
  | clear =>
      constructor
      · rfl
      · show absList (Clear s) = []
        rw [absList_eq (inv_clear hInv)]
        rfl
  | search k =>
      constructor
      · show Obs.handle ((Search s k).map (fun x => (key s x, value s x)))
          = (aStep (absList s) (Op.search k)).2
        show Obs.handle ((Search s k).map (fun x => (key s x, value s x)))
          = Obs.handle
              (((absList s).dropWhile (fun p => decide (p.1 < k))).head?.bind
                (fun p => if p.1 = k then some p else none))
        rw [absList_dropWhile hInv k, List.head?_map, Search_eq hInv k]
        cases hh : (C.dropWhile (fun x => decide (key s x < k))).head? with
        | none => rfl
        | some c =>
            show Obs.handle ((if key s c = k then some c else none).map
                (fun x => (key s x, value s x)))
              = Obs.handle (if key s c = k
                  then some (key s c, value s c) else none)
            by_cases hck : key s c = k
            · rw [if_pos hck, if_pos hck]
              rfl
            · rw [if_neg hck, if_neg hck]
              rfl
      · show absList s = absList s
        rfl
  | rank k =>
      constructor
      · show Obs.num (Rank s k) = (aStep (absList s) (Op.rank k)).2
        show Obs.num (Rank s k)
          = Obs.num
              ((((absList s).takeWhile (fun p => decide (p.1 < k))).length
                : Int))
        rw [absList_takeWhile hInv k, List.length_map]
        exact congrArg Obs.num (update0_spec hInv k).1
      · show absList s = absList s
        rfl
  | len =>
      constructor
      · show Obs.num (Len s) = Obs.num (((absList s).length : Int))
        rw [absList_eq hInv, List.length_map]
        exact congrArg Obs.num hInv.lenEq
      · show absList s = absList s
        rfl

/-- Trace equality: a well-formed state runs exactly as its abstraction. -/
lemma run_sim :
    ∀ (ops : List Op) (s : SkipList) (C : List Nat), Inv s C →
      run s ops = aRun (absList s) ops := by
  intro ops
  induction ops with
  | nil => intro s C _; rfl
  | cons op ops ih =>
      intro s C h
      obtain ⟨hobs, habs⟩ := step_sim h op
      obtain ⟨D, hD⟩ := inv_step h op
      show (step s op).2 :: run (step s op).1 ops
        = (aStep (absList s) op).2 :: aRun (aStep (absList s) op).1 ops
      rw [hobs, ih (step s op).1 D hD, habs]

/-- C4 (amended): on every reachable state, `Clear` zeroes the length and
the level and nulls every header forward slot, and the cleared list is
observationally identical to a freshly constructed one on every subsequent
program.  (The header spans are not zeroed, see the counterexample.) -/
theorem C4_clear_behaves_fresh (b : Bool) (s : SkipList)
    (hs : Reachable b s) :
    (Clear s).length = 0 ∧ (Clear s).level = 0 ∧
    (∀ i, fwd (Clear s) (Clear s).header i = none) ∧
    ∀ ops : List Op, run (Clear s) ops = run (initState b) ops := by
  obtain ⟨C, hInv⟩ := reachable_inv hs
  have hIc : Inv (Clear s) [] := inv_clear hInv
  have habs0 : absList (Clear s) = [] := by
    rw [absList_eq hIc]
    rfl
  have habsI : absList (initState b) = [] := by
    rw [absList_eq (inv_init b)]
    rfl
  refine ⟨rfl, rfl, ?_, ?_⟩
  · have hstore : (Clear s).store (Clear s).header =
        { s.store s.header with
          forward := (s.store s.header).forward.map (fun _ => none) } := by
      simp [Clear, setStore]
    intro i
    show (((Clear s).store (Clear s).header).forward.get? i).getD none = none
    rw [hstore]
    simp only [List.get?_eq_getElem?, List.getElem?_map]
    cases (s.store s.header).forward[i]? <;> rfl
  · intro ops
    rw [run_sim ops (Clear s) [] hIc, run_sim ops (initState b) [] (inv_init b),
      habs0, habsI]

theorem C4_clear_behaves_fresh_witness :
    Reachable false (exec (initState false) [Op.insert 5 7 1]) ∧
    (Clear (exec (initState false) [Op.insert 5 7 1])).length = 0 ∧
    (Clear (exec (initState false) [Op.insert 5 7 1])).level = 0 ∧
    fwd (Clear (exec (initState false) [Op.insert 5 7 1]))
      (Clear (exec (initState false) [Op.insert 5 7 1])).header 0 = none ∧
    run (Clear (exec (initState false) [Op.insert 5 7 1])) [Op.len]
      = run (initState false) [Op.len] := by
  refine ⟨⟨[Op.insert 5 7 1], rfl⟩, ?_, ?_, ?_, ?_⟩
  · exact (C4_clear_behaves_fresh false _ ⟨[Op.insert 5 7 1], rfl⟩).1
  · exact (C4_clear_behaves_fresh false _ ⟨[Op.insert 5 7 1], rfl⟩).2.1
  · exact (C4_clear_behaves_fresh false _ ⟨[Op.insert 5 7 1], rfl⟩).2.2.1 0
  · exact (C4_clear_behaves_fresh false _ ⟨[Op.insert 5 7 1], rfl⟩).2.2.2
      [Op.len]

/-! ## The visit sequence of a reverse bounded iterator -/

/-- A reverse iterator with an end bound, by cursor. -/
def mkRevIt (nl : Bool) (lk : Nat) (e : Int) (cur : Option Nat) : Iter :=
  { current := cur, reverse := true, noLock := nl, endB := e, hasEnd := true,
    lockHeld := lk }

lemma visitSeq_succ (s : SkipList) (it : Iter) (n : Nat) :
    visitSeq s it (n+1)
      = if (Iter.Next s it).1 then
          (Iter.keyAt s (Iter.Next s it).2).getD 0 ::
            visitSeq s (Iter.Next s it).2 n
        else [] := rfl

lemma Next_rev_nil_none {s : SkipList} (nl : Bool) (lk : Nat) (e : Int)
    (h : lastInternal s = none) :
    Iter.Next s (mkRevIt nl lk e none) = (false, mkRevIt nl lk e none) := by
  simp [Iter.Next, mkRevIt, h]

lemma Next_rev_nil_some {s : SkipList} (nl : Bool) (lk : Nat) (e : Int)
    (lN : Nat) (h : lastInternal s = some lN) :
    Iter.Next s (mkRevIt nl lk e none)
      = ((skipLoop s e s.nextId (some lN)).1,
          mkRevIt nl lk e (skipLoop s e s.nextId (some lN)).2) := by
  simp [Iter.Next, mkRevIt, h]

lemma Next_rev_back_hdr {s : SkipList} (nl : Bool) (lk : Nat) (e : Int)
    (c : Nat) (hch : c ≠ s.header)
    (hb : (s.store c).backward = some s.header) :
    Iter.Next s (mkRevIt nl lk e (some c))
      = (false, mkRevIt nl lk e none) := by
  simp [Iter.Next, mkRevIt, hch, hb]

lemma Next_rev_back {s : SkipList} (nl : Bool) (lk : Nat) (e : Int)
    (c : Nat) (hch : c ≠ s.header)
    (hb : ¬ (s.store c).backward = some s.header) :
    Iter.Next s (mkRevIt nl lk e (some c))
      = ((skipLoop s e s.nextId ((s.store c).backward)).1,
          mkRevIt nl lk e ((skipLoop s e s.nextId ((s.store c).backward)).2))
      := by
  simp [Iter.Next, mkRevIt, hch, hb]

lemma keyAt_mk {s : SkipList} (nl : Bool) (lk : Nat) (e : Int) (c : Nat)
    (hch : c ≠ s.header) :
    Iter.keyAt s (mkRevIt nl lk e (some c)) = some (key s c) := by
  simp [Iter.keyAt, mkRevIt, hch]

/-- The backward pointer of any base-list node is its predecessor (the
header for the first). -/
lemma backInv_at {s : SkipList} :
    ∀ (A C : List Nat) (h : Nat), backInv s h C →
      ∀ x R, C = A ++ x :: R → (s.store x).backward = (h :: A).getLast? := by
  intro A
  induction A with
  | nil =>
      intro C h hb x R hC
      subst hC
      show (s.store x).backward = some h
      exact hb.1
  | cons a A2 ih =>
      intro C h hb x R hC
      subst hC
      have h2 := (hb : (s.store a).backward = some h ∧ _).2
      rw [ih (A2 ++ x :: R) a h2 x R rfl, List.getLast?_cons_cons]

/-- All keys past the `≤ e` prefix of a sorted list are `> e`. -/
lemma sorted_dropWhile_gt {s : SkipList} {e : Int} :
    ∀ C : List Nat, C.Pairwise (fun a b => key s a < key s b) →
      ∀ x ∈ C.dropWhile (fun y => decide (key s y ≤ e)), e < key s x := by
  intro C
  induction C with
  | nil => intro _ x hx; simp at hx
  | cons y rest ih =>
      intro hsort x hx
      have hha := (List.pairwise_cons.1 hsort).1
      have hs2 := (List.pairwise_cons.1 hsort).2
      rw [List.dropWhile_cons] at hx
      by_cases hy : key s y ≤ e
      · simp only [decide_eq_true_eq, if_pos hy] at hx
        exact ih hs2 x hx
      · simp only [decide_eq_true_eq, if_neg hy] at hx
        rcases List.mem_cons.1 hx with rfl | hx
        · omega
        · have := hha x hx
          omega

/-- Under sortedness, the `≤ e` prefix is the `≤ e` filter. -/
lemma takeWhile_eq_filter_keys_le {s : SkipList} {e : Int} :
    ∀ C : List Nat, C.Pairwise (fun a b => key s a < key s b) →
      C.takeWhile (fun x => decide (key s x ≤ e)) =
        C.filter (fun x => decide (key s x ≤ e)) := by
  intro C
  induction C with
  | nil => intro _; simp
  | cons x rest ih =>
      intro hsort
      have hsort2 := (List.pairwise_cons.1 hsort).2
      have hha := (List.pairwise_cons.1 hsort).1
      by_cases h : key s x ≤ e
      · simp only [List.takeWhile_cons, List.filter_cons, decide_eq_true_eq,
          h, if_true]
        rw [ih hsort2]
      · have hrest : rest.filter (fun x => decide (key s x ≤ e)) = [] := by
          rw [List.filter_eq_nil_iff]
          intro y hy
          have := hha y hy
          simp only [decide_eq_true_eq]
          omega
        simp only [List.takeWhile_cons, List.filter_cons, decide_eq_true_eq,
          h, if_false, hrest]

/-- Filtering the key image commutes with mapping. -/
lemma map_key_filter {s : SkipList} (p : Int → Bool) :
    ∀ C : List Nat,
      (C.map (key s)).filter p = (C.filter (fun x => p (key s x))).map (key s)
      := by
  intro C
  induction C with
  | nil => simp
  | cons x rest ih =>
      simp only [List.map_cons, List.filter_cons]
      by_cases hx : p (key s x) = true
      · rw [if_pos hx, if_pos hx, List.map_cons, ih]
      · rw [if_neg hx, if_neg hx, ih]

/-- `lastInternal` under the invariant. -/
lemma lastInternal_eq {s : SkipList} {C : List Nat} (hInv : Inv s C) :
    lastInternal s = C.getLast? := by
  unfold lastInternal
  rw [lastNode_spec hInv]
  cases hL : C.getLast? with
  | none => simp
  | some c =>
      have hcC : c ∈ C := by
        obtain ⟨B, hB⟩ := List.getLast?_eq_some_iff.1 hL
        rw [hB]
        simp
      have hch : ¬ c = s.header :=
        fun h => (List.nodup_cons.1 hInv.nodupC).1 (h ▸ hcC)
      simp [hch]

/-- The skip-backward loop lands on the last node of the `≤ e` prefix (or
exhausts when that prefix is empty), starting from the last node past any
run of `> e` keys. -/
lemma skipLoop_desc {s : SkipList} {C : List Nat} (hInv : Inv s C)
    (e : Int) :
    ∀ (D P : List Nat), (P ++ D).IsPrefix C →
      (∀ x ∈ D, e < key s x) → (∀ x ∈ P, key s x ≤ e) →
      ∀ fuel, D.length < fuel →
      skipLoop s e fuel ((s.header :: (P ++ D)).getLast?)
        = if P = [] then (false, none) else (true, P.getLast?) := by
  have hhdrC : s.header ∉ C := (List.nodup_cons.1 hInv.nodupC).1
  intro D
  induction D using List.reverseRecOn with
  | nil =>
      intro P hpre hD hP fuel hf
      obtain ⟨f, rfl⟩ : ∃ f, fuel = f + 1 := ⟨fuel - 1, by omega⟩
      by_cases hPnil : P = []
      · rw [if_pos hPnil, hPnil]
        simp [skipLoop]
      · rw [if_neg hPnil]
        cases hp : P.getLast? with
        | none => exact absurd (List.getLast?_eq_none_iff.1 hp) hPnil
        | some p =>
            have hpP : p ∈ P := by
              obtain ⟨B2, hB2⟩ := List.getLast?_eq_some_iff.1 hp
              rw [hB2]
              simp
            have hpC : p ∈ C := by
              obtain ⟨R, hR⟩ := hpre
              rw [← hR, List.append_nil]
              exact List.mem_append_left _ hpP
            have hpne : ¬ p = s.header := fun h => hhdrC (h ▸ hpC)
            have hcur : (s.header :: (P ++ [])).getLast? = some p := by
              rw [List.append_nil, getLast?_cons_of_ne s.header P hPnil, hp]
            rw [hcur]
            have hkp : cmpInt (key s p) e ≤ 0 :=
              (cmpInt_le_iff _ _).2 (hP p hpP)
            simp [skipLoop, hpne, hkp]
  | append_singleton D2 d ihD =>
      intro P hpre hD hP fuel hf
      obtain ⟨f, rfl⟩ : ∃ f, fuel = f + 1 := ⟨fuel - 1, by omega⟩
      have hassoc : P ++ (D2 ++ [d]) = (P ++ D2) ++ [d] :=
        (List.append_assoc P D2 [d]).symm
      have hcur : (s.header :: (P ++ (D2 ++ [d]))).getLast? = some d := by
        rw [hassoc, ← List.cons_append, List.getLast?_concat]
      obtain ⟨R, hR⟩ := hpre
      have hCsplit : C = (P ++ D2) ++ d :: R := by
        rw [← hR, hassoc]
        simp
      have hdC : d ∈ C := by
        rw [hCsplit]
        exact List.mem_append_right _ (List.mem_cons_self _ _)
      have hdne : ¬ d = s.header := fun h => hhdrC (h ▸ hdC)
      have hkd : ¬ cmpInt (key s d) e ≤ 0 := by
        rw [cmpInt_le_iff]
        have := hD d (by simp)
        omega
      have hback : (s.store d).backward = (s.header :: (P ++ D2)).getLast? :=
        backInv_at (P ++ D2) C s.header hInv.backs d R hCsplit
      rw [hcur]
      by_cases hPD : P ++ D2 = []
      · have hbhdr : (s.store d).backward = some s.header := by
          rw [hback, hPD]
          rfl
        have hPnil : P = [] := (List.append_eq_nil.1 hPD).1
        rw [if_pos hPnil]
        simp [skipLoop, hdne, hkd, hbhdr]
      · cases hq : (P ++ D2).getLast? with
        | none => exact absurd (List.getLast?_eq_none_iff.1 hq) hPD
        | some q =>
            have hqC : q ∈ C := by
              obtain ⟨B2, hB2⟩ := List.getLast?_eq_some_iff.1 hq
              rw [hCsplit, hB2]
              simp
            have hqne : ¬ q = s.header := fun h => hhdrC (h ▸ hqC)
            have hbq : (s.store d).backward = some q := by
              rw [hback, getLast?_cons_of_ne s.header (P ++ D2) hPD, hq]
            have hbnh : ¬ (s.store d).backward = some s.header := by
              rw [hbq]
              intro h
              injection h with h
              exact hqne h
            have hstep : skipLoop s e (f+1) (some d)
                = skipLoop s e f ((s.store d).backward) := by
              simp [skipLoop, hdne, hkd, hbnh]
            rw [hstep, hbq, ← hq,
              ← getLast?_cons_of_ne s.header (P ++ D2) hPD]
            have hpre2 : (P ++ D2).IsPrefix C := by
              refine ⟨d :: R, ?_⟩
              rw [hCsplit]
            have hD2 : ∀ x ∈ D2, e < key s x := fun x hx =>
              hD x (List.mem_append_left _ hx)
            have hf2 : D2.length < f := by
              simp only [List.length_append, List.length_cons,
                List.length_nil] at hf
              omega
            exact ihD P hpre2 hD2 hP f hf2

/-- Continuing a reverse bounded iteration from the last node of a
`≤ e` prefix `A` of the base list visits the remaining keys of `A` in
reverse. -/
lemma visitSeq_from {s : SkipList} {C : List Nat} (hInv : Inv s C)
    (nl : Bool) (lk : Nat) (e : Int) :
    ∀ (A : List Nat) (c : Nat), A.getLast? = some c →
      A.IsPrefix C → (∀ x ∈ A, key s x ≤ e) →
      ∀ n, A.length - 1 ≤ n →
      visitSeq s (mkRevIt nl lk e (some c)) n
        = ((A.dropLast).map (key s)).reverse := by
  have hhdrC : s.header ∉ C := (List.nodup_cons.1 hInv.nodupC).1
  intro A
  induction A using List.reverseRecOn with
  | nil =>
      intro c hc
      simp at hc
  | append_singleton A2 a ih =>
      intro c hc hpre hkle n hn
      have hca : a = c := by
        rw [List.getLast?_concat] at hc
        injection hc
      subst hca
      obtain ⟨R, hR⟩ := hpre
      have hCsplit : C = A2 ++ a :: R := by
        rw [← hR]
        simp
      have haC : a ∈ C := by
        rw [hCsplit]
        exact List.mem_append_right _ (List.mem_cons_self _ _)
      have hane : a ≠ s.header := fun h => hhdrC (h ▸ haC)
      have hback : (s.store a).backward = (s.header :: A2).getLast? :=
        backInv_at A2 C s.header hInv.backs a R hCsplit
      by_cases hA2 : A2 = []
      · have hb : (s.store a).backward = some s.header := by
          rw [hback, hA2]
          rfl
        cases n with
        | zero => simp [visitSeq, hA2]
        | succ m =>
            rw [visitSeq_succ, Next_rev_back_hdr nl lk e a hane hb]
            simp [hA2]
      · cases hp : A2.getLast? with
        | none => exact absurd (List.getLast?_eq_none_iff.1 hp) hA2
        | some p =>
            obtain ⟨B2, hB2⟩ := List.getLast?_eq_some_iff.1 hp
            have hpA2 : p ∈ A2 := by
              rw [hB2]
              simp
            have hpC : p ∈ C := by
              rw [hCsplit]
              exact List.mem_append_left _ hpA2
            have hpne : p ≠ s.header := fun h => hhdrC (h ▸ hpC)
            have hbq : (s.store a).backward = some p := by
              rw [hback, getLast?_cons_of_ne s.header A2 hA2, hp]
            have hbnh : ¬ (s.store a).backward = some s.header := by
              rw [hbq]
              intro h
              injection h with h
              exact hpne h
            obtain ⟨f, hf⟩ : ∃ f, s.nextId = f + 1 :=
              ⟨s.nextId - 1, by have := hInv.hdrLt; omega⟩
            have hkp : cmpInt (key s p) e ≤ 0 :=
              (cmpInt_le_iff _ _).2
                (hkle p (List.mem_append_left _ hpA2))
            have hskip : skipLoop s e s.nextId ((s.store a).backward)
                = (true, some p) := by
              rw
                [hbq, hf]
              simp [skipLoop, hpne, hkp]
            have hs1 : (skipLoop s e s.nextId ((s.store a).backward)).1
                = true := by rw [hskip]
            have hs2 : (skipLoop s e s.nextId ((s.store a).backward)).2
                = some p := by rw [hskip]
            cases n with
            | zero =>
                exfalso
                rw [List.length_append] at hn
                simp only [List.length_cons, List.length_nil] at hn
                have : A2.length = 0 := by omega
                exact hA2 (List.length_eq_zero.1 this)
            | succ m =>
                rw [visitSeq_succ, Next_rev_back nl lk e a hane hbnh, hs1,
                  hs2, if_pos rfl, keyAt_mk nl lk e p hpne,
                  Option.getD_some]
                have hpre2 : A2.IsPrefix C := by
                  refine ⟨a :: R, ?_⟩
                  rw [hCsplit]
                have hkle2 : ∀ x ∈ A2, key s x ≤ e := fun x hx =>
                  hkle x (List.mem_append_left _ hx)
                have hm : A2.length - 1 ≤ m := by
                  rw [List.length_append] at hn
                  simp only [List.length_cons, List.length_nil] at hn
                  omega
                rw [ih p hp hpre2 hkle2 m hm]
                rw [List.dropLast_concat]
                conv_rhs => rw [hB2]
                rw [List.map_append, List.reverse_append, List.map_cons,
                  List.map_nil, List.reverse_cons, List.reverse_nil,
                  List.nil_append, List.singleton_append, hB2,
                  List.dropLast_concat]

/-- C6: a reverse iterator with inclusive end bound `e` visits, via
repeated `Next`, exactly the stored keys `≤ e` in strictly decreasing
order (the reverse of the sorted `≤ e` keys, starting at the largest) and
then exhausts; when no stored key is `≤ e` the very first `Next` returns
`false`. -/
theorem C6_reverse_end_bound_visits (b : Bool) (s : SkipList)
    (hs : Reachable b s) (e : Int) (n : Nat) (hn : s.nextId ≤ n) :
    visitSeq s (NewIterator s [WithReverse, WithEnd e]) n
      = ((absKeys s).filter (fun a => decide (a ≤ e))).reverse ∧
    (visitSeq s (NewIterator s [WithReverse, WithEnd e]) n).Pairwise
      (fun a c => c < a) ∧
    (((absKeys s).filter (fun a => decide (a ≤ e))) = [] →
      (Iter.Next s (NewIterator s [WithReverse, WithEnd e])).1 = false) := by
  obtain ⟨C, hInv⟩ := reachable_inv hs
  have hmk : NewIterator s [WithReverse, WithEnd e] = mkRevIt false 0 e none
    := rfl
  have hhdrC : s.header ∉ C := (List.nodup_cons.1 hInv.nodupC).1
  have habsf : (absKeys s).filter (fun a => decide (a ≤ e))
      = (C.takeWhile (fun x => decide (key s x ≤ e))).map (key s) := by
    rw [absKeys_eq hInv, map_key_filter (fun a => decide (a ≤ e)) C,
      takeWhile_eq_filter_keys_le C hInv.sorted]
  have hTpre : (C.takeWhile (fun x => decide (key s x ≤ e))).IsPrefix C :=
    List.takeWhile_prefix _
  have hTk : ∀ x ∈ C.takeWhile (fun x => decide (key s x ≤ e)),
      key s x ≤ e := by
    intro x hx
    simpa using List.mem_takeWhile_imp hx
  have hDk : ∀ x ∈ C.dropWhile (fun x => decide (key s x ≤ e)),
      e < key s x := sorted_dropWhile_gt C hInv.sorted
  have hTD : C.takeWhile (fun x => decide (key s x ≤ e)) ++
      C.dropWhile (fun x => decide (key s x ≤ e)) = C :=
    List.takeWhile_append_dropWhile _ _
  have hfuel : (C.dropWhile (fun x => decide (key s x ≤ e))).length
      < s.nextId := by
    have h1 := length_lt_nextId hInv
    have h2 : (C.dropWhile (fun x => decide (key s x ≤ e))).length
        ≤ C.length := List.Sublist.length_le (List.dropWhile_sublist _)
    omega
  obtain ⟨m, hm⟩ : ∃ m, n = m + 1 := by
    refine ⟨n - 1, ?_⟩
    have := hInv.hdrLt
    omega
  have hmain : visitSeq s (NewIterator s [WithReverse, WithEnd e]) n
      = ((absKeys s).filter (fun a => decide (a ≤ e))).reverse := by
    rw [hmk, habsf]
    cases hCL : C.getLast? with
    | none =>
        have hCnil : C = [] := List.getLast?_eq_none_iff.1 hCL
        have hlast : lastInternal s = none := by
          rw [lastInternal_eq hInv, hCL]
        rw [hm, visitSeq_succ, Next_rev_nil_none false 0 e hlast]
        simp [hCnil]
    | some d =>
        have hCne : C ≠ [] := by
          intro h
          rw [h] at hCL
          simp at hCL
        have hlast : lastInternal s = some d := by
          rw [lastInternal_eq hInv, hCL]
        have hcur : (s.header :: (C.takeWhile (fun x => decide (key s x ≤ e))
            ++ C.dropWhile (fun x => decide (key s x ≤ e)))).getLast?
            = some d := by
          rw [hTD, getLast?_cons_of_ne s.header C hCne, hCL]
        have hskipd := skipLoop_desc hInv e
          (C.dropWhile (fun x => decide (key s x ≤ e)))
          (C.takeWhile (fun x => decide (key s x ≤ e)))
          (by rw [hTD]) hDk hTk s.nextId hfuel
        rw [hcur] at hskipd
        rw [hm, visitSeq_succ, Next_rev_nil_some false 0 e d hlast]
        by_cases hT : C.takeWhile (fun x => decide (key s x ≤ e)) = []
        · rw [if_pos hT] at hskipd
          have hs1 : (skipLoop s e s.nextId (some d)).1 = false := by
            rw [hskipd]
          rw [hs1]
          simp [hT]
        · rw [if_neg hT] at hskipd
          cases hTL : (C.takeWhile (fun x => decide (key s x ≤ e))).getLast?
            with
          | none => exact absurd (List.getLast?_eq_none_iff.1 hTL) hT
          | some t =>
              have hs1 : (skipLoop s e s.nextId (some d)).1 = true := by
                rw [hskipd]
              have hs2 : (skipLoop s e s.nextId (some d)).2 = some t := by
                rw [hskipd, hTL]
              have htC : t ∈ C := by
                obtain ⟨B2, hB2⟩ := List.getLast?_eq_some_iff.1 hTL
                obtain ⟨R, hR⟩ := hTpre
                rw [← hR, hB2]
                simp
              have htne : t ≠ s.header := fun h => hhdrC (h ▸ htC)
              rw [hs1, hs2, if_pos rfl, keyAt_mk false 0 e t htne,
                Option.getD_some]
              have hlenT : (C.takeWhile
                  (fun x => decide (key s x ≤ e))).length - 1 ≤ m := by
                have h1 := length_lt_nextId hInv
                have h2 := List.Sublist.length_le
                  (List.takeWhile_sublist
                    (fun x => decide (key s x ≤ e)) (l := C))
                omega
              rw [visitSeq_from hInv false 0 e
                (C.takeWhile (fun x => decide (key s x ≤ e))) t hTL hTpre
                hTk m hlenT]
              obtain ⟨B2, hB2⟩ := List.getLast?_eq_some_iff.1 hTL
              conv_rhs => rw [hB2]
              rw [List.map_append, List.reverse_append, List.map_cons,
                List.map_nil, List.reverse_cons, List.reverse_nil,
                List.nil_append, List.singleton_append, hB2,
                List.dropLast_concat]
  refine ⟨hmain, ?_, ?_⟩
  · rw [hmain, List.pairwise_reverse]
    refine List.Pairwise.filter _ ?_
    rw [absKeys_eq hInv]
    exact List.pairwise_map.2 hInv.sorted
  · intro hnil
    rw [habsf] at hnil
    have hT : C.takeWhile (fun x => decide (key s x ≤ e)) = [] := by
      cases h : C.takeWhile (fun x => decide (key s x ≤ e)) with
      | nil => rfl
      | cons x rest =>
          rw [h] at hnil
          simp at hnil
    rw [hmk]
    cases hCL : C.getLast? with
    | none =>
        have hlast : lastInternal s = none := by
          rw [lastInternal_eq hInv, hCL]
        rw [Next_rev_nil_none false 0 e hlast]
    | some d =>
        have hCne : C ≠ [] := by
          intro h
          rw [h] at hCL
          simp at hCL
        have hlast : lastInternal s = some d := by
          rw [lastInternal_eq hInv, hCL]
        have hcur : (s.header :: (C.takeWhile (fun x => decide (key s x ≤ e))
            ++ C.dropWhile (fun x => decide (key s x ≤ e)))).getLast?
            = some d := by
          rw [hTD, getLast?_cons_of_ne s.header C hCne, hCL]
        have hskipd := skipLoop_desc hInv e
          (C.dropWhile (fun x => decide (key s x ≤ e)))
          (C.takeWhile (fun x => decide (key s x ≤ e)))
          (by rw [hTD]) hDk hTk s.nextId hfuel
        rw [hcur, if_pos hT] at hskipd
        rw [Next_rev_nil_some false 0 e d hlast]
        show (skipLoop s e s.nextId (some d)).1 = false
        rw [hskipd]

theorem C6_reverse_end_bound_visits_witness :
    Reachable false (exec (initState false)
      [Op.insert 10 1 1, Op.insert 20 2 1, Op.insert 30 3 1]) ∧
    (exec (initState false)
      [Op.insert 10 1 1, Op.insert 20 2 1, Op.insert 30 3 1]).nextId ≤ 4 ∧
    (visitSeq (exec (initState false)
        [Op.insert 10 1 1, Op.insert 20 2 1, Op.insert 30 3 1])
      (NewIterator (exec (initState false)
        [Op.insert 10 1 1, Op.insert 20 2 1, Op.insert 30 3 1])
        [WithReverse, WithEnd 25]) 4
      = ((absKeys (exec (initState false)
          [Op.insert 10 1 1, Op.insert 20 2 1, Op.insert 30 3 1])).filter
            (fun a => decide (a ≤ 25))).reverse ∧
    (visitSeq (exec (initState false)
        [Op.insert 10 1 1, Op.insert 20 2 1, Op.insert 30 3 1])
      (NewIterator (exec (initState false)
        [Op.insert 10 1 1, Op.insert 20 2 1, Op.insert 30 3 1])
        [WithReverse, WithEnd 25]) 4).Pairwise (fun a c => c < a) ∧
    (((absKeys (exec (initState false)
        [Op.insert 10 1 1, Op.insert 20 2 1, Op.insert 30 3 1])).filter
          (fun a => decide (a ≤ 25))) = [] →
      (Iter.Next (exec (initState false)
          [Op.insert 10 1 1, Op.insert 20 2 1, Op.insert 30 3 1])
        (NewIterator (exec (initState false)
          [Op.insert 10 1 1, Op.insert 20 2 1, Op.insert 30 3 1])
          [WithReverse, WithEnd 25])).1 = false)) :=
  ⟨⟨[Op.insert 10 1 1, Op.insert 20 2 1, Op.insert 30 3 1], rfl⟩,
    by decide,
    C6_reverse_end_bound_visits false _
      ⟨[Op.insert 10 1 1, Op.insert 20 2 1, Op.insert 30 3 1], rfl⟩ 25 4
      (by decide)⟩

end Skiplist
